import Mathlib

/-!
MindBoggler++ interpreter core: a shallow embedding.

The definitions below embed `src/INTERPRETER/Interpreter.cpp` (class `Interpreter`):
the policy-governed tape primitives `movePointer` / `modifyCell`, the syntax check,
the bytecode compiler, the three executors (`step` / `runUntilEnd`,
`runProgramFast`, `runProgramFastInterruptible`) and, for what it does to the state,
`generatePseudocode`.

Modelling conventions.

* A C++ `int` is a mathematical `Int`; signed overflow (undefined behaviour in C++) is
  outside the model.  C++ `%` is truncated remainder, `Int.tmod`.
* A C++ exception is an `Outcome.thrown` carrying the interpreter state at the moment
  of the `throw`, because the object survives the exception and stays observable.
* `std::string program` is a `List Char`.  An input text (`inputData`, a reply of the
  input callback) is the list of the values `static_cast<int>(c)` of its characters.
* `outputBuffer` is the list of the emitted bytes, each read as an unsigned value
  `0..255` (`static_cast<char>` keeps the value modulo 256).
* `std::function<std::string()> inputCallback` is `none` when unset, and otherwise the
  list of the replies its successive invocations will give (the empty text once the
  list is used up).
* `program[pc]` and `compiledProgram[pc]` outside the container (an index below 0, or at
  or past the size) are undefined behaviour in C++; the embedding reads a default there:
  a character that is no operator, an instruction that does nothing.
* `memory[pointer]` outside the tape is undefined behaviour in C++ as well; the
  embedding addresses the tape at `pointer.toNat`, reads 0 past its end and writes
  nothing there.  The pointer of every reachable state is on the tape.
-/

namespace MindBoggler

/-- The enum `PointerBehavior` of `Interpreter.h`. -/
inductive PointerBehavior
  | CLAMP
  | WRAP
  | ERROR
  deriving DecidableEq, Repr

/-- The enum `CellBehavior` of `Interpreter.h`. -/
inductive CellBehavior
  | WRAP
  | UNLIMITED
  | ERROR
  deriving DecidableEq, Repr

/-- The exceptions thrown by the interpreter.  The first two are `PointerOverflowError`
(message "Pointer underflow" / "Pointer overflow"), the next three are
`CellOverflowError` ("Cell underflow", "Cell overflow", "Input value ... out of range"),
the others are `std::runtime_error`. -/
inductive Error
  | pointerUnderflow (newPointer : Int)
  | pointerOverflow (newPointer : Int)
  | cellUnderflow (pointer newValue : Int)
  | cellOverflow (pointer newValue : Int)
  | inputOutOfRange (inputValue : Int)
  | noProgram
  | syntaxErrors (errors : List (Int × Char))
  | unmatchedClose
  | unmatchedOpen
  deriving DecidableEq, Repr

/-- The exception is a `PointerOverflowError`. -/
def Error.isPointerOverflowError : Error → Bool
  | .pointerUnderflow _ => true
  | .pointerOverflow _ => true
  | _ => false

/-- The exception is a `CellOverflowError`. -/
def Error.isCellOverflowError : Error → Bool
  | .cellUnderflow _ _ => true
  | .cellOverflow _ _ => true
  | .inputOutOfRange _ => true
  | _ => false

/-- A compiled instruction, `std::pair<char, int>`. -/
abbrev Instr := Char × Int

/-- The data members of class `Interpreter`. -/
structure Interpreter where
  memory : List Int
  program : List Char
  outputBuffer : List Nat
  inputBuffer : List Int
  compiledProgram : List Instr
  memorySize : Int
  pointer : Int
  pc : Int
  running : Bool
  fastPc : Int
  fastSteps : Int
  pointerBehavior : PointerBehavior
  cellBehavior : CellBehavior
  inputCallback : Option (List (List Int))
  deriving DecidableEq, Repr

/-- The result of a member function: a normal return with its value, or a thrown
exception; either way with the state the object is left in. -/
inductive Outcome (α : Type)
  | ok (value : α) (vm : Interpreter)
  | thrown (e : Error) (vm : Interpreter)
  deriving DecidableEq, Repr

/-- The state the object is left in. -/
def Outcome.vm {α : Type} : Outcome α → Interpreter
  | .ok _ s => s
  | .thrown _ s => s

/-- The call threw. -/
def Outcome.failed {α : Type} : Outcome α → Bool
  | .ok _ _ => false
  | .thrown _ _ => true

/-- Sequencing: when the first call returns, carry on with its value and state; when it
throws, the exception propagates with the state it left. -/
def Outcome.andThen {α β : Type} (o : Outcome α) (f : α → Interpreter → Outcome β) : Outcome β :=
  match o with
  | .ok v s => f v s
  | .thrown e s => .thrown e s

/-- `Interpreter::reset`. -/
def reset (s : Interpreter) : Interpreter :=
  { s with
    pointer := 0
    memory := List.replicate s.memorySize.toNat 0
    program := []
    pc := 0
    outputBuffer := []
    inputBuffer := []
    running := false
    compiledProgram := []
    fastPc := 0
    fastSteps := 0 }

/-- The constructor `Interpreter::Interpreter(int memorySize = 30000)`: the member
initialisers followed by `reset()`. -/
def Interpreter.new (memorySize : Int := 30000) : Interpreter :=
  reset
    { memory := []
      program := []
      outputBuffer := []
      inputBuffer := []
      compiledProgram := []
      memorySize := memorySize
      pointer := 0
      pc := 0
      running := false
      fastPc := 0
      fastSteps := 0
      pointerBehavior := .CLAMP
      cellBehavior := .WRAP
      inputCallback := none }

/-- `Interpreter::configure`. -/
def configure (s : Interpreter) (ptrBehavior : PointerBehavior) (cellBehavior : CellBehavior) :
    Interpreter :=
  { s with pointerBehavior := ptrBehavior, cellBehavior := cellBehavior }

/-- `Interpreter::loadProgram`; `inputData` is given by the `int` values of its
characters, which the loop pushes one by one. -/
def loadProgram (s : Interpreter) (program : List Char) (inputData : List Int := []) :
    Interpreter :=
  { s with
    program := program
    pc := 0
    outputBuffer := []
    inputBuffer := inputData
    running := true
    compiledProgram := [] }

/-- `Interpreter::setInputCallback`. -/
def setInputCallback (s : Interpreter) (callback : Option (List (List Int))) : Interpreter :=
  { s with inputCallback := callback }

/-- The read `memory[pointer]`. -/
def cell (s : Interpreter) : Int := s.memory.getD s.pointer.toNat 0

/-- The write `memory[pointer] = v`. -/
def setCell (s : Interpreter) (v : Int) : Interpreter :=
  { s with memory := s.memory.set s.pointer.toNat v }

/-- `Interpreter::movePointer`. -/
def movePointer (s : Interpreter) (delta : Int) : Outcome Unit :=
  let newPointer := s.pointer + delta
  match s.pointerBehavior with
  | .CLAMP => .ok () { s with pointer := max 0 (min newPointer (s.memorySize - 1)) }
  | .WRAP =>
      .ok () { s with
        pointer := Int.tmod (Int.tmod newPointer s.memorySize + s.memorySize) s.memorySize }
  | .ERROR =>
      if newPointer < 0 then .thrown (.pointerUnderflow newPointer) s
      else if newPointer ≥ s.memorySize then .thrown (.pointerOverflow newPointer) s
      else .ok () { s with pointer := newPointer }

/-- `Interpreter::modifyCell`. -/
def modifyCell (s : Interpreter) (delta : Int) : Outcome Unit :=
  let newValue := cell s + delta
  match s.cellBehavior with
  | .WRAP => .ok () (setCell s (Int.tmod (Int.tmod newValue 256 + 256) 256))
  | .UNLIMITED => .ok () (setCell s newValue)
  | .ERROR =>
      if newValue < 0 then .thrown (.cellUnderflow s.pointer newValue) s
      else if newValue > 255 then .thrown (.cellOverflow s.pointer newValue) s
      else .ok () (setCell s newValue)

/-- The set `allowed` of `checkProgramSyntax`. -/
def allowed (c : Char) : Bool :=
  c = '[' || c = ']' || c = '.' || c = ',' || c = '<' || c = '>' || c = '+' || c = '-'

/-- The loop of `checkProgramSyntax` from index `i` on, over the rest of the text. -/
def checkSyntaxFrom : List Char → Nat → List (Int × Char)
  | [], _ => []
  | c :: cs, i =>
      if allowed c then checkSyntaxFrom cs (i + 1)
      else ((i : Int), c) :: checkSyntaxFrom cs (i + 1)

/-- `Interpreter::checkProgramSyntax`. -/
def checkProgramSyntax (s : Interpreter) : List (Int × Char) :=
  checkSyntaxFrom s.program 0

/-- The inner loop of `compileProgram`: how many characters directly after the current
one repeat `cmd`. -/
def runLength (cmd : Char) : List Char → Nat
  | [] => 0
  | c :: cs => if c = cmd then runLength cmd cs + 1 else 0

/-- The main loop of `compileProgram`, on the text from `pc` on (`rest`), with the
instructions emitted so far and the stack of pending `[` slots (top first).  `fuel`
bounds the number of iterations; the length of `rest` is enough.  The state carried by
a throw is the instruction list built so far, which is the member `compiledProgram`. -/
def compileLoop : Nat → List Char → List Instr → List Nat → Except (Error × List Instr) (List Instr)
  | 0, _, out, stack =>
      if stack ≠ [] then .error (.unmatchedOpen, out) else .ok out
  | _ + 1, [], out, stack =>
      if stack ≠ [] then .error (.unmatchedOpen, out) else .ok out
  | fuel + 1, cmd :: rest, out, stack =>
      if cmd = '[' then
        compileLoop fuel rest (out ++ [('[', -1)]) (out.length :: stack)
      else if cmd = ']' then
        match stack with
        | [] => .error (.unmatchedClose, out)
        | startIdx :: stack1 =>
            let endIdx := out.length
            compileLoop fuel rest ((out ++ [(']', (startIdx : Int))]).modify
              (fun p => (p.1, (endIdx : Int))) startIdx) stack1
      else if cmd = '>' ∨ cmd = '<' ∨ cmd = '+' ∨ cmd = '-' then
        let n := runLength cmd rest
        compileLoop fuel (rest.drop n) (out ++ [(cmd, ((1 + n : Nat) : Int))]) stack
      else if cmd = '.' ∨ cmd = ',' then
        compileLoop fuel rest (out ++ [(cmd, 0)]) stack
      else
        compileLoop fuel rest out stack

/-- `Interpreter::compileProgram`. -/
def compileProgram (s : Interpreter) : Outcome (List Instr) :=
  if s.program = [] then .thrown .noProgram s
  else
    let errors := checkProgramSyntax s
    if errors ≠ [] then .thrown (.syntaxErrors errors) s
    else
      match compileLoop s.program.length s.program [] [] with
      | .ok code => .ok code { s with compiledProgram := code }
      | .error (e, code) => .thrown e { s with compiledProgram := code }

/-- The conversion `static_cast<char>(x)`, the resulting byte read as unsigned. -/
def toByte (x : Int) : Nat := (x % 256).toNat

/-- The body of `case '.'`, the same text in the three executors. -/
def outputCell (s : Interpreter) : Interpreter :=
  let cellValue := cell s
  if s.cellBehavior = .UNLIMITED ∧ (cellValue < 0 ∨ cellValue > 255) then
    { s with outputBuffer := s.outputBuffer ++ [toByte (max 0 (min 255 cellValue))] }
  else
    { s with outputBuffer := s.outputBuffer ++ [toByte (Int.tmod cellValue 256)] }

/-- One invocation of the input callback: its reply and the replies still to come. -/
def invokeCallback : List (List Int) → List Int × List (List Int)
  | [] => ([], [])
  | reply :: later => (reply, later)

/-- The block shared by both branches of `case ','` once `inputBuffer` is known to be
non-empty: take the front value, erase it, range-check it under the ERROR cell policy,
store it. -/
def storeFront (s : Interpreter) (inputValue : Int) (rest : List Int) : Outcome Unit :=
  let s1 := { s with inputBuffer := rest }
  if s.cellBehavior = .ERROR ∧ (inputValue < 0 ∨ inputValue > 255) then
    .thrown (.inputOutOfRange inputValue) s1
  else
    .ok () (setCell s1 inputValue)

/-- The body of `case ','`, the same text in the three executors. -/
def inputCell (s : Interpreter) : Outcome Unit :=
  match s.inputBuffer with
  | inputValue :: rest => storeFront s inputValue rest
  | [] =>
      match s.inputCallback with
      | some callback =>
          let (inputData, later) := invokeCallback callback
          let s1 := { s with inputCallback := some later }
          if inputData ≠ [] then
            match s1.inputBuffer ++ inputData with
            | inputValue :: rest => storeFront s1 inputValue rest
            | [] => .ok () (setCell s1 0)
          else .ok () (setCell s1 0)
      | none => .ok () (setCell s 0)

/-- The `switch` of `runProgramFast` and of `runProgramFastInterruptible` on one
compiled instruction at position `pc`; the value is the position after the `switch`
(before the `pc++` that follows it). -/
def execInstr (s : Interpreter) (pc : Int) (instr : Instr) : Outcome Int :=
  let cmd := instr.1
  let arg := instr.2
  if cmd = '>' then (movePointer s arg).andThen fun _ s1 => .ok pc s1
  else if cmd = '<' then (movePointer s (-arg)).andThen fun _ s1 => .ok pc s1
  else if cmd = '+' then (modifyCell s arg).andThen fun _ s1 => .ok pc s1
  else if cmd = '-' then (modifyCell s (-arg)).andThen fun _ s1 => .ok pc s1
  else if cmd = '.' then .ok pc (outputCell s)
  else if cmd = ',' then (inputCell s).andThen fun _ s1 => .ok pc s1
  else if cmd = '[' then
    if cell s = 0 then .ok arg s else .ok pc s
  else if cmd = ']' then
    if cell s ≠ 0 then .ok arg s else .ok pc s
  else .ok pc s

/-- The read `compiledProgram[pc]`; outside the container it gives an instruction that
does nothing. -/
def instrAt (code : List Instr) (pc : Int) : Instr :=
  if pc < 0 then (' ', 0) else code.getD pc.toNat (' ', 0)

/-- The `while` loop of `runProgramFast`; `budget` is `maxSteps - steps`, so that
`steps < maxSteps` is `budget > 0`.  The value is the final `(pc, steps)`. -/
def fastLoop : Nat → Int → Int → Interpreter → Outcome (Int × Int)
  | 0, pc, steps, s => .ok (pc, steps) s
  | budget + 1, pc, steps, s =>
      if pc < (s.compiledProgram.length : Int) then
        match execInstr s pc (instrAt s.compiledProgram pc) with
        | .ok pc1 s1 => fastLoop budget (pc1 + 1) (steps + 1) s1
        | .thrown e s1 => .thrown e s1
      else .ok (pc, steps) s

/-- The lazy compilation at the head of both compiled runners. -/
def ensureCompiled (s : Interpreter) : Outcome Unit :=
  if s.compiledProgram = [] then (compileProgram s).andThen fun _ s1 => .ok () s1
  else .ok () s

/-- `Interpreter::runProgramFast`. -/
def runProgramFast (s : Interpreter) (maxSteps : Int := 1000000) : Outcome Int :=
  (ensureCompiled s).andThen fun _ s1 =>
    (fastLoop maxSteps.toNat 0 0 s1).andThen fun r s2 => .ok r.2 { s2 with running := false }

/-- The `while` loop of `runProgramFastInterruptible`; `chunkBudget` is
`stepsPerChunk - chunkSteps`. -/
def chunkLoop (maxSteps : Int) : Nat → Interpreter → Outcome Unit
  | 0, s => .ok () s
  | chunkBudget + 1, s =>
      if s.fastPc < (s.compiledProgram.length : Int) ∧ s.fastSteps < maxSteps then
        match execInstr s s.fastPc (instrAt s.compiledProgram s.fastPc) with
        | .ok pc1 s1 =>
            chunkLoop maxSteps chunkBudget
              { s1 with fastPc := pc1 + 1, fastSteps := s1.fastSteps + 1 }
        | .thrown e s1 => .thrown e s1
      else .ok () s

/-- `Interpreter::runProgramFastInterruptible`. -/
def runProgramFastInterruptible (s : Interpreter) (stepsPerChunk : Int := 10000)
    (maxSteps : Int := 1000000) : Outcome Bool :=
  (ensureCompiled s).andThen fun _ s1 =>
    (chunkLoop maxSteps stepsPerChunk.toNat s1).andThen fun _ s2 =>
      if s2.fastPc ≥ (s2.compiledProgram.length : Int) ∨ s2.fastSteps ≥ maxSteps then
        .ok false { s2 with running := false, fastPc := 0, fastSteps := 0 }
      else .ok true s2

/-- The forward bracket scan of `step` (`case '['`), over the text after the current
position: `pc` is the position of the head of the list, `depth` the nesting depth
before it (at least 1, so that `depth--` stays in `Nat`).  `none` when the scan runs
off the end of the text. -/
def scanForward : List Char → Nat → Int → Option Int
  | [], _, _ => none
  | c :: cs, depth, pc =>
      let depth1 := if c = '[' then depth + 1 else if c = ']' then depth - 1 else depth
      if depth1 > 0 then scanForward cs depth1 (pc + 1) else some pc

/-- The backward bracket scan of `step` (`case ']'`), over the text before the current
position, nearest character first.  `none` when the scan runs off the start. -/
def scanBackward : List Char → Nat → Int → Option Int
  | [], _, _ => none
  | c :: cs, depth, pc =>
      let depth1 := if c = ']' then depth + 1 else if c = '[' then depth - 1 else depth
      if depth1 > 0 then scanBackward cs depth1 (pc - 1) else some pc

/-- The tail of `step`: `pc++; return true;`. -/
def stepDone (s : Interpreter) : Outcome Bool := .ok true { s with pc := s.pc + 1 }

/-- The read `program[pc]`; outside the text it gives a character that is no
operator. -/
def charAt (program : List Char) (pc : Int) : Char :=
  if pc < 0 then ' ' else program.getD pc.toNat ' '

/-- `Interpreter::step`. -/
def step (s : Interpreter) : Outcome Bool :=
  if s.running = false ∨ s.pc ≥ (s.program.length : Int) then
    .ok false { s with running := false }
  else
    let ch := charAt s.program s.pc
    if ch = '>' then (movePointer s 1).andThen fun _ s1 => stepDone s1
    else if ch = '<' then (movePointer s (-1)).andThen fun _ s1 => stepDone s1
    else if ch = '+' then (modifyCell s 1).andThen fun _ s1 => stepDone s1
    else if ch = '-' then (modifyCell s (-1)).andThen fun _ s1 => stepDone s1
    else if ch = '.' then stepDone (outputCell s)
    else if ch = ',' then (inputCell s).andThen fun _ s1 => stepDone s1
    else if ch = '[' then
      if cell s = 0 then
        match scanForward (s.program.drop (s.pc + 1).toNat) 1 (s.pc + 1) with
        | some pc1 => stepDone { s with pc := pc1 }
        | none => .thrown .unmatchedOpen { s with pc := s.program.length }
      else stepDone s
    else if ch = ']' then
      if cell s ≠ 0 then
        match scanBackward ((s.program.take s.pc.toNat).reverse) 1 (s.pc - 1) with
        | some pc1 => stepDone { s with pc := pc1 }
        | none => .thrown .unmatchedClose { s with pc := -1 }
      else stepDone s
    else stepDone s

/-- The loop of `runUntilEnd`; `budget` is `maxSteps - steps`. -/
def runLoop : Nat → Int → Interpreter → Outcome Int
  | 0, steps, s => .ok steps s
  | budget + 1, steps, s =>
      if s.running then
        match step s with
        | .ok true s1 => runLoop budget (steps + 1) s1
        | .ok false s1 => .ok steps s1
        | .thrown e s1 => .thrown e s1
      else .ok steps s

/-- `Interpreter::runUntilEnd`. -/
def runUntilEnd (s : Interpreter) (maxSteps : Int := 1000000) : Outcome Int :=
  runLoop maxSteps.toNat 0 s

/-- The text of the end-to-end example of the specification. -/
def helloWorld : List Char :=
  "++++++++++[>+++++++>++++++++++>+++>+<<<<-]>++.>+.+++++++..+++.>++.<<+++++++++++++++.>.+++.------.--------.>+.>.".toList

/-! ## Vocabulary of the properties -/

/-- The value a call returned, when it returned. -/
def Outcome.value? {α : Type} : Outcome α → Option α
  | .ok v _ => some v
  | .thrown _ _ => none

/-- The exception a call threw, when it threw. -/
def Outcome.error? {α : Type} : Outcome α → Option Error
  | .ok _ _ => none
  | .thrown e _ => some e

/-- The eight operators of the language. -/
def operators : List Char := ['>', '<', '+', '-', '.', ',', '[', ']']

/-- The operators the compiler merges into runs. -/
def mergeable (c : Char) : Prop := c = '>' ∨ c = '<' ∨ c = '+' ∨ c = '-'

instance (c : Char) : Decidable (mergeable c) := by unfold mergeable; infer_instance

/-- The positions of the text whose character is not an operator, each with its
character, in increasing order of position. -/
def offenders (program : List Char) : List (Int × Char) :=
  ((List.range program.length).filter (fun i => decide (program.getD i ' ' ∉ operators))).map
    (fun (i : Nat) => ((i : Int), program.getD i ' '))

/-- `n` successive calls of a primitive, stopping at the first one that throws. -/
def repeatOp (op : Interpreter → Outcome Unit) : Nat → Interpreter → Outcome Unit
  | 0, s => .ok () s
  | n + 1, s =>
      match op s with
      | .ok _ s1 => repeatOp op n s1
      | .thrown e s1 => .thrown e s1

/-- Two ways of running agree in the sense of the run-length claim: they fail in the
same cases and leave the same pointer and the same tape, failed or not. -/
def MergeAgrees (a b : Outcome Unit) : Prop :=
  a.failed = b.failed ∧ a.vm.pointer = b.vm.pointer ∧ a.vm.memory = b.vm.memory

instance (a b : Outcome Unit) : Decidable (MergeAgrees a b) := by
  unfold MergeAgrees; infer_instance

/-- A merged instruction against the unit operations it replaces, from state `s`: both
fail in the same cases, a success leaves the same state, and a failing merged
instruction leaves `s` as it was. -/
def MergeRefines (s : Interpreter) (merged units : Outcome Unit) : Prop :=
  merged.failed = units.failed ∧ (merged.failed = false → merged = units) ∧
    (merged.failed = true → merged.vm = s)

/-- A state of a VM of capacity at least 1: the tape has `memorySize` cells and the
pointer is on the tape. -/
def WellFormed (s : Interpreter) : Prop :=
  1 ≤ s.memorySize ∧ s.memory.length = s.memorySize.toNat ∧ 0 ≤ s.pointer ∧
    s.pointer < s.memorySize

instance (s : Interpreter) : Decidable (WellFormed s) := by
  unfold WellFormed; infer_instance

/-- The characters one compiled instruction stands for: the operator repeated
magnitude times for moves and arithmetic, once otherwise. -/
def expandInstr (i : Instr) : List Char :=
  if mergeable i.1 then List.replicate i.2.toNat i.1 else [i.1]

/-- The text an instruction list stands for. -/
def expand (code : List Instr) : List Char := code.flatMap expandInstr

/-- Balanced brackets: no prefix of the text has more `]` than `[`, and the totals of
`[` and `]` are equal. -/
def Balanced (program : List Char) : Prop :=
  (∀ k, k ≤ program.length → (program.take k).count ']' ≤ (program.take k).count '[') ∧
    program.count '[' = program.count ']'

/-- Some prefix of the text has more `]` than `[`. -/
def ClosesTooEarly (program : List Char) : Prop :=
  ∃ k, k ≤ program.length ∧ (program.take k).count '[' < (program.take k).count ']'

/-- Calling `runProgramFastInterruptible(stepsPerChunk, maxSteps)` again and again until
it returns `false` or throws, at most `calls` times; the value is what the last call
returned (`true` when the calls are used up before a `false`). -/
def runChunks (stepsPerChunk maxSteps : Int) : Nat → Interpreter → Outcome Bool
  | 0, s => .ok true s
  | calls + 1, s =>
      match runProgramFastInterruptible s stepsPerChunk maxSteps with
      | .ok true s1 => runChunks stepsPerChunk maxSteps calls s1
      | .ok false s1 => .ok false s1
      | .thrown e s1 => .thrown e s1

/-- The `while` loop of `runProgramFast(maxSteps)` ends with `pc` at or past the end of
the compiled program: the run finished instead of being cut by the budget. -/
def fastFinished (s : Interpreter) (maxSteps : Int) : Prop :=
  ∃ s1 pc steps s2, ensureCompiled s = .ok () s1 ∧
    fastLoop maxSteps.toNat 0 0 s1 = .ok (pc, steps) s2 ∧
    (s2.compiledProgram.length : Int) ≤ pc


/-- A VM of capacity 3 with the text `+[` loaded, whose `[` is never closed. -/
def unclosedLoopVM : Interpreter := loadProgram (Interpreter.new 3) ['+', '[']

/-- A VM of capacity 3 under the ERROR pointer policy after one `>`: pointer 1. -/
def pointerAtOneVM : Interpreter :=
  (step (loadProgram (configure (Interpreter.new 3) .ERROR .WRAP) ['>'])).vm

/-- A VM of capacity 3 that ran `--` under the UNLIMITED cell policy (cell 0 holds -2)
and was then configured to the ERROR cell policy. -/
def negativeCellVM : Interpreter :=
  configure (runProgramFast (loadProgram (configure (Interpreter.new 3) .CLAMP .UNLIMITED)
    ['-', '-'])).vm .CLAMP .ERROR

/-- The state with the chunk cursor replaced. -/
def withCursor (s : Interpreter) (fastPc fastSteps : Int) : Interpreter :=
  { s with fastPc := fastPc, fastSteps := fastSteps }

/-- The outcome with a change applied to the state it carries. -/
def Outcome.mapVm {α : Type} (f : Interpreter → Interpreter) : Outcome α → Outcome α
  | .ok v s => .ok v (f s)
  | .thrown e s => .thrown e (f s)

/-- What the tape primitives and the instruction bodies never touch: the texts, the
configuration, both cursors and the running flag. -/
def Frame (s t : Interpreter) : Prop :=
  t.program = s.program ∧ t.compiledProgram = s.compiledProgram ∧
    t.memorySize = s.memorySize ∧ t.pointerBehavior = s.pointerBehavior ∧
    t.cellBehavior = s.cellBehavior ∧ t.pc = s.pc ∧ t.running = s.running ∧
    t.fastPc = s.fastPc ∧ t.fastSteps = s.fastSteps

/-- Instruction lists with resolved, properly nested jump targets, for a list placed at
index `off` of the compiled program: a list of non-bracket instructions and of blocks
`[ body ]` whose `[` holds the index of its `]` and whose `]` holds the index of its
`[`, the body being such a list again. -/
inductive Closed : Nat → List Instr → Prop
  | nil (off : Nat) : Closed off []
  | op (off : Nat) (i : Instr) (rest : List Instr) :
      i.1 ≠ '[' → i.1 ≠ ']' → Closed (off + 1) rest → Closed off (i :: rest)
  | loop (off : Nat) (body rest : List Instr) :
      Closed (off + 1) body → Closed (off + body.length + 2) rest →
      Closed off
        (('[', ((off + body.length + 1 : Nat) : Int)) :: (body ++ (']', (off : Int)) :: rest))

/-- The state of the compiler loop: the instruction list `out` is, for each pending `[`
slot of the stack (top first), a properly nested list, then the `[` with its
placeholder target, and after the last pending `[` a properly nested list. -/
def OpenFrames : List Nat → List Instr → Prop
  | [], out => Closed 0 out
  | k :: stack, out =>
      ∃ pre cur, out = pre ++ ('[', -1) :: cur ∧ pre.length = k ∧ Closed (k + 1) cur ∧
        OpenFrames stack pre

/-- The nesting depth after reading a text from depth `d`; `none` when a `]` arrives
at depth 0. -/
def walk : List Char → Nat → Option Nat
  | [], d => some d
  | c :: cs, d =>
      if c = '[' then walk cs (d + 1)
      else if c = ']' then (if d = 0 then none else walk cs (d - 1))
      else walk cs d

/-- What the run-length claim says of an instruction list: moves and arithmetic carry a
magnitude of at least 1, `.` and `,` carry 0, and no instruction of a mergeable operator
is followed by an instruction of the same operator. -/
def RunLengthEncoded (code : List Instr) : Prop :=
  (∀ i ∈ code, mergeable i.1 → 1 ≤ i.2) ∧
    (∀ i ∈ code, i.1 = '.' ∨ i.1 = ',' → i.2 = 0) ∧
    List.Chain' (fun a b => mergeable a → a ≠ b) (code.map Prod.fst)

/-- The jump targets of an instruction list are resolved and mutually consistent. -/
def TargetsResolved (code : List Instr) : Prop :=
  (∀ (i : Nat) (j : Int), code[i]? = some ('[', j) →
      (i : Int) < j ∧ j < code.length ∧ code[j.toNat]? = some (']', (i : Int))) ∧
    (∀ (j : Nat) (i : Int), code[j]? = some (']', i) →
      0 ≤ i ∧ i < j ∧ code[i.toNat]? = some ('[', (j : Int)))

/-- A VM of capacity 3 with the text `++[>[-]<-].,` loaded: nested loops, a run, `.`
and `,`. -/
def nestedLoopsVM : Interpreter :=
  loadProgram (Interpreter.new 3) ['+', '+', '[', '>', '[', '-', ']', '<', '-', ']', '.', ',']

/-- The instruction list `compileProgram` returns for the text of `nestedLoopsVM`. -/
def nestedLoopsCode : List Instr :=
  [('+', 2), ('[', 8), ('>', 1), ('[', 5), ('-', 1), (']', 3), ('<', 1), ('-', 1), (']', 1),
    ('.', 0), (',', 0)]

/-- The state with the single-step program counter replaced. -/
def withPc (s : Interpreter) (pc : Int) : Interpreter := { s with pc := pc }

/-- `n` successive `step()` calls that all return `true`; `none` when one of them
returns `false` or throws. -/
def stepN : Nat → Interpreter → Option Interpreter
  | 0, s => some s
  | n + 1, s =>
      match step s with
      | .ok true s1 => stepN n s1
      | _ => none

/-- Under the ERROR cell policy every cell of the tape is within `[0,255]`. -/
def CellsInRange (s : Interpreter) : Prop :=
  s.cellBehavior = .ERROR → ∀ v ∈ s.memory, 0 ≤ v ∧ v ≤ 255

/-- The position in the program text of the compiled instruction at index `k`: the
length of the text the instructions before it stand for. -/
def textPos (code : List Instr) (k : Int) : Int := ((expand (code.take k.toNat)).length : Int)

/-- The state with the stored compiled program replaced. -/
def withCode (s : Interpreter) (code : List Instr) : Interpreter :=
  { s with compiledProgram := code }

/-- The text `++[->+<]>.`: a loop that moves cell 0 into cell 1, then prints cell 1. -/
def copyProgram : List Char := ['+', '+', '[', '-', '>', '+', '<', ']', '>', '.']

/-- The byte the specification gives to `.` on a cell holding `v`: `v` clamped into
`[0,255]` under the UNLIMITED cell policy when `v` is outside that range, and the
non-negative residue `v mod 256` in every other case. -/
def outputByte (policy : CellBehavior) (v : Int) : Nat :=
  if policy = .UNLIMITED ∧ v < 0 then 0
  else if policy = .UNLIMITED ∧ v > 255 then 255
  else (v % 256).toNat

/-- Each of the three executors, when the instruction it is about to execute is `cmd`,
executes it as `body` (the outcome of that `case` of the `switch` from state `s`) and goes
on from the next position: `step` at `program[pc]`, the loop of `runProgramFast` at
`compiledProgram[pc]` for any local `pc`, the loop of `runProgramFastInterruptible` at
`compiledProgram[fastPc]` with budget left.  Meant for `cmd` other than a bracket. -/
def ExecutesAs (s : Interpreter) (cmd : Char) (body : Outcome Unit) : Prop :=
  (s.running = true → 0 ≤ s.pc → s.program[s.pc.toNat]? = some cmd →
      step s = body.andThen fun _ s1 => stepDone s1) ∧
    (∀ (b : Nat) (pc st arg : Int), 0 ≤ pc → s.compiledProgram[pc.toNat]? = some (cmd, arg) →
      fastLoop (b + 1) pc st s =
        body.andThen fun _ s1 => fastLoop b (pc + 1) (st + 1) s1) ∧
    (∀ (b : Nat) (maxSteps arg : Int), 0 ≤ s.fastPc →
      s.compiledProgram[s.fastPc.toNat]? = some (cmd, arg) → s.fastSteps < maxSteps →
      chunkLoop maxSteps (b + 1) s =
        body.andThen fun _ s1 =>
          chunkLoop maxSteps b { s1 with fastPc := s.fastPc + 1, fastSteps := s1.fastSteps + 1 })

/-- The value the next `,` takes from the input: the head of the queue, or, when the
queue is empty, the first character of the text the callback returns; `none` when the
queue is empty and the callback is absent or returns the empty text. -/
def nextInput (s : Interpreter) : Option Int :=
  match s.inputBuffer with
  | inputValue :: _ => some inputValue
  | [] =>
      match s.inputCallback with
      | some callback => (invokeCallback callback).1.head?
      | none => none

/-- A VM of capacity 3 under the UNLIMITED cell policy with the text `-.` loaded, after
one chunk of one instruction and with the text cursor moved on as well: cell 0 holds
-1 and each executor is about to execute the `.`. -/
def minusDotVM : Interpreter :=
  withPc (runProgramFastInterruptible
    (loadProgram (configure (Interpreter.new 3) .CLAMP .UNLIMITED) ['-', '.']) 1 100).vm 1

/-- A VM of capacity 3 with the text `,.` loaded and compiled, the given policies, input
queue and callback: each executor is about to execute the `,`. -/
def commaDotVM (ptrBehavior : PointerBehavior) (cellBehavior : CellBehavior)
    (inputData : List Int) (callback : Option (List (List Int))) : Interpreter :=
  setInputCallback (ensureCompiled
    (loadProgram (configure (Interpreter.new 3) ptrBehavior cellBehavior) [',', '.']
      inputData)).vm callback

/-- A VM of capacity 3 with the text `+[-]` loaded: four compiled instructions, six
executed in a full run. -/
def countdownVM : Interpreter := loadProgram (Interpreter.new 3) ['+', '[', '-', ']']

/-- The outcomes an instruction body can have from state `s`: a pointer move, a cell
change, the `.` body, the `,` body, or nothing at all (a bracket that does not jump, a
character that is no operator). -/
def Primitive (s : Interpreter) (o : Outcome Unit) : Prop :=
  (∃ d, o = movePointer s d) ∨ (∃ d, o = modifyCell s d) ∨ o = .ok () (outputCell s) ∨
    o = inputCell s ∨ o = .ok () s

/-- State `t` is state `s` with the value `v` taken out of the input and nothing else
changed: `v` was the head of the queue, or the queue was empty and `v` was the first
character of the text the callback returned, whose other characters are now queued. -/
def InputConsumed (s t : Interpreter) (v : Int) : Prop :=
  (s.inputBuffer = v :: t.inputBuffer ∧ t = { s with inputBuffer := t.inputBuffer }) ∨
    (∃ cb, s.inputBuffer = [] ∧ s.inputCallback = some cb ∧
      (invokeCallback cb).1 = v :: t.inputBuffer ∧
      t = { s with inputBuffer := t.inputBuffer, inputCallback := some (invokeCallback cb).2 })

/-- What a failing instruction leaves of the state `s` it started from, `e` being the
exception and `t` the state left: when the exception is the refusal of an input value
`v`, the state `s` with `v` taken out of the input; with every other exception, the
state `s` itself. -/
def AbortedAt (s : Interpreter) (e : Error) (t : Interpreter) : Prop :=
  (∀ v, e = .inputOutOfRange v → InputConsumed s t v) ∧
    ((∀ v, e ≠ .inputOutOfRange v) → t = s)

/-- A VM of capacity 3 with the single-character text `+` loaded. -/
def plusVM : Interpreter := loadProgram (Interpreter.new 3) ['+']

/-- A VM of capacity 3 under both ERROR policies with the text `+<` loaded: the `<`
fails with a pointer underflow after the `+` has set cell 0 to 1. -/
def underflowVM : Interpreter :=
  loadProgram (configure (Interpreter.new 3) .ERROR .ERROR) ['+', '<']

/-- A VM of capacity 3 under the ERROR pointer policy with the text `<` loaded: its
first instruction fails with a pointer underflow. -/
def leftVM : Interpreter := loadProgram (configure (Interpreter.new 3) .ERROR .WRAP) ['<']

/-- A VM of capacity 3 with the text `+]` loaded, after the `step()` call for `+`: cell 0
holds 1 and the next instruction is a `]` that no `[` precedes. -/
def strayCloseVM : Interpreter := (step (loadProgram (Interpreter.new 3) ['+', ']'])).vm

/-- A VM of capacity 3 under the ERROR cell policy with the text `,.` loaded and
compiled and two input characters queued, of values -23 (the byte 0xE9 where plain
`char` is signed) and 65. -/
def refusedByteVM : Interpreter := commaDotVM .CLAMP .ERROR [-23, 65] none

/-- The loop of `generatePseudocode` over the text still to read.  It counts in the
member `pointer` without any check: `pointer++` for `>`, `pointer--` for `<`.  The text
it writes is represented by the pointer values its lines for `>` and `<` report; the
value is that list and the pointer at the end of the loop. -/
def pseudoLoop : List Char → Int → List Int → List Int × Int
  | [], pointer, shown => (shown, pointer)
  | ch :: rest, pointer, shown =>
      if ch = '>' then pseudoLoop rest (pointer + 1) (shown ++ [pointer + 1])
      else if ch = '<' then pseudoLoop rest (pointer - 1) (shown ++ [pointer - 1])
      else pseudoLoop rest pointer shown

/-- `Interpreter::generatePseudocode`, as far as the state goes: it saves `pointer`,
sets it to 0, lets the loop count in it and puts the saved value back.  The value is
the list of pointer values the text reports. -/
def generatePseudocode (s : Interpreter) : Outcome (List Int) :=
  let originalPointer := s.pointer
  let s1 := { s with pointer := 0 }
  let r := pseudoLoop s1.program s1.pointer []
  let s2 := { s1 with pointer := r.2 }
  .ok r.1 { s2 with pointer := originalPointer }

/-- One call of a public member function that can change the state. -/
inductive Call
  | configure (ptrBehavior : PointerBehavior) (cellBehavior : CellBehavior)
  | reset
  | loadProgram (program : List Char) (inputData : List Int)
  | setInputCallback (callback : Option (List (List Int)))
  | generatePseudocode
  | compileProgram
  | step
  | runUntilEnd (maxSteps : Int)
  | runProgramFast (maxSteps : Int)
  | runProgramFastInterruptible (stepsPerChunk maxSteps : Int)

/-- The state a call leaves the object in, whether it returns or throws. -/
def runCall (s : Interpreter) : Call → Interpreter
  | .configure ptrBehavior cellBehavior => configure s ptrBehavior cellBehavior
  | .reset => reset s
  | .loadProgram program inputData => loadProgram s program inputData
  | .setInputCallback callback => setInputCallback s callback
  | .generatePseudocode => (generatePseudocode s).vm
  | .compileProgram => (compileProgram s).vm
  | .step => (step s).vm
  | .runUntilEnd maxSteps => (runUntilEnd s maxSteps).vm
  | .runProgramFast maxSteps => (runProgramFast s maxSteps).vm
  | .runProgramFastInterruptible stepsPerChunk maxSteps =>
      (runProgramFastInterruptible s stepsPerChunk maxSteps).vm

/-- The state after a sequence of calls, each made on the state the one before left. -/
def runCalls (s : Interpreter) (calls : List Call) : Interpreter := calls.foldl runCall s

/-- The calls that run the loaded program. -/
def Call.isExecutor : Call → Bool
  | .step => true
  | .runUntilEnd _ => true
  | .runProgramFast _ => true
  | .runProgramFastInterruptible _ _ => true
  | _ => false

/-- A property of states that every instruction body keeps (whether the body returns or
throws) and that does not depend on the cursors, the running flag or the compiled
program. -/
def Stable (P : Interpreter → Prop) : Prop :=
  (∀ (s : Interpreter) (pc fastPc fastSteps : Int) (running : Bool) (code : List Instr),
      P s →
      P { s with
        pc := pc
        fastPc := fastPc
        fastSteps := fastSteps
        running := running
        compiledProgram := code }) ∧
    (∀ (s : Interpreter) (o : Outcome Unit), P s → Primitive s o → P o.vm)

/-- A state in which an empty program text comes with an empty compiled program and
the text cursor at 0, as `reset` and `loadProgram` leave it. -/
def Uncompiled (s : Interpreter) : Prop :=
  s.program = [] → s.compiledProgram = [] ∧ s.pc = 0

/-- A sequence of calls on the text `<<>>>>`: its description by `generatePseudocode`,
a `step()` that fails under the ERROR pointer policy, and a bulk run under the WRAP
pointer policy. -/
def sampleCalls : List Call :=
  [.loadProgram ['<', '<', '>', '>', '>', '>'] [], .generatePseudocode,
    .configure .ERROR .WRAP, .step, .configure .WRAP .WRAP, .runProgramFast 100]

/-- Every cell of the tape is within `[0,255]`. -/
def ByteCells (s : Interpreter) : Prop := ∀ v ∈ s.memory, 0 ≤ v ∧ v ≤ 255

/-- Every value the input can still supply is within `[0,255]`: the queued values and
the characters of every text the callback is going to return. -/
def ByteInputs (s : Interpreter) : Prop :=
  (∀ v ∈ s.inputBuffer, 0 ≤ v ∧ v ≤ 255) ∧
    ∀ callback, s.inputCallback = some callback →
      ∀ reply ∈ callback, ∀ v ∈ reply, 0 ≤ v ∧ v ≤ 255

/-- A VM of capacity 3 under the WRAP cell policy with the text `,.` loaded and
compiled and one input character of value -23 queued (the byte 0xE9 where plain `char`
is signed). -/
def highByteVM : Interpreter := commaDotVM .CLAMP .WRAP [-23] none

/-! ## The syntax check -/

theorem allowed_iff_mem_operators (c : Char) : allowed c = true ↔ c ∈ operators := by
  simp [allowed, operators]
  tauto

theorem checkSyntaxFrom_eq (l : List Char) (k : Nat) :
    checkSyntaxFrom l k =
      ((List.range l.length).filter (fun i => decide (l.getD i ' ' ∉ operators))).map
        (fun (i : Nat) => (((i + k : Nat) : Int), l.getD i ' ')) := by
  induction l generalizing k with
  | nil => simp [checkSyntaxFrom]
  | cons c cs ih =>
    rw [checkSyntaxFrom, ih (k + 1), List.length_cons, List.range_succ_eq_map]
    by_cases hc : allowed c = true
    · have hm : c ∈ operators := (allowed_iff_mem_operators c).1 hc
      simp [hc, hm, List.filter_map, List.map_map, Function.comp_def, Nat.add_assoc, Nat.add_comm 1 k]
      intro a _ _; omega
    · have hm : c ∉ operators := fun h => hc ((allowed_iff_mem_operators c).2 h)
      simp [hc, hm, List.filter_map, Function.comp_def, Nat.add_assoc, Nat.add_comm 1 k]
      intro a _ _; omega


/-- C10: `checkProgramSyntax` is total and returns exactly the pairs `(i, program[i])` of
the positions whose character is not one of the eight operators, in increasing order of
`i`; the list is empty exactly when every character is an operator, whatever the bracket
balance (`][` gives the empty list). -/
theorem checkProgramSyntax_offenders (s : Interpreter) :
    checkProgramSyntax s = offenders s.program ∧
      List.Pairwise (fun a b => a.1 < b.1) (checkProgramSyntax s) ∧
      (∀ i c, (i, c) ∈ checkProgramSyntax s ↔
        0 ≤ i ∧ s.program[i.toNat]? = some c ∧ c ∉ operators) ∧
      (checkProgramSyntax s = [] ↔ ∀ c ∈ s.program, c ∈ operators) ∧
      checkProgramSyntax (loadProgram s [']', '[']) = [] := by
  have h1 : checkProgramSyntax s = offenders s.program := by
    simp [checkProgramSyntax, offenders, checkSyntaxFrom_eq]
  refine ⟨h1, ?_, ?_, ?_, ?_⟩
  · rw [h1, offenders, List.pairwise_map]
    refine List.Pairwise.imp ?_ ((List.pairwise_lt_range _).sublist (List.filter_sublist _))
    intro a b hab
    show (a : Int) < (b : Int)
    exact_mod_cast hab
  · intro i c
    rw [h1, offenders]
    simp only [List.mem_map, List.mem_filter, List.mem_range, decide_eq_true_eq, Prod.mk.injEq]
    constructor
    · rintro ⟨a, ⟨hlt, hno⟩, rfl, rfl⟩
      refine ⟨by omega, ?_, hno⟩
      simp [List.getD, List.getElem?_eq_getElem hlt]
    · rintro ⟨h0, hget, hno⟩
      have hlt : i.toNat < s.program.length := by
        by_contra hge
        rw [List.getElem?_eq_none (by omega)] at hget
        exact Option.noConfusion hget
      refine ⟨i.toNat, ⟨hlt, ?_⟩, by omega, ?_⟩
      · simpa [List.getD, hget] using hno
      · simp [List.getD, hget]
  · rw [h1, offenders]
    simp only [List.map_eq_nil_iff, List.filter_eq_nil_iff, List.mem_range, decide_eq_true_eq,
      not_not]
    constructor
    · intro h c hc
      obtain ⟨i, hi, rfl⟩ := List.getElem_of_mem hc
      have := h i hi
      simpa [List.getD, List.getElem?_eq_getElem hi] using this
    · intro h i hi
      have := h _ (List.getElem_mem hi)
      simpa [List.getD, List.getElem?_eq_getElem hi] using this
  · rfl


/-! ## The end-to-end example -/

set_option maxRecDepth 100000 in
/-- C3: on a VM with the default configuration (capacity 30000, CLAMP pointer policy,
WRAP cell policy), the example program with no input runs to completion under
`runProgramFast` with the default budget, in 142 compiled instructions, and leaves the
output log `Hello World!` followed by a newline, 13 bytes. -/
theorem helloWorld_runProgramFast :
    (Interpreter.new).memorySize = 30000 ∧
      (Interpreter.new).pointerBehavior = .CLAMP ∧ (Interpreter.new).cellBehavior = .WRAP ∧
      (runProgramFast (loadProgram Interpreter.new helloWorld)).value? = some 142 ∧
      (runProgramFast (loadProgram Interpreter.new helloWorld)).vm.outputBuffer =
        "Hello World!\n".toList.map Char.toNat ∧
      (runProgramFast (loadProgram Interpreter.new helloWorld)).vm.outputBuffer =
        [72, 101, 108, 108, 111, 32, 87, 111, 114, 108, 100, 33, 10] := by
  decide!

/-! ## A failing compilation leaves bytecode behind -/

/-- C8, evaluated on the text `+[`: `compileProgram` throws the unmatched-`[` error and
leaves the two instructions built so far in `compiledProgram`; `runProgramFast` on the
fresh VM throws the same way, and a second `runProgramFast` on that VM does not compile
again and does not fail: it executes the two left-over instructions, returns 2 and has
incremented cell 0. -/
theorem compileProgram_failure_keeps_bytecode :
    (compileProgram unclosedLoopVM).error? = some .unmatchedOpen ∧
      (compileProgram unclosedLoopVM).vm.compiledProgram = [('+', 1), ('[', -1)] ∧
      (runProgramFast unclosedLoopVM).error? = some .unmatchedOpen ∧
      (runProgramFast (runProgramFast unclosedLoopVM).vm).value? = some 2 ∧
      (runProgramFast (runProgramFast unclosedLoopVM).vm).vm.memory = [1, 0, 0] ∧
      (runProgramFastInterruptible (runProgramFast unclosedLoopVM).vm).value? = some false := by
  decide

/-! ## Merged instructions against unit operations -/

theorem tmod_gt_neg (x C : Int) (hC : 0 < C) : -C < Int.tmod x C := by
  obtain ⟨c, rfl⟩ := Int.eq_ofNat_of_zero_le hC.le
  cases x with
  | ofNat m =>
    have := Int.tmod_nonneg (c : Int) (Int.ofNat_nonneg m)
    simp only [Int.ofNat_eq_coe] at *
    omega
  | negSucc m =>
    have h : Int.tmod (Int.negSucc m) (c : Int) = -(((m + 1) % c : Nat) : Int) := rfl
    rw [h]
    have : (m + 1) % c < c := Nat.mod_lt _ (by omega)
    omega

/-- The WRAP formula of the source, `((x % C) + C) % C` with the truncated `%` of C++,
is the non-negative residue of `x` modulo `C`. -/
theorem wrap_eq_emod (x C : Int) (hC : 0 < C) :
    Int.tmod (Int.tmod x C + C) C = x % C := by
  have h1 := tmod_gt_neg x C hC
  rw [Int.tmod_eq_emod (by omega) hC.le, Int.tmod_def]
  have : x - C * x.tdiv C + C = x + C * (1 - x.tdiv C) := by ring
  rw [this, Int.add_mul_emod_self_left]

theorem movePointer_wellFormed (s : Interpreter) (d : Int) (h : WellFormed s) :
    WellFormed (movePointer s d).vm := by
  obtain ⟨hC, hlen, hp0, hp1⟩ := h
  unfold movePointer
  cases hb : s.pointerBehavior with
  | CLAMP =>
    simp only [Outcome.vm, WellFormed]
    refine ⟨hC, hlen, le_max_left _ _, ?_⟩
    have : min (s.pointer + d) (s.memorySize - 1) ≤ s.memorySize - 1 := min_le_right _ _
    rcases max_cases 0 (min (s.pointer + d) (s.memorySize - 1)) with h | h <;> omega
  | WRAP =>
    simp only [Outcome.vm, WellFormed]
    rw [wrap_eq_emod _ _ (by omega)]
    exact ⟨hC, hlen, Int.emod_nonneg _ (by omega), Int.emod_lt_of_pos _ (by omega)⟩
  | ERROR =>
    simp only
    split_ifs with h1 h2
    · exact ⟨hC, hlen, hp0, hp1⟩
    · exact ⟨hC, hlen, hp0, hp1⟩
    · exact ⟨hC, hlen, by simpa using h1, by simpa using h2⟩

theorem movePointer_units (s : Interpreter) (u : Int) (hu : u = 1 ∨ u = -1) (n : Nat)
    (h : WellFormed s) :
    MergeRefines s (movePointer s (u * n)) (repeatOp (fun t => movePointer t u) n s) := by
  induction n generalizing s with
  | zero =>
    obtain ⟨hC, hlen, hp0, hp1⟩ := h
    have hs : movePointer s (u * ((0 : Nat) : Int)) = .ok () s := by
      cases hb : s.pointerBehavior with
      | CLAMP =>
        have : max 0 (min (s.pointer + u * ((0 : Nat) : Int)) (s.memorySize - 1)) = s.pointer := by
          rw [max_eq_right, min_eq_left] <;> simp <;> omega
        simp only [movePointer, hb, this]
        rw [← hb]
      | WRAP =>
        have : (s.pointer + u * ((0 : Nat) : Int)) % s.memorySize = s.pointer := by
          simp only [Nat.cast_zero, mul_zero, add_zero]
          exact Int.emod_eq_of_lt hp0 hp1
        simp only [movePointer, hb, wrap_eq_emod _ _ (show (0 : Int) < s.memorySize by omega), this]
        rw [← hb]
      | ERROR =>
        simp only [movePointer, hb, Nat.cast_zero, mul_zero, add_zero]
        rw [if_neg (by omega), if_neg (by omega), ← hb]
    rw [hs]
    simp [repeatOp, MergeRefines, Outcome.failed]
  | succ n ih =>
    have hwf1 := movePointer_wellFormed s u h
    obtain ⟨hC, hlen, hp0, hp1⟩ := h
    have hthrown : ∀ d, (movePointer s d).failed = true → (movePointer s d).vm = s := by
      intro d
      unfold movePointer
      cases hb : s.pointerBehavior <;> simp only [Outcome.failed, Outcome.vm]
      · simp
      · simp
      · split_ifs <;> simp [Outcome.failed, Outcome.vm]
    simp only [repeatOp]
    cases hb : s.pointerBehavior with
    | CLAMP =>
      have h1 : movePointer s u =
          .ok () { s with pointer := max 0 (min (s.pointer + u) (s.memorySize - 1)) } := by
        simp [movePointer, hb]
      rw [h1] at hwf1 ⊢
      simp only [Outcome.vm] at hwf1
      have ih1 := ih _ hwf1
      have h2 : movePointer { s with pointer := max 0 (min (s.pointer + u) (s.memorySize - 1)) }
          (u * (n : Int)) = movePointer s (u * ((n + 1 : Nat) : Int)) := by
        simp only [movePointer, hb]
        congr 2
        push_cast
        rcases hu with rfl | rfl <;>
          simp only [max_def, min_def] <;> split_ifs <;> omega
      rw [h2] at ih1
      refine ⟨ih1.1, ih1.2.1, hthrown _⟩
    | WRAP =>
      have h1 : movePointer s u =
          .ok () { s with pointer := (s.pointer + u) % s.memorySize } := by
        simp [movePointer, hb, wrap_eq_emod _ _ (show (0 : Int) < s.memorySize by omega)]
      rw [h1] at hwf1 ⊢
      simp only [Outcome.vm] at hwf1
      have ih1 := ih _ hwf1
      have h2 : movePointer { s with pointer := (s.pointer + u) % s.memorySize }
          (u * (n : Int)) = movePointer s (u * ((n + 1 : Nat) : Int)) := by
        simp only [movePointer, hb, wrap_eq_emod _ _ (show (0 : Int) < s.memorySize by omega)]
        congr 2
        push_cast
        rw [Int.emod_add_emod]
        congr 1
        ring
      rw [h2] at ih1
      refine ⟨ih1.1, ih1.2.1, hthrown _⟩
    | ERROR =>
      by_cases hout : s.pointer + u < 0 ∨ s.pointer + u ≥ s.memorySize
      · have h1 : (movePointer s u).failed = true := by
          simp only [movePointer, hb]
          split_ifs
          all_goals simp [Outcome.failed]
          all_goals omega
        have h2 : (movePointer s (u * ((n + 1 : Nat) : Int))).failed = true := by
          simp only [movePointer, hb]
          push_cast
          split_ifs with a b <;> simp [Outcome.failed]
          rcases hu with rfl | rfl <;> omega
        cases hm : movePointer s u with
        | ok v s1 => rw [hm] at h1; simp [Outcome.failed] at h1
        | thrown e s1 =>
          simp only
          refine ⟨by rw [h2]; rfl, ?_, hthrown _⟩
          intro hf; rw [h2] at hf; exact absurd hf (by simp)
      · have h1 : movePointer s u = .ok () { s with pointer := s.pointer + u } := by
          simp only [movePointer, hb]
          rw [if_neg (by omega), if_neg (by omega)]
        rw [h1] at hwf1 ⊢
        simp only [Outcome.vm] at hwf1
        have ih1 := ih _ hwf1
        have hf : (movePointer { s with pointer := s.pointer + u } (u * (n : Int))).failed =
            (movePointer s (u * ((n + 1 : Nat) : Int))).failed := by
          simp only [movePointer, hb]
          push_cast
          have e : s.pointer + u + u * (n : Int) = s.pointer + u * ((n : Int) + 1) := by ring
          rw [e]
          split_ifs <;> rfl
        have hok : (movePointer s (u * ((n + 1 : Nat) : Int))).failed = false →
            movePointer { s with pointer := s.pointer + u } (u * (n : Int)) =
              movePointer s (u * ((n + 1 : Nat) : Int)) := by
          simp only [movePointer, hb]
          push_cast
          have e : s.pointer + u + u * (n : Int) = s.pointer + u * ((n : Int) + 1) := by ring
          rw [e]
          split_ifs <;> simp [Outcome.failed]
        simp only
        refine ⟨by rw [← hf]; exact ih1.1, ?_, hthrown _⟩
        intro hnf
        rw [← hok hnf]
        exact ih1.2.1 (by rw [hf]; exact hnf)
theorem cell_setCell (s : Interpreter) (v : Int) (h : WellFormed s) : cell (setCell s v) = v := by
  obtain ⟨hC, hlen, hp0, hp1⟩ := h
  have hlt : s.pointer.toNat < s.memory.length := by omega
  simp [cell, setCell, List.getD, List.getElem?_set, hlt]

theorem setCell_setCell (s : Interpreter) (a b : Int) : setCell (setCell s a) b = setCell s b := by
  simp [setCell, List.set_set]

theorem setCell_wellFormed (s : Interpreter) (v : Int) (h : WellFormed s) :
    WellFormed (setCell s v) := by
  obtain ⟨hC, hlen, hp0, hp1⟩ := h
  exact ⟨hC, by simpa [setCell] using hlen, hp0, hp1⟩

theorem modifyCell_wellFormed (s : Interpreter) (d : Int) (h : WellFormed s) :
    WellFormed (modifyCell s d).vm := by
  unfold modifyCell
  cases s.cellBehavior with
  | WRAP => exact setCell_wellFormed _ _ h
  | UNLIMITED => exact setCell_wellFormed _ _ h
  | ERROR =>
    simp only
    split_ifs
    · exact h
    · exact h
    · exact setCell_wellFormed _ _ h

theorem modifyCell_thrown_vm (s : Interpreter) (d : Int) (h : (modifyCell s d).failed = true) :
    (modifyCell s d).vm = s := by
  revert h
  unfold modifyCell
  cases s.cellBehavior <;> simp only [Outcome.failed, Outcome.vm]
  · simp
  · simp
  · split_ifs <;> simp [Outcome.failed, Outcome.vm]

theorem modifyCell_units (s : Interpreter) (u : Int) (hu : u = 1 ∨ u = -1) (n : Nat)
    (h : WellFormed s) (hcell : s.cellBehavior = .ERROR → 0 ≤ cell s ∧ cell s ≤ 255) :
    MergeRefines s (modifyCell s (u * ((n + 1 : Nat) : Int)))
      (repeatOp (fun t => modifyCell t u) (n + 1) s) := by
  induction n generalizing s with
  | zero =>
    simp only [repeatOp, zero_add, Nat.cast_one, mul_one]
    cases hm : modifyCell s u with
    | ok v s1 => exact ⟨rfl, fun _ => rfl, fun hf => by simp [Outcome.failed] at hf⟩
    | thrown e s1 =>
      refine ⟨rfl, fun hf => by simp [Outcome.failed] at hf, fun _ => ?_⟩
      have := modifyCell_thrown_vm s u (by rw [hm]; rfl)
      rw [hm] at this
      exact this
  | succ n ih =>
    have hwf1 := modifyCell_wellFormed s u h
    rw [repeatOp]
    cases hb : s.cellBehavior with
    | WRAP =>
      have h1 : modifyCell s u = .ok () (setCell s ((cell s + u) % 256)) := by
        simp [modifyCell, hb, wrap_eq_emod]
      rw [h1] at hwf1 ⊢
      simp only [Outcome.vm] at hwf1
      have ih1 := ih _ hwf1 (by simp [setCell, hb])
      have h2 : modifyCell (setCell s ((cell s + u) % 256)) (u * ((n + 1 : Nat) : Int)) =
          modifyCell s (u * ((n + 1 + 1 : Nat) : Int)) := by
        have hb1 : (setCell s ((cell s + u) % 256)).cellBehavior = .WRAP := by simp [setCell, hb]
        simp only [modifyCell, hb, hb1, wrap_eq_emod _ 256 (by decide), cell_setCell s _ h, setCell_setCell]
        congr 2
        push_cast
        rw [Int.emod_add_emod]
        congr 1
        ring
      rw [h2] at ih1
      exact ⟨ih1.1, ih1.2.1, modifyCell_thrown_vm _ _⟩
    | UNLIMITED =>
      have h1 : modifyCell s u = .ok () (setCell s (cell s + u)) := by
        simp [modifyCell, hb]
      rw [h1] at hwf1 ⊢
      simp only [Outcome.vm] at hwf1
      have ih1 := ih _ hwf1 (by simp [setCell, hb])
      have h2 : modifyCell (setCell s (cell s + u)) (u * ((n + 1 : Nat) : Int)) =
          modifyCell s (u * ((n + 1 + 1 : Nat) : Int)) := by
        have hb1 : (setCell s (cell s + u)).cellBehavior = .UNLIMITED := by simp [setCell, hb]
        simp only [modifyCell, hb, hb1, cell_setCell s _ h, setCell_setCell]
        congr 2
        push_cast
        ring
      rw [h2] at ih1
      exact ⟨ih1.1, ih1.2.1, modifyCell_thrown_vm _ _⟩
    | ERROR =>
      obtain ⟨hc0, hc1⟩ := hcell hb
      by_cases hout : cell s + u < 0 ∨ cell s + u > 255
      · have h1 : (modifyCell s u).failed = true := by
          simp only [modifyCell, hb]
          split_ifs
          all_goals simp [Outcome.failed]
          all_goals omega
        have h2 : (modifyCell s (u * ((n + 1 + 1 : Nat) : Int))).failed = true := by
          simp only [modifyCell, hb]
          push_cast
          split_ifs with a b <;> simp [Outcome.failed]
          rcases hu with rfl | rfl <;> omega
        cases hm : modifyCell s u with
        | ok v s1 => rw [hm] at h1; simp [Outcome.failed] at h1
        | thrown e s1 =>
          simp only
          refine ⟨by rw [h2]; rfl, ?_, modifyCell_thrown_vm _ _⟩
          intro hf; rw [h2] at hf; exact absurd hf (by simp)
      · have h1 : modifyCell s u = .ok () (setCell s (cell s + u)) := by
          simp only [modifyCell, hb]
          rw [if_neg (by omega), if_neg (by omega)]
        rw [h1] at hwf1 ⊢
        simp only [Outcome.vm] at hwf1
        have hb1 : (setCell s (cell s + u)).cellBehavior = .ERROR := by simp [setCell, hb]
        have ih1 := ih _ hwf1 (fun _ => by rw [cell_setCell s _ h]; omega)
        have hf : (modifyCell (setCell s (cell s + u)) (u * ((n + 1 : Nat) : Int))).failed =
            (modifyCell s (u * ((n + 1 + 1 : Nat) : Int))).failed := by
          simp only [modifyCell, hb, hb1, cell_setCell s _ h]
          push_cast
          have e : cell s + u + u * ((n : Int) + 1) = cell s + u * ((n : Int) + 1 + 1) := by ring
          rw [e]
          split_ifs <;> rfl
        have hok : (modifyCell s (u * ((n + 1 + 1 : Nat) : Int))).failed = false →
            modifyCell (setCell s (cell s + u)) (u * ((n + 1 : Nat) : Int)) =
              modifyCell s (u * ((n + 1 + 1 : Nat) : Int)) := by
          simp only [modifyCell, hb, hb1, cell_setCell s _ h, setCell_setCell]
          push_cast
          have e : cell s + u + u * ((n : Int) + 1) = cell s + u * ((n : Int) + 1 + 1) := by ring
          rw [e]
          split_ifs <;> simp [Outcome.failed]
        simp only
        refine ⟨by rw [← hf]; exact ih1.1, ?_, modifyCell_thrown_vm _ _⟩
        intro hnf
        rw [← hok hnf]
        exact ih1.2.1 (by rw [hf]; exact hnf)

/-! ## The run-length claim -/

/-- C4 as stated fails, at two reachable states.  (1) Under the ERROR pointer policy with
capacity 3 and the pointer at 1, the merged `movePointer(+2)` throws and leaves the
pointer at 1, while two `movePointer(+1)` leave it at 2 before the second one throws:
the pointer left behind by the failure differs.  (2) With cell 0 holding -2 under the
ERROR cell policy, the merged `modifyCell(+3)` succeeds (the new value 1 is in range)
while the first of three `modifyCell(+1)` throws: they do not fail in the same cases. -/
theorem merged_instruction_differs_from_units :
    ¬ MergeAgrees (movePointer pointerAtOneVM ((2 : Nat) : Int))
        (repeatOp (fun t => movePointer t 1) 2 pointerAtOneVM) ∧
      ¬ MergeAgrees (modifyCell negativeCellVM ((3 : Nat) : Int))
        (repeatOp (fun t => modifyCell t 1) 3 negativeCellVM) := by
  decide

/-- C4, amended: from every state of a VM of capacity at least 1 (tape of `memorySize`
cells, pointer on the tape) whose current cell lies in `[0,255]` when the cell policy is
ERROR, and for every run length `n ≥ 1`, under every pointer and cell policy, a merged
instruction of magnitude `n` fails exactly when the `n` unit operations fail, leaves the
same state as they do when it succeeds, and leaves the state untouched when it fails:
`movePointer(+n)`, `movePointer(-n)`, `modifyCell(+n)` and `modifyCell(-n)` against `n`
successive `+1` or `-1` calls. -/
theorem merged_instruction_refines_units (s : Interpreter) (n : Nat) (hn : 1 ≤ n)
    (hwf : WellFormed s)
    (hcell : s.cellBehavior = .ERROR → 0 ≤ cell s ∧ cell s ≤ 255) :
    MergeRefines s (movePointer s (n : Int)) (repeatOp (fun t => movePointer t 1) n s) ∧
      MergeRefines s (movePointer s (-(n : Int))) (repeatOp (fun t => movePointer t (-1)) n s) ∧
      MergeRefines s (modifyCell s (n : Int)) (repeatOp (fun t => modifyCell t 1) n s) ∧
      MergeRefines s (modifyCell s (-(n : Int))) (repeatOp (fun t => modifyCell t (-1)) n s) := by
  obtain ⟨m, rfl⟩ : ∃ m, n = m + 1 := ⟨n - 1, by omega⟩
  refine ⟨?_, ?_, ?_, ?_⟩
  · have := movePointer_units s 1 (Or.inl rfl) (m + 1) hwf
    rwa [one_mul] at this
  · have := movePointer_units s (-1) (Or.inr rfl) (m + 1) hwf
    rwa [neg_one_mul] at this
  · have := modifyCell_units s 1 (Or.inl rfl) m hwf hcell
    rwa [one_mul] at this
  · have := modifyCell_units s (-1) (Or.inr rfl) m hwf hcell
    rwa [neg_one_mul] at this

/-- C4, amended, at capacity 3 under both ERROR policies with run length 2. -/
theorem merged_instruction_refines_units_witness :
    MergeRefines (configure (Interpreter.new 3) .ERROR .ERROR)
        (movePointer (configure (Interpreter.new 3) .ERROR .ERROR) ((2 : Nat) : Int))
        (repeatOp (fun t => movePointer t 1) 2 (configure (Interpreter.new 3) .ERROR .ERROR)) ∧
      MergeRefines (configure (Interpreter.new 3) .ERROR .ERROR)
        (movePointer (configure (Interpreter.new 3) .ERROR .ERROR) (-((2 : Nat) : Int)))
        (repeatOp (fun t => movePointer t (-1)) 2 (configure (Interpreter.new 3) .ERROR .ERROR)) ∧
      MergeRefines (configure (Interpreter.new 3) .ERROR .ERROR)
        (modifyCell (configure (Interpreter.new 3) .ERROR .ERROR) ((2 : Nat) : Int))
        (repeatOp (fun t => modifyCell t 1) 2 (configure (Interpreter.new 3) .ERROR .ERROR)) ∧
      MergeRefines (configure (Interpreter.new 3) .ERROR .ERROR)
        (modifyCell (configure (Interpreter.new 3) .ERROR .ERROR) (-((2 : Nat) : Int)))
        (repeatOp (fun t => modifyCell t (-1)) 2 (configure (Interpreter.new 3) .ERROR .ERROR)) :=
  merged_instruction_refines_units (configure (Interpreter.new 3) .ERROR .ERROR) 2 (by decide)
    (by decide) (by decide)

/-! ## The compiler: first facts -/

theorem compileLoop_length_le (fuel : Nat) (rest : List Char) (out : List Instr)
    (stack : List Nat) (code : List Instr)
    (h : compileLoop fuel rest out stack = .ok code) : out.length ≤ code.length := by
  induction fuel generalizing rest out stack with
  | zero =>
    simp only [compileLoop] at h
    split_ifs at h
    simp only [Except.ok.injEq] at h
    rw [h]
  | succ fuel ih =>
    cases rest with
    | nil =>
      simp only [compileLoop] at h
      split_ifs at h
      simp only [Except.ok.injEq] at h
      rw [h]
    | cons cmd rest =>
      simp only [compileLoop] at h
      split_ifs at h with h1 h2 h3 h4
      · have := ih _ _ _ h
        simp only [List.length_append, List.length_singleton] at this
        omega
      · cases stack with
        | nil => exact Except.noConfusion h
        | cons startIdx stack1 =>
          have := ih _ _ _ h
          simp only [List.length_modify, List.length_append, List.length_singleton] at this
          omega
      · have := ih _ _ _ h
        simp only [List.length_append, List.length_singleton] at this
        omega
      · have := ih _ _ _ h
        simp only [List.length_append, List.length_singleton] at this
        omega
      · exact ih _ _ _ h

theorem compileProgram_ok_iff (s : Interpreter) (code : List Instr) (s1 : Interpreter) :
    compileProgram s = .ok code s1 ↔
      s.program ≠ [] ∧ checkProgramSyntax s = [] ∧
        compileLoop s.program.length s.program [] [] = .ok code ∧
        s1 = { s with compiledProgram := code } := by
  unfold compileProgram
  by_cases hnil : s.program = []
  · simp [hnil]
  · by_cases herr : checkProgramSyntax s = []
    · simp only [hnil, herr, if_false, ne_eq, not_true_eq_false, not_false_eq_true, true_and]
      cases hloop : compileLoop s.program.length s.program [] [] with
      | error e => simp
      | ok code1 =>
        simp only [Outcome.ok.injEq, Except.ok.injEq]
        constructor
        · rintro ⟨rfl, rfl⟩; exact ⟨rfl, rfl⟩
        · rintro ⟨rfl, rfl⟩; exact ⟨rfl, rfl⟩
    · simp [hnil, herr]

/-- A successful compilation produces at least one instruction, so that the lazy
compilation guard of the runners sees the program as compiled. -/
theorem compileProgram_ne_nil (s : Interpreter) (code : List Instr) (s1 : Interpreter)
    (h : compileProgram s = .ok code s1) : code ≠ [] := by
  obtain ⟨hnil, herr, hloop, -⟩ := (compileProgram_ok_iff s code s1).1 h
  cases hprog : s.program with
  | nil => exact absurd hprog hnil
  | cons c cs =>
    have hallowed : allowed c = true := by
      by_contra hc
      revert herr
      simp [checkProgramSyntax, hprog, checkSyntaxFrom, hc]
    rw [hprog] at hloop
    simp only [List.length_cons, compileLoop] at hloop
    have hcases : c = '[' ∨ c = ']' ∨ (c = '>' ∨ c = '<' ∨ c = '+' ∨ c = '-') ∨
        (c = '.' ∨ c = ',') := by
      simp only [allowed, Bool.or_eq_true, decide_eq_true_eq] at hallowed
      tauto
    intro hempty
    split_ifs at hloop with h1 h2 h3 h4
    · have := compileLoop_length_le _ _ _ _ _ hloop
      simp [hempty] at this
    · have := compileLoop_length_le _ _ _ _ _ hloop
      simp [hempty] at this
    · have := compileLoop_length_le _ _ _ _ _ hloop
      simp [hempty] at this
    · tauto

/-! ## The chunked runner against the bulk runner -/

theorem Frame.refl (s : Interpreter) : Frame s s :=
  ⟨rfl, rfl, rfl, rfl, rfl, rfl, rfl, rfl, rfl⟩

theorem Frame.trans {s t u : Interpreter} (h1 : Frame s t) (h2 : Frame t u) : Frame s u := by
  obtain ⟨a1, a2, a3, a4, a5, a6, a7, a8, a9⟩ := h1
  obtain ⟨b1, b2, b3, b4, b5, b6, b7, b8, b9⟩ := h2
  exact ⟨b1.trans a1, b2.trans a2, b3.trans a3, b4.trans a4, b5.trans a5, b6.trans a6,
    b7.trans a7, b8.trans a8, b9.trans a9⟩

theorem movePointer_frame (s : Interpreter) (d : Int) : Frame s (movePointer s d).vm := by
  unfold movePointer
  simp only
  split
  · exact ⟨rfl, rfl, rfl, rfl, rfl, rfl, rfl, rfl, rfl⟩
  · exact ⟨rfl, rfl, rfl, rfl, rfl, rfl, rfl, rfl, rfl⟩
  · split_ifs <;> exact ⟨rfl, rfl, rfl, rfl, rfl, rfl, rfl, rfl, rfl⟩

theorem setCell_frame (s : Interpreter) (v : Int) : Frame s (setCell s v) :=
  ⟨rfl, rfl, rfl, rfl, rfl, rfl, rfl, rfl, rfl⟩

theorem modifyCell_frame (s : Interpreter) (d : Int) : Frame s (modifyCell s d).vm := by
  unfold modifyCell
  simp only
  split
  · exact setCell_frame _ _
  · exact setCell_frame _ _
  · split_ifs
    · exact Frame.refl s
    · exact Frame.refl s
    · exact setCell_frame _ _

theorem outputCell_frame (s : Interpreter) : Frame s (outputCell s) := by
  unfold outputCell
  simp only
  split_ifs <;> exact ⟨rfl, rfl, rfl, rfl, rfl, rfl, rfl, rfl, rfl⟩

theorem storeFront_frame (s : Interpreter) (v : Int) (rest : List Int) :
    Frame s (storeFront s v rest).vm := by
  unfold storeFront
  simp only
  split_ifs <;> exact ⟨rfl, rfl, rfl, rfl, rfl, rfl, rfl, rfl, rfl⟩

theorem inputCell_frame (s : Interpreter) : Frame s (inputCell s).vm := by
  unfold inputCell
  split
  · exact storeFront_frame _ _ _
  · split
    · simp only
      split_ifs
      · split
        · exact Frame.trans ⟨rfl, rfl, rfl, rfl, rfl, rfl, rfl, rfl, rfl⟩ (storeFront_frame _ _ _)
        · exact ⟨rfl, rfl, rfl, rfl, rfl, rfl, rfl, rfl, rfl⟩
      · exact ⟨rfl, rfl, rfl, rfl, rfl, rfl, rfl, rfl, rfl⟩
    · exact ⟨rfl, rfl, rfl, rfl, rfl, rfl, rfl, rfl, rfl⟩

theorem execInstr_frame (s : Interpreter) (pc : Int) (i : Instr) :
    Frame s (execInstr s pc i).vm := by
  unfold execInstr
  simp only
  split_ifs
  · have := movePointer_frame s i.2
    cases h : movePointer s i.2 <;> simpa [h, Outcome.vm] using this
  · have := movePointer_frame s (-i.2)
    cases h : movePointer s (-i.2) <;> simpa [h, Outcome.vm] using this
  · have := modifyCell_frame s i.2
    cases h : modifyCell s i.2 <;> simpa [h, Outcome.vm] using this
  · have := modifyCell_frame s (-i.2)
    cases h : modifyCell s (-i.2) <;> simpa [h, Outcome.vm] using this
  · exact outputCell_frame s
  · have := inputCell_frame s
    cases h : inputCell s <;> simpa [h, Outcome.vm] using this
  all_goals exact Frame.refl s

theorem movePointer_withCursor (s : Interpreter) (d p k : Int) :
    movePointer (withCursor s p k) d = (movePointer s d).mapVm (fun t => withCursor t p k) := by
  unfold movePointer
  simp only [withCursor]
  split
  · rfl
  · rfl
  · split_ifs <;> rfl

theorem modifyCell_withCursor (s : Interpreter) (d p k : Int) :
    modifyCell (withCursor s p k) d = (modifyCell s d).mapVm (fun t => withCursor t p k) := by
  unfold modifyCell
  simp only [withCursor, cell]
  split
  · rfl
  · rfl
  · split_ifs <;> rfl

theorem outputCell_withCursor (s : Interpreter) (p k : Int) :
    outputCell (withCursor s p k) = withCursor (outputCell s) p k := by
  unfold outputCell
  simp only [withCursor, cell]
  split_ifs <;> rfl

theorem storeFront_withCursor (s : Interpreter) (v : Int) (rest : List Int) (p k : Int) :
    storeFront (withCursor s p k) v rest =
      (storeFront s v rest).mapVm (fun t => withCursor t p k) := by
  unfold storeFront
  simp only [withCursor]
  split_ifs <;> rfl

theorem inputCell_withCursor (s : Interpreter) (p k : Int) :
    inputCell (withCursor s p k) = (inputCell s).mapVm (fun t => withCursor t p k) := by
  obtain ⟨mem, prog, out, inp, code, C, ptr, pc, run, fp, fs, pb, cb, cback⟩ := s
  cases inp with
  | cons v rest => exact storeFront_withCursor _ v rest p k
  | nil =>
    cases cback with
    | none => rfl
    | some cb =>
      simp only [inputCell, withCursor]
      split_ifs
      · split
        · unfold storeFront
          simp only
          split_ifs <;> rfl
        · rfl
      · rfl

theorem andThen_ok_mapVm {α β : Type} (o : Outcome α) (f : Interpreter → Interpreter) (pc : β) :
    ((o.mapVm f).andThen fun _ s1 => Outcome.ok pc s1) =
      (o.andThen fun _ s1 => Outcome.ok pc s1).mapVm f := by
  cases o <;> rfl

theorem execInstr_withCursor (s : Interpreter) (pc : Int) (i : Instr) (p k : Int) :
    execInstr (withCursor s p k) pc i =
      (execInstr s pc i).mapVm (fun t => withCursor t p k) := by
  have hc : cell (withCursor s p k) = cell s := rfl
  unfold execInstr
  simp only [movePointer_withCursor, modifyCell_withCursor, outputCell_withCursor,
    inputCell_withCursor, hc, apply_ite (Outcome.mapVm (fun t => withCursor t p k)),
    andThen_ok_mapVm]
  rfl

theorem fastLoop_withCursor (b : Nat) (pc st : Int) (s : Interpreter) (p k : Int) :
    fastLoop b pc st (withCursor s p k) =
      (fastLoop b pc st s).mapVm (fun t => withCursor t p k) := by
  induction b generalizing pc st s with
  | zero => rfl
  | succ b ih =>
    have hcode : (withCursor s p k).compiledProgram = s.compiledProgram := rfl
    simp only [fastLoop, hcode, execInstr_withCursor]
    split_ifs with hlt
    · cases hx : execInstr s pc (instrAt s.compiledProgram pc) with
      | ok pc1 s1 => simp only [Outcome.mapVm]; exact ih _ _ _
      | thrown e s1 => rfl
    · rfl

theorem fastLoop_frame (b : Nat) (pc st : Int) (s : Interpreter) :
    Frame s (fastLoop b pc st s).vm := by
  induction b generalizing pc st s with
  | zero => exact Frame.refl s
  | succ b ih =>
    simp only [fastLoop]
    split_ifs with hlt
    · have hf := execInstr_frame s pc (instrAt s.compiledProgram pc)
      cases hx : execInstr s pc (instrAt s.compiledProgram pc) with
      | ok pc1 s1 =>
        rw [hx] at hf
        exact Frame.trans hf (ih _ _ _)
      | thrown e s1 => rw [hx] at hf; exact hf
    · exact Frame.refl s

/-- Running the bulk loop with budget `a + b` is running it with budget `a` and then,
from where that stopped, with budget `b`. -/
theorem fastLoop_add (a b : Nat) (pc st : Int) (s : Interpreter) :
    fastLoop (a + b) pc st s =
      (fastLoop a pc st s).andThen fun r s1 => fastLoop b r.1 r.2 s1 := by
  induction a generalizing pc st s with
  | zero => simp [fastLoop, Outcome.andThen]
  | succ a ih =>
    rw [Nat.succ_add]
    simp only [fastLoop]
    split_ifs with hlt
    · cases hx : execInstr s pc (instrAt s.compiledProgram pc) with
      | ok pc1 s1 => exact ih _ _ _
      | thrown e s1 => rfl
    · simp only [Outcome.andThen]
      cases b with
      | zero => rfl
      | succ b => simp only [fastLoop, if_neg hlt]

/-- The bulk loop counts the instructions it executes, never more than its budget, and
stops short of the budget only at the end of the compiled program. -/
theorem fastLoop_steps (b : Nat) (pc st : Int) (s : Interpreter) (pc1 st1 : Int)
    (s1 : Interpreter) (h : fastLoop b pc st s = .ok (pc1, st1) s1) :
    ∃ j : Nat, j ≤ b ∧ st1 = st + j ∧ (j < b → (s1.compiledProgram.length : Int) ≤ pc1) := by
  induction b generalizing pc st s with
  | zero =>
    simp only [fastLoop, Outcome.ok.injEq, Prod.mk.injEq] at h
    exact ⟨0, le_refl _, by simp [h.1.2], fun hj => absurd hj (by omega)⟩
  | succ b ih =>
    simp only [fastLoop] at h
    split_ifs at h with hlt
    · cases hx : execInstr s pc (instrAt s.compiledProgram pc) with
      | ok pc2 s2 =>
        rw [hx] at h
        obtain ⟨j, hj, hst, hend⟩ := ih _ _ _ h
        exact ⟨j + 1, by omega, by rw [hst]; push_cast; ring, fun hlt1 => hend (by omega)⟩
      | thrown e s2 => rw [hx] at h; exact Outcome.noConfusion h
    · simp only [Outcome.ok.injEq, Prod.mk.injEq] at h
      obtain ⟨⟨rfl, rfl⟩, rfl⟩ := h
      exact ⟨0, by omega, by simp, fun _ => by omega⟩

theorem withCursor_self (s : Interpreter) : withCursor s s.fastPc s.fastSteps = s := rfl

theorem withCursor_withCursor (s : Interpreter) (p k p1 k1 : Int) :
    withCursor (withCursor s p k) p1 k1 = withCursor s p1 k1 := rfl

/-- One slice of the chunked runner is the bulk loop run from the stored cursor with the
smaller of the slice size and the remaining budget; the cursor ends where the bulk loop
stopped. -/
theorem chunkLoop_eq_fastLoop (M : Int) (c : Nat) (s : Interpreter) :
    (∀ pc1 st1 s1,
        fastLoop (min c (M - s.fastSteps).toNat) s.fastPc s.fastSteps s = .ok (pc1, st1) s1 →
        chunkLoop M c s = .ok () (withCursor s1 pc1 st1)) ∧
      (∀ e s1,
        fastLoop (min c (M - s.fastSteps).toNat) s.fastPc s.fastSteps s = .thrown e s1 →
        ∃ p k, chunkLoop M c s = .thrown e (withCursor s1 p k)) := by
  induction c generalizing s with
  | zero =>
    simp only [Nat.zero_min, fastLoop, chunkLoop]
    constructor
    · intro pc1 st1 s1 h
      simp only [Outcome.ok.injEq, Prod.mk.injEq] at h
      obtain ⟨⟨rfl, rfl⟩, rfl⟩ := h
      rfl
    · intro e s1 h
      exact Outcome.noConfusion h
  | succ c ih =>
    by_cases hcond : s.fastPc < (s.compiledProgram.length : Int) ∧ s.fastSteps < M
    · obtain ⟨r, hr⟩ : ∃ r, (M - s.fastSteps).toNat = r + 1 :=
        ⟨(M - s.fastSteps).toNat - 1, by omega⟩
      have hmin : min (c + 1) (M - s.fastSteps).toNat = min c r + 1 := by
        rw [hr]; omega
      rw [hmin]
      simp only [fastLoop, chunkLoop, if_pos hcond, if_pos hcond.1]
      have hf := execInstr_frame s s.fastPc (instrAt s.compiledProgram s.fastPc)
      cases hx : execInstr s s.fastPc (instrAt s.compiledProgram s.fastPc) with
      | thrown e s1 =>
        constructor
        · intro pc1 st1 s2 h
          exact Outcome.noConfusion h
        · intro e1 s2 h
          simp only [Outcome.thrown.injEq] at h
          obtain ⟨rfl, rfl⟩ := h
          exact ⟨_, _, rfl⟩
      | ok pc2 s2 =>
        rw [hx] at hf
        simp only [Outcome.vm] at hf
        have hst : s2.fastSteps = s.fastSteps := hf.2.2.2.2.2.2.2.2
        have hs2 : ({ s2 with fastPc := pc2 + 1, fastSteps := s2.fastSteps + 1 } : Interpreter) =
            withCursor s2 (pc2 + 1) (s.fastSteps + 1) := by
          rw [hst]; rfl
        simp only [hs2]
        have hrem : (M - (withCursor s2 (pc2 + 1) (s.fastSteps + 1)).fastSteps).toNat = r := by
          simp only [withCursor]; omega
        have ih1 := ih (withCursor s2 (pc2 + 1) (s.fastSteps + 1))
        rw [hrem, fastLoop_withCursor] at ih1
        simp only [withCursor] at ih1
        constructor
        · intro pc1 st1 s3 h
          have := ih1.1 pc1 st1 (withCursor s3 (pc2 + 1) (s.fastSteps + 1))
            (by simp only [withCursor]; rw [h]; rfl)
          simpa [withCursor] using this
        · intro e s3 h
          obtain ⟨p, k, hpk⟩ := ih1.2 e (withCursor s3 (pc2 + 1) (s.fastSteps + 1))
            (by simp only [withCursor]; rw [h]; rfl)
          exact ⟨p, k, by simpa [withCursor] using hpk⟩
    · simp only [chunkLoop, if_neg hcond]
      have hfast : fastLoop (min (c + 1) (M - s.fastSteps).toNat) s.fastPc s.fastSteps s =
          .ok (s.fastPc, s.fastSteps) s := by
        by_cases hk : s.fastSteps < M
        · have hp : ¬ s.fastPc < (s.compiledProgram.length : Int) := fun h => hcond ⟨h, hk⟩
          obtain ⟨r, hr⟩ : ∃ r, min (c + 1) (M - s.fastSteps).toNat = r + 1 :=
            ⟨min (c + 1) (M - s.fastSteps).toNat - 1, by omega⟩
          rw [hr]
          simp only [fastLoop, if_neg hp]
        · have : min (c + 1) (M - s.fastSteps).toNat = 0 := by omega
          rw [this]
          rfl
      rw [hfast]
      constructor
      · intro pc1 st1 s1 h
        simp only [Outcome.ok.injEq, Prod.mk.injEq] at h
        obtain ⟨⟨rfl, rfl⟩, rfl⟩ := h
        rfl
      · intro e s1 h
        exact Outcome.noConfusion h

theorem fastLoop_at_end (b : Nat) (pc st : Int) (s : Interpreter)
    (h : (s.compiledProgram.length : Int) ≤ pc) : fastLoop b pc st s = .ok (pc, st) s := by
  cases b with
  | zero => rfl
  | succ b => simp only [fastLoop, if_neg (not_lt.mpr h)]

theorem ensureCompiled_of_compiled (s : Interpreter) (h : s.compiledProgram ≠ []) :
    ensureCompiled s = .ok () s := by
  simp [ensureCompiled, h]

/-- Calling the chunked runner until it returns `false`, from any stored cursor of a
compiled VM, ends like the bulk loop run from that cursor with the remaining budget. -/
theorem runChunks_eq_fastLoop (chunk M : Int) (hchunk : 1 ≤ chunk) (calls : Nat)
    (s : Interpreter) (hcode : s.compiledProgram ≠ [])
    (hcalls : (M - s.fastSteps).toNat < calls) :
    (∀ pc1 st1 s1,
        fastLoop (M - s.fastSteps).toNat s.fastPc s.fastSteps s = .ok (pc1, st1) s1 →
        runChunks chunk M calls s =
          .ok false { s1 with running := false, fastPc := 0, fastSteps := 0 }) ∧
      (∀ e s1,
        fastLoop (M - s.fastSteps).toNat s.fastPc s.fastSteps s = .thrown e s1 →
        ∃ p k, runChunks chunk M calls s = .thrown e (withCursor s1 p k)) := by
  induction calls generalizing s with
  | zero => omega
  | succ calls ih =>
    have hsplit : (M - s.fastSteps).toNat =
        min chunk.toNat (M - s.fastSteps).toNat +
          ((M - s.fastSteps).toNat - min chunk.toNat (M - s.fastSteps).toNat) := by omega
    have hchunkLoop := chunkLoop_eq_fastLoop M chunk.toNat s
    have hrun : runProgramFastInterruptible s chunk M =
        (chunkLoop M chunk.toNat s).andThen fun _ s2 =>
          if s2.fastPc ≥ (s2.compiledProgram.length : Int) ∨ s2.fastSteps ≥ M then
            .ok false { s2 with running := false, fastPc := 0, fastSteps := 0 }
          else .ok true s2 := by
      simp only [runProgramFastInterruptible, ensureCompiled_of_compiled s hcode, Outcome.andThen]
    rw [hsplit, fastLoop_add]
    simp only [runChunks, hrun]
    cases hfl : fastLoop (min chunk.toNat (M - s.fastSteps).toNat) s.fastPc s.fastSteps s with
    | thrown e s1 =>
      obtain ⟨p, k, hpk⟩ := hchunkLoop.2 e s1 hfl
      simp only [hpk, Outcome.andThen]
      constructor
      · intro pc1 st1 s2 h
        exact Outcome.noConfusion h
      · intro e1 s2 h
        simp only [Outcome.thrown.injEq] at h
        obtain ⟨rfl, rfl⟩ := h
        exact ⟨p, k, rfl⟩
    | ok r s1 =>
      obtain ⟨pc1, st1⟩ := r
      have hck := hchunkLoop.1 pc1 st1 s1 hfl
      obtain ⟨j, hj, hst, hend⟩ := fastLoop_steps _ _ _ _ _ _ _ hfl
      have hfr := fastLoop_frame (min chunk.toNat (M - s.fastSteps).toNat) s.fastPc s.fastSteps s
      rw [hfl] at hfr
      simp only [Outcome.vm] at hfr
      have hcode1 : s1.compiledProgram = s.compiledProgram := hfr.2.1
      simp only [hck, Outcome.andThen]
      by_cases hcond : (withCursor s1 pc1 st1).fastPc ≥
          ((withCursor s1 pc1 st1).compiledProgram.length : Int) ∨
          (withCursor s1 pc1 st1).fastSteps ≥ M
      · simp only [if_pos hcond]
        have hrest : fastLoop
            ((M - s.fastSteps).toNat - min chunk.toNat (M - s.fastSteps).toNat) pc1 st1 s1 =
            .ok (pc1, st1) s1 := by
          rcases hcond with hc | hc
          · exact fastLoop_at_end _ _ _ _ hc
          · simp only [withCursor] at hc
            have : (M - s.fastSteps).toNat - min chunk.toNat (M - s.fastSteps).toNat = 0 := by
              omega
            rw [this]
            rfl
        rw [hrest]
        constructor
        · intro pc2 st2 s2 h
          simp only [Outcome.ok.injEq, Prod.mk.injEq] at h
          obtain ⟨⟨rfl, rfl⟩, rfl⟩ := h
          rfl
        · intro e s2 h
          exact Outcome.noConfusion h
      · simp only [if_neg hcond]
        simp only [withCursor, not_or, not_le] at hcond
        have hjb : j = min chunk.toNat (M - s.fastSteps).toNat := by
          by_contra hne
          have := hend (by omega)
          omega
        have hrem : (M - (withCursor s1 pc1 st1).fastSteps).toNat =
            (M - s.fastSteps).toNat - min chunk.toNat (M - s.fastSteps).toNat := by
          simp only [withCursor]
          omega
        have ih1 := ih (withCursor s1 pc1 st1) (by simpa [withCursor, hcode1] using hcode)
          (by rw [hrem]; omega)
        rw [hrem, fastLoop_withCursor] at ih1
        simp only [withCursor] at ih1
        constructor
        · intro pc2 st2 s2 h
          have := ih1.1 pc2 st2 (withCursor s2 pc1 st1) (by rw [h]; rfl)
          simpa [withCursor] using this
        · intro e s2 h
          obtain ⟨p, k, hpk⟩ := ih1.2 e (withCursor s2 pc1 st1) (by rw [h]; rfl)
          exact ⟨p, k, by simpa [withCursor] using hpk⟩

theorem ensureCompiled_ok (s s1 : Interpreter) (h : ensureCompiled s = .ok () s1) :
    s1.compiledProgram ≠ [] ∧ s1.fastPc = s.fastPc ∧ s1.fastSteps = s.fastSteps := by
  unfold ensureCompiled at h
  split_ifs at h with hc
  · cases hcomp : compileProgram s with
    | thrown e s2 => rw [hcomp] at h; exact Outcome.noConfusion h
    | ok code s2 =>
      rw [hcomp] at h
      simp only [Outcome.andThen, Outcome.ok.injEq, true_and] at h
      subst h
      have hne := compileProgram_ne_nil s code s2 hcomp
      obtain ⟨-, -, -, rfl⟩ := (compileProgram_ok_iff s code s2).1 hcomp
      exact ⟨hne, rfl, rfl⟩
  · simp only [Outcome.ok.injEq, true_and] at h
    subst h
    exact ⟨hc, rfl, rfl⟩

/-- C2: from every state whose chunk cursor is at its initial position, for every chunk
size at least 1 and every step budget, calling `runProgramFastInterruptible` until it
returns `false` (at most `maxSteps + 1` calls are needed) ends in exactly the state a
single `runProgramFast` call with the same budget ends in: same output log, same tape,
same pointer, whatever the chunk size.  When the bulk run throws, the chunked run throws
the same exception with the same output log, tape and pointer. -/
theorem chunked_run_eq_bulk_run (s : Interpreter) (stepsPerChunk maxSteps : Int)
    (hpc : s.fastPc = 0) (hst : s.fastSteps = 0) (hchunk : 1 ≤ stepsPerChunk) :
    (∀ n s1, runProgramFast s maxSteps = .ok n s1 →
        runChunks stepsPerChunk maxSteps (maxSteps.toNat + 1) s = .ok false s1) ∧
      (∀ e s1, runProgramFast s maxSteps = .thrown e s1 →
        ∃ s2, runChunks stepsPerChunk maxSteps (maxSteps.toNat + 1) s = .thrown e s2 ∧
          s2.outputBuffer = s1.outputBuffer ∧ s2.memory = s1.memory ∧
          s2.pointer = s1.pointer) := by
  cases hens : ensureCompiled s with
  | thrown e s1 =>
    have h1 : runProgramFast s maxSteps = .thrown e s1 := by
      simp only [runProgramFast, hens, Outcome.andThen]
    have h2 : runChunks stepsPerChunk maxSteps (maxSteps.toNat + 1) s = .thrown e s1 := by
      simp only [runChunks, runProgramFastInterruptible, hens, Outcome.andThen]
    rw [h1, h2]
    constructor
    · intro n s2 h; exact Outcome.noConfusion h
    · intro e1 s2 h
      simp only [Outcome.thrown.injEq] at h
      obtain ⟨rfl, rfl⟩ := h
      exact ⟨_, rfl, rfl, rfl, rfl⟩
  | ok u s1 =>
    obtain ⟨hcode, hpc1, hst1⟩ := ensureCompiled_ok s s1 hens
    rw [hpc] at hpc1
    rw [hst] at hst1
    have h2 : runChunks stepsPerChunk maxSteps (maxSteps.toNat + 1) s =
        runChunks stepsPerChunk maxSteps (maxSteps.toNat + 1) s1 := by
      simp only [runChunks, runProgramFastInterruptible, hens,
        ensureCompiled_of_compiled s1 hcode, Outcome.andThen]
    have hmain := runChunks_eq_fastLoop stepsPerChunk maxSteps hchunk (maxSteps.toNat + 1) s1
      hcode (by rw [hst1]; simp)
    rw [hpc1, hst1, sub_zero] at hmain
    have hfr := fastLoop_frame maxSteps.toNat 0 0 s1
    rw [h2]
    cases hfl : fastLoop maxSteps.toNat 0 0 s1 with
    | thrown e s2 =>
      have h1 : runProgramFast s maxSteps = .thrown e s2 := by
        simp only [runProgramFast, hens, hfl, Outcome.andThen]
      rw [h1]
      constructor
      · intro n s3 h; exact Outcome.noConfusion h
      · intro e1 s3 h
        simp only [Outcome.thrown.injEq] at h
        obtain ⟨rfl, rfl⟩ := h
        obtain ⟨p, k, hpk⟩ := hmain.2 _ _ hfl
        exact ⟨_, hpk, rfl, rfl, rfl⟩
    | ok r s2 =>
      have h1 : runProgramFast s maxSteps = .ok r.2 { s2 with running := false } := by
        simp only [runProgramFast, hens, hfl, Outcome.andThen]
      rw [h1]
      rw [hfl] at hfr
      simp only [Outcome.vm] at hfr
      have e1 : s2.fastPc = 0 := by rw [hfr.2.2.2.2.2.2.2.1, hpc1]
      have e2 : s2.fastSteps = 0 := by rw [hfr.2.2.2.2.2.2.2.2, hst1]
      constructor
      · intro n s3 h
        simp only [Outcome.ok.injEq] at h
        obtain ⟨rfl, rfl⟩ := h
        rw [hmain.1 r.1 r.2 s2 hfl]
        conv_rhs => rw [show s2.fastPc = 0 from e1, show s2.fastSteps = 0 from e2]
      · intro e s3 h; exact Outcome.noConfusion h

/-- C2 at the text `+[-]` with budget 100: chunks of one instruction. -/
theorem chunked_run_eq_bulk_run_witness :
    (∀ n s1, runProgramFast (loadProgram (Interpreter.new 3) ['+', '[', '-', ']']) 100 = .ok n s1 →
        runChunks 1 100 ((100 : Int).toNat + 1)
          (loadProgram (Interpreter.new 3) ['+', '[', '-', ']']) = .ok false s1) ∧
      (∀ e s1, runProgramFast (loadProgram (Interpreter.new 3) ['+', '[', '-', ']']) 100 =
          .thrown e s1 →
        ∃ s2, runChunks 1 100 ((100 : Int).toNat + 1)
            (loadProgram (Interpreter.new 3) ['+', '[', '-', ']']) = .thrown e s2 ∧
          s2.outputBuffer = s1.outputBuffer ∧ s2.memory = s1.memory ∧
          s2.pointer = s1.pointer) :=
  chunked_run_eq_bulk_run (loadProgram (Interpreter.new 3) ['+', '[', '-', ']']) 1 100
    (by decide) (by decide) (by decide)

/-! ## The compiler: jump targets -/

theorem Closed.cast {off off1 : Nat} {l : List Instr} (h : Closed off l) (e : off = off1) :
    Closed off1 l := e ▸ h

theorem Closed.append {off : Nat} {a b : List Instr} (ha : Closed off a)
    (hb : Closed (off + a.length) b) : Closed off (a ++ b) := by
  induction ha with
  | nil off => simpa using hb
  | op off i rest h1 h2 _ ih =>
    exact Closed.op off i (rest ++ b) h1 h2
      (ih (hb.cast (by simp only [List.length_cons]; omega)))
  | loop off body rest hbody _ _ ih2 =>
    have := Closed.loop off body (rest ++ b) hbody
      (ih2 (hb.cast (by simp only [List.length_cons, List.length_append]; omega)))
    simpa using this

theorem modify_append_cons {α : Type} (f : α → α) (pre : List α) (x : α) (rest : List α) :
    List.modify f pre.length (pre ++ x :: rest) = pre ++ f x :: rest := by
  induction pre with
  | nil => rfl
  | cons a pre ih => simp [List.modify_succ_cons, ih]

theorem OpenFrames.length_le {stack : List Nat} {out : List Instr} (h : OpenFrames stack out) :
    ∀ k ∈ stack, k < out.length := by
  induction stack generalizing out with
  | nil => intro k hk; cases hk
  | cons k0 stack ih =>
    obtain ⟨pre, cur, rfl, hlen, -, hpre⟩ := h
    intro k hk
    simp only [List.length_append, List.length_cons]
    rcases List.mem_cons.1 hk with rfl | hk
    · omega
    · have := ih hpre k hk
      omega

theorem OpenFrames.extend {stack : List Nat} {out ext : List Instr} (h : OpenFrames stack out)
    (hext : Closed out.length ext) : OpenFrames stack (out ++ ext) := by
  cases stack with
  | nil => exact Closed.append h (hext.cast (by simp))
  | cons k stack =>
    obtain ⟨pre, cur, rfl, hlen, hcur, hpre⟩ := h
    refine ⟨pre, cur ++ ext, by simp, hlen, ?_, hpre⟩
    exact Closed.append hcur
      (hext.cast (by simp only [List.length_append, List.length_cons]; omega))

theorem OpenFrames.push {stack : List Nat} {out : List Instr} (h : OpenFrames stack out) :
    OpenFrames (out.length :: stack) (out ++ [('[', -1)]) :=
  ⟨out, [], rfl, rfl, Closed.nil _, h⟩

theorem OpenFrames.pop {k : Nat} {stack : List Nat} {out : List Instr}
    (h : OpenFrames (k :: stack) out) :
    OpenFrames stack
      (List.modify (fun p => (p.1, (out.length : Int))) k (out ++ [(']', (k : Int))])) := by
  obtain ⟨pre, cur, rfl, hlen, hcur, hpre⟩ := h
  have e : (pre ++ ('[', (-1 : Int)) :: cur) ++ [(']', (k : Int))] =
      pre ++ ('[', (-1 : Int)) :: (cur ++ [(']', (k : Int))]) := by simp
  rw [e, ← hlen, modify_append_cons]
  apply OpenFrames.extend hpre
  have hloop := Closed.loop pre.length cur [] (hcur.cast (by omega)) (Closed.nil _)
  have e2 : ((pre ++ ('[', (-1 : Int)) :: cur).length : Int) =
      ((pre.length + cur.length + 1 : Nat) : Int) := by
    simp only [List.length_append, List.length_cons]
    push_cast
    ring
  simp only [e2]
  exact hloop

/-- The compiler loop, when it succeeds, returns a properly nested instruction list. -/
theorem compileLoop_closed (fuel : Nat) (rest : List Char) (out : List Instr)
    (stack : List Nat) (code : List Instr)
    (h : compileLoop fuel rest out stack = .ok code) (hframes : OpenFrames stack out) :
    Closed 0 code := by
  induction fuel generalizing rest out stack with
  | zero =>
    simp only [compileLoop] at h
    split_ifs at h with hs
    simp only [Except.ok.injEq] at h
    subst h
    simp only [ne_eq, not_not] at hs
    subst hs
    exact hframes
  | succ fuel ih =>
    cases rest with
    | nil =>
      simp only [compileLoop] at h
      split_ifs at h with hs
      simp only [Except.ok.injEq] at h
      subst h
      simp only [ne_eq, not_not] at hs
      subst hs
      exact hframes
    | cons cmd rest =>
      simp only [compileLoop] at h
      split_ifs at h with h1 h2 h3 h4
      · exact ih _ _ _ h hframes.push
      · cases stack with
        | nil => exact Except.noConfusion h
        | cons startIdx stack1 => exact ih _ _ _ h hframes.pop
      · exact ih _ _ _ h
          (hframes.extend (Closed.op _ _ _ h1 h2 (Closed.nil _)))
      · exact ih _ _ _ h
          (hframes.extend (Closed.op _ _ _ h1 h2 (Closed.nil _)))
      · exact ih _ _ _ h hframes

/-- In a properly nested list, every `[` instruction heads a block `[ body ]` whose `]`
holds the index of the `[`, and its target is the index of that `]`. -/
theorem Closed.open_block {off : Nat} {l : List Instr} (h : Closed off l) :
    ∀ (i : Nat) (j : Int), l[i]? = some ('[', j) →
      ∃ pre body post k, l = pre ++ ('[', j) :: (body ++ (']', k) :: post) ∧
        pre.length = i ∧ k = (off : Int) + i ∧ j = (off : Int) + i + body.length + 1 ∧
        Closed (off + i + 1) body := by
  induction h with
  | nil off => intro i j hij; simp at hij
  | op off x rest h1 h2 _ ih =>
    intro i j hij
    cases i with
    | zero =>
      simp only [List.getElem?_cons_zero, Option.some.injEq] at hij
      rw [hij] at h1
      exact absurd rfl h1
    | succ i =>
      simp only [List.getElem?_cons_succ] at hij
      obtain ⟨pre, body, post, k, rfl, hlen, hk, hj, hbody⟩ := ih i j hij
      exact ⟨x :: pre, body, post, k, rfl, by simp [hlen], by rw [hk]; push_cast; ring,
        by rw [hj]; push_cast; ring, hbody.cast (by omega)⟩
  | loop off body rest hbody hrest ihb ihr =>
    intro i j hij
    cases i with
    | zero =>
      simp only [List.getElem?_cons_zero, Option.some.injEq, Prod.mk.injEq, true_and] at hij
      exact ⟨[], body, rest, (off : Int), by simp [hij], rfl, by simp,
        by rw [← hij]; push_cast; ring, hbody⟩
    | succ i =>
      simp only [List.getElem?_cons_succ] at hij
      rcases Nat.lt_trichotomy i body.length with hlt | heq | hgt
      · rw [List.getElem?_append_left hlt] at hij
        obtain ⟨pre, b2, post, k, hb, hlen, hk, hj, hb2⟩ := ihb i j hij
        refine ⟨('[', ((off + body.length + 1 : Nat) : Int)) :: pre, b2,
          post ++ (']', (off : Int)) :: rest, k, ?_, by simp [hlen],
          by rw [hk]; push_cast; ring, by rw [hj]; push_cast; ring, hb2.cast (by omega)⟩
        simp only [List.cons_append, List.cons.injEq, true_and]
        conv_lhs => rw [hb]
        simp
      · rw [List.getElem?_append_right (by omega)] at hij
        simp only [heq, Nat.sub_self, List.getElem?_cons_zero, Option.some.injEq,
          Prod.mk.injEq] at hij
        exact absurd hij.1 (by decide)
      · rw [List.getElem?_append_right (by omega)] at hij
        obtain ⟨m, hm⟩ : ∃ m, i - body.length = m + 1 := ⟨i - body.length - 1, by omega⟩
        rw [hm, List.getElem?_cons_succ] at hij
        obtain ⟨pre, b2, post, k, hr, hlen, hk, hj, hb2⟩ := ihr m j hij
        refine ⟨('[', ((off + body.length + 1 : Nat) : Int)) :: (body ++ (']', (off : Int)) :: pre),
          b2, post, k, ?_, by simp [hlen]; omega, by rw [hk]; push_cast; omega,
          by rw [hj]; push_cast; omega, hb2.cast (by omega)⟩
        simp only [List.cons_append, List.cons.injEq, true_and]
        conv_lhs => rw [hr]
        simp

/-- In a properly nested list, every `]` instruction ends a block `[ body ]` whose `[`
sits at the target of the `]` and holds the index of the `]`. -/
theorem Closed.close_block {off : Nat} {l : List Instr} (h : Closed off l) :
    ∀ (j : Nat) (i : Int), l[j]? = some (']', i) →
      ∃ pre body post t, l = pre ++ ('[', t) :: (body ++ (']', i) :: post) ∧
        pre.length + body.length + 1 = j ∧ i = (off : Int) + pre.length ∧
        t = (off : Int) + j ∧ Closed (off + pre.length + 1) body := by
  induction h with
  | nil off => intro j i hji; simp at hji
  | op off x rest h1 h2 _ ih =>
    intro j i hji
    cases j with
    | zero =>
      simp only [List.getElem?_cons_zero, Option.some.injEq] at hji
      rw [hji] at h2
      exact absurd rfl h2
    | succ j =>
      simp only [List.getElem?_cons_succ] at hji
      obtain ⟨pre, body, post, t, rfl, hlen, hi, ht, hbody⟩ := ih j i hji
      exact ⟨x :: pre, body, post, t, rfl, by simp only [List.length_cons]; omega,
        by rw [hi]; simp only [List.length_cons]; push_cast; ring,
        by rw [ht]; push_cast; ring, hbody.cast (by simp only [List.length_cons]; omega)⟩
  | loop off body rest hbody hrest ihb ihr =>
    intro j i hji
    cases j with
    | zero =>
      simp only [List.getElem?_cons_zero, Option.some.injEq, Prod.mk.injEq] at hji
      exact absurd hji.1 (by decide)
    | succ j =>
      simp only [List.getElem?_cons_succ] at hji
      rcases Nat.lt_trichotomy j body.length with hlt | heq | hgt
      · rw [List.getElem?_append_left hlt] at hji
        obtain ⟨pre, b2, post, t, hb, hlen, hi, ht, hb2⟩ := ihb j i hji
        refine ⟨('[', ((off + body.length + 1 : Nat) : Int)) :: pre, b2,
          post ++ (']', (off : Int)) :: rest, t, ?_, by simp only [List.length_cons]; omega,
          by rw [hi]; simp only [List.length_cons]; push_cast; ring,
          by rw [ht]; push_cast; ring, hb2.cast (by simp only [List.length_cons]; omega)⟩
        simp only [List.cons_append, List.cons.injEq, true_and]
        conv_lhs => rw [hb]
        simp
      · rw [List.getElem?_append_right (by omega)] at hji
        simp only [heq, Nat.sub_self, List.getElem?_cons_zero, Option.some.injEq,
          Prod.mk.injEq, true_and] at hji
        exact ⟨[], body, rest, ((off + body.length + 1 : Nat) : Int), by simp [hji],
          by simp [heq], by simp [← hji], by rw [heq]; push_cast; ring, hbody⟩
      · rw [List.getElem?_append_right (by omega)] at hji
        obtain ⟨m, hm⟩ : ∃ m, j - body.length = m + 1 := ⟨j - body.length - 1, by omega⟩
        rw [hm, List.getElem?_cons_succ] at hji
        obtain ⟨pre, b2, post, t, hr, hlen, hi, ht, hb2⟩ := ihr m i hji
        refine ⟨('[', ((off + body.length + 1 : Nat) : Int)) :: (body ++ (']', (off : Int)) :: pre),
          b2, post, t, ?_, by simp only [List.length_cons, List.length_append]; omega,
          by rw [hi]; simp only [List.length_cons, List.length_append]; push_cast; omega,
          by rw [ht]; push_cast; omega,
          hb2.cast (by simp only [List.length_cons, List.length_append]; omega)⟩
        simp only [List.cons_append, List.cons.injEq, true_and]
        conv_lhs => rw [hr]
        simp

/-- The jump targets of a properly nested instruction list are resolved and mutually
consistent. -/
theorem Closed.targetsResolved {l : List Instr} (h : Closed 0 l) : TargetsResolved l := by
  constructor
  · intro i j hij
    obtain ⟨pre, body, post, k, rfl, hlen, hk, hj, -⟩ := h.open_block i j hij
    simp only [Nat.cast_zero, zero_add] at hk hj
    refine ⟨by omega, by simp only [List.length_append, List.length_cons]; push_cast; omega, ?_⟩
    have e : j.toNat = pre.length + (body.length + 1) := by omega
    rw [e, List.getElem?_append_right (by omega), Nat.add_sub_cancel_left,
      List.getElem?_cons_succ, List.getElem?_append_right (le_refl _), Nat.sub_self,
      List.getElem?_cons_zero, hk]
  · intro j i hji
    obtain ⟨pre, body, post, t, rfl, hlen, hi, ht, -⟩ := h.close_block j i hji
    simp only [Nat.cast_zero, zero_add] at hi ht
    refine ⟨by omega, by omega, ?_⟩
    have e : i.toNat = pre.length := by omega
    rw [e, List.getElem?_append_right (le_refl _), Nat.sub_self, List.getElem?_cons_zero, ht]

/-- C5: when `compileProgram` succeeds, the jump targets of the returned instruction
list (which is also the stored `compiledProgram`) are resolved and mutually consistent:
a `[` at index `i` with target `j` has `i < j < length` and the instruction at `j` is a
`]` with target `i`; a `]` at index `j` with target `i` has the instruction at `i` equal
to a `[` with target `j`; no `[` keeps the placeholder -1.  The text `[]` compiles to
`[('[',1), (']',0)]`. -/
theorem compileProgram_targets_resolved (s : Interpreter) (code : List Instr) (s1 : Interpreter)
    (h : compileProgram s = .ok code s1) :
    s1.compiledProgram = code ∧
      (∀ (i : Nat) (j : Int), code[i]? = some ('[', j) →
        (i : Int) < j ∧ j < code.length ∧ code[j.toNat]? = some (']', (i : Int))) ∧
      (∀ (j : Nat) (i : Int), code[j]? = some (']', i) →
        0 ≤ i ∧ i < j ∧ code[i.toNat]? = some ('[', (j : Int))) ∧
      (∀ i : Nat, code[i]? ≠ some ('[', -1)) ∧
      (compileProgram (loadProgram s ['[', ']'])).value? = some [('[', 1), (']', 0)] := by
  obtain ⟨-, -, hloop, rfl⟩ := (compileProgram_ok_iff s code s1).1 h
  have hclosed : Closed 0 code := compileLoop_closed _ _ _ _ _ hloop (Closed.nil 0)
  obtain ⟨hopen, hclose⟩ := hclosed.targetsResolved
  refine ⟨rfl, hopen, hclose, ?_, rfl⟩
  intro i hi
  have := (hopen i (-1) hi).1
  omega

/-- C5 at the text `++[>[-]<-].,`. -/
theorem compileProgram_targets_resolved_witness :
    ({ nestedLoopsVM with compiledProgram := nestedLoopsCode } : Interpreter).compiledProgram =
        nestedLoopsCode ∧
      (∀ (i : Nat) (j : Int), nestedLoopsCode[i]? = some ('[', j) →
        (i : Int) < j ∧ j < nestedLoopsCode.length ∧
          nestedLoopsCode[j.toNat]? = some (']', (i : Int))) ∧
      (∀ (j : Nat) (i : Int), nestedLoopsCode[j]? = some (']', i) →
        0 ≤ i ∧ i < j ∧ nestedLoopsCode[i.toNat]? = some ('[', (j : Int))) ∧
      (∀ i : Nat, nestedLoopsCode[i]? ≠ some ('[', -1)) ∧
      (compileProgram (loadProgram nestedLoopsVM ['[', ']'])).value? =
        some [('[', 1), (']', 0)] :=
  compileProgram_targets_resolved nestedLoopsVM nestedLoopsCode
    { nestedLoopsVM with compiledProgram := nestedLoopsCode } (by decide)

/-! ## The compiler: run-length encoding -/

theorem runLength_take (cmd : Char) (rest : List Char) :
    rest.take (runLength cmd rest) = List.replicate (runLength cmd rest) cmd := by
  induction rest with
  | nil => rfl
  | cons c cs ih =>
    simp only [runLength]
    split_ifs with hc
    · subst hc
      simp only [List.take_succ_cons, List.replicate_succ, ih]
    · rfl

theorem runLength_head (cmd : Char) (rest : List Char) :
    (rest.drop (runLength cmd rest)).head? ≠ some cmd := by
  induction rest with
  | nil => simp [runLength]
  | cons c cs ih =>
    simp only [runLength]
    split_ifs with hc
    · simpa using ih
    · simpa using hc

theorem runLength_le (cmd : Char) (rest : List Char) : runLength cmd rest ≤ rest.length := by
  induction rest with
  | nil => simp [runLength]
  | cons c cs ih =>
    simp only [runLength]
    split_ifs
    all_goals simp
    all_goals omega

theorem expand_append (a b : List Instr) : expand (a ++ b) = expand a ++ expand b := by
  simp [expand]

theorem expand_cons (i : Instr) (l : List Instr) : expand (i :: l) = expandInstr i ++ expand l := by
  simp [expand]

theorem expand_nil : expand [] = [] := rfl

theorem not_mergeable_open : ¬ mergeable '[' := by decide

theorem not_mergeable_close : ¬ mergeable ']' := by decide

theorem mergeable_ne_brackets {c : Char} (h : mergeable c) : c ≠ '[' ∧ c ≠ ']' := by
  constructor <;> rintro rfl <;> revert h <;> decide

theorem mergeable_ne_io {c : Char} (h : mergeable c) : ¬ (c = '.' ∨ c = ',') := by
  rintro (rfl | rfl) <;> revert h <;> decide

/-- What closing a loop does to the instruction list, given the shape the loop invariant
gives it. -/
theorem OpenFrames.pop_shape {k : Nat} {stack : List Nat} {out : List Instr}
    (h : OpenFrames (k :: stack) out) :
    ∃ pre cur, out = pre ++ ('[', (-1 : Int)) :: cur ∧
      List.modify (fun p => (p.1, (out.length : Int))) k (out ++ [(']', (k : Int))]) =
        pre ++ ('[', (out.length : Int)) :: (cur ++ [(']', (k : Int))]) := by
  obtain ⟨pre, cur, hout, hlen, -, -⟩ := h
  refine ⟨pre, cur, hout, ?_⟩
  have e : out ++ [(']', (k : Int))] = pre ++ ('[', (-1 : Int)) :: (cur ++ [(']', (k : Int))]) := by
    rw [hout]; simp
  rw [e, ← hlen, modify_append_cons]

theorem RunLengthEncoded.snoc {out : List Instr} {x : Instr} (h : RunLengthEncoded out)
    (h1 : mergeable x.1 → 1 ≤ x.2) (h2 : x.1 = '.' ∨ x.1 = ',' → x.2 = 0)
    (h3 : ∀ c, (out.map Prod.fst).getLast? = some c → mergeable c → c ≠ x.1) :
    RunLengthEncoded (out ++ [x]) := by
  obtain ⟨ha, hb, hc⟩ := h
  refine ⟨?_, ?_, ?_⟩
  · intro i hi
    rcases List.mem_append.1 hi with hi | hi
    · exact ha i hi
    · rw [List.mem_singleton.1 hi]; exact h1
  · intro i hi
    rcases List.mem_append.1 hi with hi | hi
    · exact hb i hi
    · rw [List.mem_singleton.1 hi]; exact h2
  · rw [List.map_append, List.chain'_append]
    refine ⟨hc, by simp, ?_⟩
    intro c hc1 y hy
    simp only [List.map_cons, List.map_nil, List.head?_cons, Option.mem_def,
      Option.some.injEq] at hy
    subst hy
    exact h3 c hc1

theorem expandInstr_open (t : Int) : expandInstr ('[', t) = ['['] := by
  simp [expandInstr, not_mergeable_open]

theorem expandInstr_close (t : Int) : expandInstr (']', t) = [']'] := by
  simp [expandInstr, not_mergeable_close]

/-- The compiler loop on a text of operators, when it succeeds: the instruction list
stands for the text read, and it is run-length encoded. -/
theorem compileLoop_text (fuel : Nat) (rest : List Char) (out : List Instr)
    (stack : List Nat) (code : List Instr)
    (h : compileLoop fuel rest out stack = .ok code) (hfuel : rest.length ≤ fuel)
    (hall : ∀ c ∈ rest, allowed c = true) (hframes : OpenFrames stack out)
    (hrle : RunLengthEncoded out)
    (hlast : ∀ c, (out.map Prod.fst).getLast? = some c → mergeable c → rest.head? ≠ some c) :
    expand code = expand out ++ rest ∧ RunLengthEncoded code := by
  induction fuel generalizing rest out stack with
  | zero =>
    have hrest : rest = [] := List.length_eq_zero.1 (by omega)
    subst hrest
    simp only [compileLoop] at h
    split_ifs at h with hs
    simp only [Except.ok.injEq] at h
    subst h
    exact ⟨by simp, hrle⟩
  | succ fuel ih =>
    cases rest with
    | nil =>
      simp only [compileLoop] at h
      split_ifs at h with hs
      simp only [Except.ok.injEq] at h
      subst h
      exact ⟨by simp, hrle⟩
    | cons cmd rest =>
      have hfuel1 : rest.length ≤ fuel := by simpa using hfuel
      have hall1 : ∀ c ∈ rest, allowed c = true := fun c hc => hall c (List.mem_cons_of_mem _ hc)
      simp only [compileLoop] at h
      split_ifs at h with h1 h2 h3 h4
      · subst h1
        have := ih _ _ _ h hfuel1 hall1 hframes.push
          (hrle.snoc (fun hm => absurd hm not_mergeable_open) (by simp)
            (fun c _ hm => (mergeable_ne_brackets hm).1))
          (by simp [List.getLast?_concat, not_mergeable_open])
        rw [expand_append, expand_cons, expandInstr_open, expand_nil] at this
        exact ⟨by rw [this.1]; simp, this.2⟩
      · subst h2
        cases stack with
        | nil => exact Except.noConfusion h
        | cons startIdx stack1 =>
          obtain ⟨pre, cur, hout, hmod⟩ := hframes.pop_shape
          have hrle1 : RunLengthEncoded (out ++ [(']', (startIdx : Int))]) :=
            hrle.snoc (fun hm => absurd hm not_mergeable_close) (by simp)
              (fun c _ hm => (mergeable_ne_brackets hm).2)
          have hexp : expand (pre ++ ('[', (out.length : Int)) :: (cur ++ [(']', (startIdx : Int))])) =
              expand out ++ [']'] := by
            rw [hout]
            simp only [expand_append, expand_cons, expandInstr_open, expandInstr_close,
              expand_nil]
            simp
          have hfst : (pre ++ ('[', (out.length : Int)) :: (cur ++ [(']', (startIdx : Int))])).map
              Prod.fst = (out ++ [(']', (startIdx : Int))]).map Prod.fst := by
            rw [hout]; simp
          have hmem : ∀ i ∈ pre ++ ('[', (out.length : Int)) :: (cur ++ [(']', (startIdx : Int))]),
              i ∈ out ++ [(']', (startIdx : Int))] ∨ i.1 = '[' := by
            intro i hi
            rw [hout]
            simp only [List.mem_append, List.mem_cons, List.mem_singleton] at hi ⊢
            rcases hi with hi | rfl | hi | hi
            · exact Or.inl (Or.inl (Or.inl hi))
            · exact Or.inr rfl
            · exact Or.inl (Or.inl (Or.inr (Or.inr hi)))
            · exact Or.inl (Or.inr hi)
          have hrle2 : RunLengthEncoded
              (pre ++ ('[', (out.length : Int)) :: (cur ++ [(']', (startIdx : Int))])) := by
            refine ⟨?_, ?_, ?_⟩
            · intro i hi hm
              rcases hmem i hi with hi | hi
              · exact hrle1.1 i hi hm
              · rw [hi] at hm; exact absurd hm not_mergeable_open
            · intro i hi hio
              rcases hmem i hi with hi | hi
              · exact hrle1.2.1 i hi hio
              · rcases hio with h5 | h5 <;> rw [hi] at h5 <;> exact absurd h5 (by decide)
            · rw [hfst]; exact hrle1.2.2
          simp only [hmod] at h
          have := ih _ _ _ h hfuel1 hall1 (hmod ▸ hframes.pop) hrle2
            (by
              intro c hc hm
              rw [hfst] at hc
              simp only [List.map_append, List.map_cons, List.map_nil, List.getLast?_concat,
                Option.some.injEq] at hc
              rw [← hc] at hm
              exact absurd hm not_mergeable_close)
          rw [hexp] at this
          exact ⟨by rw [this.1]; simp, this.2⟩
      · have hdrop : ((rest.drop (runLength cmd rest)).length) ≤ fuel := by
          simp only [List.length_drop]; omega
        have hall2 : ∀ c ∈ rest.drop (runLength cmd rest), allowed c = true :=
          fun c hc => hall1 c (List.mem_of_mem_drop hc)
        have := ih _ _ _ h hdrop hall2
          (hframes.extend (Closed.op _ _ _ h1 h2 (Closed.nil _)))
          (hrle.snoc (fun _ => by push_cast; omega) (fun hio => absurd hio (mergeable_ne_io h3))
            (fun c hc hm heq => hlast c hc hm (by simp [heq])))
          (by
            intro c hc hm
            simp only [List.map_append, List.map_cons, List.map_nil, List.getLast?_concat,
              Option.some.injEq] at hc
            rw [← hc]
            exact runLength_head cmd rest)
        refine ⟨?_, this.2⟩
        rw [this.1, expand_append, expand_cons, expand_nil]
        have hexp : expandInstr (cmd, ((1 + runLength cmd rest : Nat) : Int)) =
            cmd :: rest.take (runLength cmd rest) := by
          have hm : mergeable cmd := h3
          simp only [expandInstr, hm, if_true, Int.toNat_ofNat, runLength_take]
          rw [Nat.add_comm, List.replicate_succ]
        rw [hexp]
        simp
      · have := ih _ _ _ h hfuel1 hall1
          (hframes.extend (Closed.op _ _ _ h1 h2 (Closed.nil _)))
          (hrle.snoc (fun hm => absurd hm h3) (fun _ => rfl)
            (fun c hc hm heq => hlast c hc hm (by simp [heq])))
          (by
            intro c hc hm
            simp only [List.map_append, List.map_cons, List.map_nil, List.getLast?_concat,
              Option.some.injEq] at hc
            rw [← hc] at hm
            exact absurd hm h3)
        refine ⟨?_, this.2⟩
        rw [this.1, expand_append, expand_cons, expand_nil]
        have hexp : expandInstr (cmd, (0 : Int)) = [cmd] := by
          have hm : ¬ mergeable cmd := h3
          simp only [expandInstr, hm, if_false]
        rw [hexp]
        simp
      · exfalso
        have := hall cmd (List.mem_cons_self _ _)
        simp only [allowed, Bool.or_eq_true, decide_eq_true_eq] at this
        simp only [mergeable] at h3
        tauto

theorem checkSyntaxFrom_nil_iff (l : List Char) (k : Nat) :
    checkSyntaxFrom l k = [] ↔ ∀ c ∈ l, allowed c = true := by
  induction l generalizing k with
  | nil => simp [checkSyntaxFrom]
  | cons c cs ih =>
    simp only [checkSyntaxFrom, List.mem_cons, forall_eq_or_imp]
    split_ifs with hc
    · simp [hc, ih]
    · simp [hc]

theorem RunLengthEncoded.nil : RunLengthEncoded [] :=
  ⟨fun _ h => absurd h (List.not_mem_nil _), fun _ h => absurd h (List.not_mem_nil _),
    List.chain'_nil⟩

/-- What a successful compilation gives, in the form the executors use it. -/
theorem compileProgram_ok_facts (s : Interpreter) (code : List Instr) (s1 : Interpreter)
    (h : compileProgram s = .ok code s1) :
    Closed 0 code ∧ expand code = s.program ∧ RunLengthEncoded code := by
  obtain ⟨-, herr, hloop, -⟩ := (compileProgram_ok_iff s code s1).1 h
  have hall := (checkSyntaxFrom_nil_iff s.program 0).1 herr
  have htext := compileLoop_text _ _ _ _ _ hloop (le_refl _) hall (Closed.nil 0)
    RunLengthEncoded.nil (by simp)
  exact ⟨compileLoop_closed _ _ _ _ _ hloop (Closed.nil 0), by simpa [expand] using htext.1,
    htext.2⟩

/-- C9: when `compileProgram` succeeds, the instruction list is the run-length encoding
of the program text: every `>`, `<`, `+`, `-` instruction carries a magnitude of at
least 1, every `.` and `,` instruction carries 0, no instruction of a mergeable operator
is directly followed by an instruction of the same operator, and expanding every
instruction (the operator repeated magnitude times for moves and arithmetic, once for
`.`, `,`, `[`, `]`) and concatenating gives back the program text. -/
theorem compileProgram_run_length_encoding (s : Interpreter) (code : List Instr)
    (s1 : Interpreter) (h : compileProgram s = .ok code s1) :
    (∀ i ∈ code, (i.1 = '>' ∨ i.1 = '<' ∨ i.1 = '+' ∨ i.1 = '-') → 1 ≤ i.2) ∧
      (∀ i ∈ code, (i.1 = '.' ∨ i.1 = ',') → i.2 = 0) ∧
      List.Chain' (fun a b => (a.1 = '>' ∨ a.1 = '<' ∨ a.1 = '+' ∨ a.1 = '-') → a.1 ≠ b.1) code ∧
      code.flatMap (fun i =>
        if i.1 = '>' ∨ i.1 = '<' ∨ i.1 = '+' ∨ i.1 = '-' then List.replicate i.2.toNat i.1
        else [i.1]) = s.program := by
  obtain ⟨-, hexp, hm, hio, hchain⟩ := compileProgram_ok_facts s code s1 h
  refine ⟨hm, hio, ?_, hexp⟩
  exact (List.chain'_map Prod.fst).1 hchain

/-- C9 at the text `++[>[-]<-].,`. -/
theorem compileProgram_run_length_encoding_witness :
    (∀ i ∈ nestedLoopsCode, (i.1 = '>' ∨ i.1 = '<' ∨ i.1 = '+' ∨ i.1 = '-') → 1 ≤ i.2) ∧
      (∀ i ∈ nestedLoopsCode, (i.1 = '.' ∨ i.1 = ',') → i.2 = 0) ∧
      List.Chain' (fun a b => (a.1 = '>' ∨ a.1 = '<' ∨ a.1 = '+' ∨ a.1 = '-') → a.1 ≠ b.1)
        nestedLoopsCode ∧
      nestedLoopsCode.flatMap (fun i =>
        if i.1 = '>' ∨ i.1 = '<' ∨ i.1 = '+' ∨ i.1 = '-' then List.replicate i.2.toNat i.1
        else [i.1]) = nestedLoopsVM.program :=
  compileProgram_run_length_encoding nestedLoopsVM nestedLoopsCode
    { nestedLoopsVM with compiledProgram := nestedLoopsCode } (by decide)

/-! ## The compiler: success and failure -/

theorem walk_drop_run (cmd : Char) (h1 : cmd ≠ '[') (h2 : cmd ≠ ']') (rest : List Char) (d : Nat) :
    walk (rest.drop (runLength cmd rest)) d = walk rest d := by
  induction rest with
  | nil => rfl
  | cons c cs ih =>
    simp only [runLength]
    split_ifs with hc
    · subst hc
      simp only [List.drop_succ_cons, walk, if_neg h1, if_neg h2, ih]
    · rfl

/-- The compiler loop fails with the unmatched-`]` error when the nesting depth of the
text left would go below zero, succeeds when it ends at zero, and fails with the
unmatched-`[` error when it ends above zero; the depth at the start is the height of
the stack. -/
theorem compileLoop_walk (fuel : Nat) (rest : List Char) (out : List Instr) (stack : List Nat)
    (hfuel : rest.length ≤ fuel) :
    (walk rest stack.length = none →
        ∃ c, compileLoop fuel rest out stack = .error (.unmatchedClose, c)) ∧
      (walk rest stack.length = some 0 → ∃ c, compileLoop fuel rest out stack = .ok c) ∧
      (∀ d, walk rest stack.length = some (d + 1) →
        ∃ c, compileLoop fuel rest out stack = .error (.unmatchedOpen, c)) := by
  have hend : ∀ (out : List Instr) (stack : List Nat) (r : Except (Error × List Instr) (List Instr)),
      r = (if stack ≠ [] then .error (.unmatchedOpen, out) else .ok out) →
      (walk [] stack.length = none → ∃ c, r = .error (.unmatchedClose, c)) ∧
      (walk [] stack.length = some 0 → ∃ c, r = .ok c) ∧
      (∀ d, walk [] stack.length = some (d + 1) → ∃ c, r = .error (.unmatchedOpen, c)) := by
    intro out stack r hr
    subst hr
    cases stack with
    | nil => simp [walk]
    | cons k st => simp [walk]
  induction fuel generalizing rest out stack with
  | zero =>
    have hrest : rest = [] := List.length_eq_zero.1 (by omega)
    subst hrest
    exact hend out stack _ (by simp only [compileLoop])
  | succ fuel ih =>
    cases rest with
    | nil => exact hend out stack _ (by simp only [compileLoop])
    | cons cmd rest =>
      have hfuel1 : rest.length ≤ fuel := by simpa using hfuel
      by_cases h1 : cmd = '['
      · simp only [compileLoop, walk, if_pos h1]
        exact ih rest (out ++ [('[', -1)]) (out.length :: stack) hfuel1
      by_cases h2 : cmd = ']'
      · cases stack with
        | nil => simp [compileLoop, walk, h1, h2]
        | cons k st =>
          simp only [compileLoop, walk, if_neg h1, if_pos h2, List.length_cons,
            Nat.add_sub_cancel, if_neg (Nat.succ_ne_zero _)]
          exact ih rest _ st hfuel1
      by_cases h3 : cmd = '>' ∨ cmd = '<' ∨ cmd = '+' ∨ cmd = '-'
      · simp only [compileLoop, walk, if_neg h1, if_neg h2, if_pos h3]
        rw [← walk_drop_run cmd h1 h2 rest]
        exact ih _ _ stack (by simp only [List.length_drop]; omega)
      by_cases h4 : cmd = '.' ∨ cmd = ','
      · simp only [compileLoop, walk, if_neg h1, if_neg h2, if_neg h3, if_pos h4]
        exact ih rest _ stack hfuel1
      · simp only [compileLoop, walk, if_neg h1, if_neg h2, if_neg h3, if_neg h4]
        exact ih rest _ stack hfuel1

theorem walk_none_iff (l : List Char) (d : Nat) :
    walk l d = none ↔
      ∃ k, k ≤ l.length ∧ d + (l.take k).count '[' < (l.take k).count ']' := by
  induction l generalizing d with
  | nil => simp [walk]
  | cons c cs ih =>
    have hsplit : (∃ k, k ≤ (c :: cs).length ∧
          d + ((c :: cs).take k).count '[' < ((c :: cs).take k).count ']') ↔
        ∃ k, k ≤ cs.length ∧
          d + (c :: cs.take k).count '[' < (c :: cs.take k).count ']' := by
      constructor
      · rintro ⟨k, hk, hlt⟩
        cases k with
        | zero => simp at hlt
        | succ k => exact ⟨k, by simpa using hk, by simpa using hlt⟩
      · rintro ⟨k, hk, hlt⟩
        exact ⟨k + 1, by simpa using hk, by simpa using hlt⟩
    rw [hsplit]
    by_cases h1 : c = '['
    · subst h1
      simp only [walk, if_true, ih, List.count_cons_self]
      have e : ∀ k, List.count ']' ('[' :: List.take k cs) = List.count ']' (List.take k cs) :=
        fun k => List.count_cons_of_ne (by decide) _
      simp only [e]
      constructor <;> rintro ⟨k, hk, hlt⟩ <;> exact ⟨k, hk, by omega⟩
    by_cases h2 : c = ']'
    · subst h2
      have e : ∀ k, List.count '[' (']' :: List.take k cs) = List.count '[' (List.take k cs) :=
        fun k => List.count_cons_of_ne (by decide) _
      simp only [walk, if_neg h1, if_true, List.count_cons_self, e]
      by_cases hd : d = 0
      · subst hd
        simp only [if_true, true_iff]
        exact ⟨0, Nat.zero_le _, by simp⟩
      · simp only [if_neg hd, ih]
        constructor <;> rintro ⟨k, hk, hlt⟩ <;> exact ⟨k, hk, by omega⟩
    · have e1 : ∀ k, List.count '[' (c :: List.take k cs) = List.count '[' (List.take k cs) :=
        fun k => List.count_cons_of_ne (fun h => h1 h.symm) _
      have e2 : ∀ k, List.count ']' (c :: List.take k cs) = List.count ']' (List.take k cs) :=
        fun k => List.count_cons_of_ne (fun h => h2 h.symm) _
      simp only [walk, if_neg h1, if_neg h2, ih, e1, e2]

theorem walk_some_count (l : List Char) (d e : Nat) (h : walk l d = some e) :
    e + l.count ']' = d + l.count '[' := by
  induction l generalizing d with
  | nil =>
    simp only [walk, Option.some.injEq] at h
    simp [h]
  | cons c cs ih =>
    by_cases h1 : c = '['
    · subst h1
      simp only [walk, if_true] at h
      have := ih _ h
      rw [List.count_cons_self, List.count_cons_of_ne (by decide)]
      omega
    by_cases h2 : c = ']'
    · subst h2
      simp only [walk, if_neg h1, if_true] at h
      split_ifs at h with hd
      have := ih _ h
      rw [List.count_cons_self, List.count_cons_of_ne (by decide)]
      omega
    · simp only [walk, if_neg h1, if_neg h2] at h
      have := ih _ h
      rw [List.count_cons_of_ne (fun h => h1 h.symm), List.count_cons_of_ne (fun h => h2 h.symm)]
      exact this

theorem closesTooEarly_iff (l : List Char) : ClosesTooEarly l ↔ walk l 0 = none := by
  rw [walk_none_iff]
  simp [ClosesTooEarly]

theorem balanced_iff (l : List Char) : Balanced l ↔ walk l 0 = some 0 := by
  constructor
  · rintro ⟨hpre, htot⟩
    cases hw : walk l 0 with
    | none =>
      obtain ⟨k, hk, hlt⟩ := (walk_none_iff l 0).1 hw
      have := hpre k hk
      omega
    | some e =>
      have := walk_some_count l 0 e hw
      congr 1
      omega
  · intro hw
    refine ⟨?_, ?_⟩
    · intro k hk
      by_contra hlt
      have : walk l 0 = none := (walk_none_iff l 0).2 ⟨k, hk, by omega⟩
      rw [hw] at this
      exact Option.noConfusion this
    · have := walk_some_count l 0 0 hw
      omega

/-- The outcome of `compileProgram` on a non-empty text of operators, read off the
nesting depth of the text. -/
theorem compileProgram_error_walk (s : Interpreter) (hne : s.program ≠ [])
    (hsyn : checkProgramSyntax s = []) :
    (compileProgram s).error? =
      match walk s.program 0 with
      | none => some .unmatchedClose
      | some 0 => none
      | some (_ + 1) => some .unmatchedOpen := by
  have hw := compileLoop_walk s.program.length s.program [] [] (le_refl _)
  simp only [List.length_nil] at hw
  have hcp : ∀ r, compileLoop s.program.length s.program [] [] = r →
      compileProgram s =
        match r with
        | .ok code => .ok code { s with compiledProgram := code }
        | .error (e, code) => .thrown e { s with compiledProgram := code } := by
    intro r hr
    subst hr
    simp only [compileProgram, if_neg hne, hsyn, ne_eq, not_true_eq_false, if_false]
    try rfl
  cases hwalk : walk s.program 0 with
  | none =>
    obtain ⟨c, hc⟩ := hw.1 hwalk
    rw [hcp _ hc]
    rfl
  | some d =>
    cases d with
    | zero =>
      obtain ⟨c, hc⟩ := hw.2.1 hwalk
      rw [hcp _ hc]
      rfl
    | succ d =>
      obtain ⟨c, hc⟩ := hw.2.2 d hwalk
      rw [hcp _ hc]
      rfl

/-- A text that compiles is balanced. -/
theorem balanced_of_compiled (s : Interpreter) (code : List Instr) (s1 : Interpreter)
    (h : compileProgram s = .ok code s1) : Balanced s.program := by
  obtain ⟨hne, hsyn, -, -⟩ := (compileProgram_ok_iff s code s1).1 h
  have herr := compileProgram_error_walk s hne hsyn
  rw [h] at herr
  rw [balanced_iff]
  cases hwalk : walk s.program 0 with
  | none => rw [hwalk] at herr; exact absurd herr (by simp [Outcome.error?])
  | some d =>
    cases d with
    | zero => rfl
    | succ d => rw [hwalk] at herr; exact absurd herr (by simp [Outcome.error?])

theorem failed_eq_false_iff {α : Type} (o : Outcome α) : o.failed = false ↔ o.error? = none := by
  cases o <;> simp [Outcome.failed, Outcome.error?]

theorem checkProgramSyntax_nil_iff (s : Interpreter) :
    checkProgramSyntax s = [] ↔ ∀ c ∈ s.program, c ∈ operators := by
  rw [checkProgramSyntax, checkSyntaxFrom_nil_iff]
  simp only [allowed_iff_mem_operators]

/-- C6: on a non-empty program text, `compileProgram` succeeds if and only if
`checkProgramSyntax` reports nothing (every character is one of the eight operators) and
the brackets are balanced: no prefix has more `]` than `[`, and the totals of `[` and
`]` are equal.  In every other case it throws. -/
theorem compileProgram_succeeds_iff (s : Interpreter) (hne : s.program ≠ []) :
    ((compileProgram s).failed = false ↔ checkProgramSyntax s = [] ∧ Balanced s.program) ∧
      ((compileProgram s).failed = false ↔
        (∀ c ∈ s.program, c ∈ operators) ∧ Balanced s.program) ∧
      ((compileProgram s).failed = true ↔ ¬ (checkProgramSyntax s = [] ∧ Balanced s.program)) := by
  have main : (compileProgram s).failed = false ↔ checkProgramSyntax s = [] ∧ Balanced s.program := by
    by_cases hsyn : checkProgramSyntax s = []
    · rw [failed_eq_false_iff, compileProgram_error_walk s hne hsyn, balanced_iff]
      simp only [hsyn, true_and]
      cases hwalk : walk s.program 0 with
      | none => simp
      | some d => cases d <;> simp
    · have : compileProgram s = .thrown (.syntaxErrors (checkProgramSyntax s)) s := by
        simp only [compileProgram, if_neg hne, ne_eq, hsyn, not_false_eq_true, if_true]
      simp [this, Outcome.failed, hsyn]
  refine ⟨main, by rw [main, checkProgramSyntax_nil_iff], ?_⟩
  rw [← main]
  cases (compileProgram s).failed <;> simp

/-- C6 at the text `++[>[-]<-].,`. -/
theorem compileProgram_succeeds_iff_witness :
    ((compileProgram nestedLoopsVM).failed = false ↔
        checkProgramSyntax nestedLoopsVM = [] ∧ Balanced nestedLoopsVM.program) ∧
      ((compileProgram nestedLoopsVM).failed = false ↔
        (∀ c ∈ nestedLoopsVM.program, c ∈ operators) ∧ Balanced nestedLoopsVM.program) ∧
      ((compileProgram nestedLoopsVM).failed = true ↔
        ¬ (checkProgramSyntax nestedLoopsVM = [] ∧ Balanced nestedLoopsVM.program)) :=
  compileProgram_succeeds_iff nestedLoopsVM (by decide)

/-- C7: on a non-empty text made only of the eight operators, `compileProgram` throws
the unmatched-`]` error exactly when some prefix of the text has more `]` than `[`;
otherwise it throws the unmatched-`[` error exactly when the text has more `[` than `]`.
The text `[[]` fails with unmatched `[` and `[]]` with unmatched `]`. -/
theorem compileProgram_bracket_errors (s : Interpreter) (hne : s.program ≠ [])
    (hops : ∀ c ∈ s.program, c ∈ operators) :
    ((compileProgram s).error? = some .unmatchedClose ↔ ClosesTooEarly s.program) ∧
      (¬ ClosesTooEarly s.program →
        ((compileProgram s).error? = some .unmatchedOpen ↔
          s.program.count ']' < s.program.count '[')) ∧
      (compileProgram (loadProgram s ['[', '[', ']'])).error? = some .unmatchedOpen ∧
      (compileProgram (loadProgram s ['[', ']', ']'])).error? = some .unmatchedClose := by
  have hsyn := (checkProgramSyntax_nil_iff s).2 hops
  refine ⟨?_, ?_, rfl, rfl⟩
  · rw [compileProgram_error_walk s hne hsyn, closesTooEarly_iff]
    cases hwalk : walk s.program 0 with
    | none => simp
    | some d => cases d <;> simp
  · intro hearly
    rw [closesTooEarly_iff] at hearly
    rw [compileProgram_error_walk s hne hsyn]
    cases hwalk : walk s.program 0 with
    | none => exact absurd hwalk hearly
    | some d =>
      have := walk_some_count s.program 0 d hwalk
      cases d with
      | zero => simp only [false_iff, reduceCtorEq]; omega
      | succ d => simp only [true_iff]; omega

/-- C7 at the text `+]`. -/
theorem compileProgram_bracket_errors_witness :
    ((compileProgram (loadProgram (Interpreter.new 3) ['+', ']'])).error? =
          some .unmatchedClose ↔
        ClosesTooEarly (loadProgram (Interpreter.new 3) ['+', ']']).program) ∧
      (¬ ClosesTooEarly (loadProgram (Interpreter.new 3) ['+', ']']).program →
        ((compileProgram (loadProgram (Interpreter.new 3) ['+', ']'])).error? =
            some .unmatchedOpen ↔
          (loadProgram (Interpreter.new 3) ['+', ']']).program.count ']' <
            (loadProgram (Interpreter.new 3) ['+', ']']).program.count '[')) ∧
      (compileProgram (loadProgram (loadProgram (Interpreter.new 3) ['+', ']'])
        ['[', '[', ']'])).error? = some .unmatchedOpen ∧
      (compileProgram (loadProgram (loadProgram (Interpreter.new 3) ['+', ']'])
        ['[', ']', ']'])).error? = some .unmatchedClose :=
  compileProgram_bracket_errors (loadProgram (Interpreter.new 3) ['+', ']']) (by decide)
    (by decide)

/-! ## The single-step interpreter against the bulk runner -/

theorem movePointer_withPc (s : Interpreter) (d p : Int) :
    movePointer (withPc s p) d = (movePointer s d).mapVm (fun t => withPc t p) := by
  unfold movePointer
  simp only [withPc]
  split
  · rfl
  · rfl
  · split_ifs <;> rfl

theorem modifyCell_withPc (s : Interpreter) (d p : Int) :
    modifyCell (withPc s p) d = (modifyCell s d).mapVm (fun t => withPc t p) := by
  unfold modifyCell
  simp only [withPc, cell]
  split
  · rfl
  · rfl
  · split_ifs <;> rfl

theorem outputCell_withPc (s : Interpreter) (p : Int) :
    outputCell (withPc s p) = withPc (outputCell s) p := by
  unfold outputCell
  simp only [withPc, cell]
  split_ifs <;> rfl

theorem storeFront_withPc (s : Interpreter) (v : Int) (rest : List Int) (p : Int) :
    storeFront (withPc s p) v rest = (storeFront s v rest).mapVm (fun t => withPc t p) := by
  unfold storeFront
  simp only [withPc]
  split_ifs <;> rfl

theorem inputCell_withPc (s : Interpreter) (p : Int) :
    inputCell (withPc s p) = (inputCell s).mapVm (fun t => withPc t p) := by
  obtain ⟨mem, prog, out, inp, code, C, ptr, pc, run, fp, fs, pb, cb, cback⟩ := s
  cases inp with
  | cons v rest => exact storeFront_withPc _ v rest p
  | nil =>
    cases cback with
    | none => rfl
    | some cb =>
      simp only [inputCell, withPc]
      split_ifs
      · split
        · unfold storeFront
          simp only
          split_ifs <;> rfl
        · rfl
      · rfl

theorem execInstr_withPc (s : Interpreter) (pc : Int) (i : Instr) (p : Int) :
    execInstr (withPc s p) pc i = (execInstr s pc i).mapVm (fun t => withPc t p) := by
  have hc : cell (withPc s p) = cell s := rfl
  unfold execInstr
  simp only [movePointer_withPc, modifyCell_withPc, outputCell_withPc,
    inputCell_withPc, hc, apply_ite (Outcome.mapVm (fun t => withPc t p)),
    andThen_ok_mapVm]
  rfl

theorem fastLoop_withPc (b : Nat) (pc st : Int) (s : Interpreter) (p : Int) :
    fastLoop b pc st (withPc s p) = (fastLoop b pc st s).mapVm (fun t => withPc t p) := by
  induction b generalizing pc st s with
  | zero => rfl
  | succ b ih =>
    have hcode : (withPc s p).compiledProgram = s.compiledProgram := rfl
    simp only [fastLoop, hcode, execInstr_withPc]
    split_ifs with hlt
    · cases hx : execInstr s pc (instrAt s.compiledProgram pc) with
      | ok pc1 s1 => simp only [Outcome.mapVm]; exact ih _ _ _
      | thrown e s1 => rfl
    · rfl

theorem stepN_add (a b : Nat) (s : Interpreter) :
    stepN (a + b) s = (stepN a s).bind (stepN b) := by
  induction a generalizing s with
  | zero => simp [stepN]
  | succ a ih =>
    rw [Nat.succ_add]
    simp only [stepN]
    cases hs : step s with
    | thrown e s1 => rfl
    | ok v s1 =>
      cases v with
      | true => exact ih s1
      | false => rfl

theorem step_true_running (s s1 : Interpreter) (h : step s = .ok true s1) : s.running = true := by
  by_contra hr
  have : step s = .ok false { s with running := false } := by
    simp only [step]
    rw [if_pos (Or.inl (by simpa using hr))]
  rw [this] at h
  simp at h

/-- After `w` `step()` calls that return `true`, `runUntilEnd` goes on from the state
reached, with `w` steps counted. -/
theorem runLoop_stepN (w b : Nat) (st : Int) (s u : Interpreter) (h : stepN w s = some u) :
    runLoop (w + b) st s = runLoop b (st + w) u := by
  induction w generalizing st s with
  | zero =>
    simp only [stepN, Option.some.injEq] at h
    subst h
    simp
  | succ w ih =>
    rw [Nat.succ_add]
    simp only [stepN] at h
    cases hs : step s with
    | thrown e s1 => simp [hs] at h
    | ok v s1 =>
      cases v with
      | false => simp [hs] at h
      | true =>
        rw [hs] at h
        simp only [runLoop, step_true_running s s1 hs, if_true, hs]
        rw [ih _ _ h]
        congr 1
        push_cast
        ring

theorem step_at_end (s : Interpreter) (h : (s.program.length : Int) ≤ s.pc) :
    step s = .ok false { s with running := false } := by
  simp only [step]
  rw [if_pos (Or.inr h)]

/-- Once the cursor is at the end of the text, `runUntilEnd` changes nothing but the
running flag. -/
theorem runLoop_at_end (b : Nat) (st : Int) (s : Interpreter)
    (h : (s.program.length : Int) ≤ s.pc) :
    ∃ r, runLoop b st s = .ok st { s with running := r } := by
  cases b with
  | zero => exact ⟨s.running, rfl⟩
  | succ b =>
    simp only [runLoop]
    split_ifs with hr
    · rw [step_at_end s h]
      exact ⟨false, rfl⟩
    · exact ⟨s.running, rfl⟩

theorem withPc_self (s : Interpreter) : withPc s s.pc = s := rfl

theorem withPc_withPc (s : Interpreter) (p q : Int) : withPc (withPc s p) q = withPc s q := rfl

/-- The instruction fetch of `step`: with the VM running and the cursor on a character
`c` of the text, `step` runs the `switch` case of `c`. -/
theorem step_fetch (s : Interpreter) (c : Char) (rest : List Char) (hrun : s.running = true)
    (hpc : 0 ≤ s.pc) (hdrop : s.program.drop s.pc.toNat = c :: rest) :
    step s =
      if c = '>' then (movePointer s 1).andThen fun _ s1 => stepDone s1
      else if c = '<' then (movePointer s (-1)).andThen fun _ s1 => stepDone s1
      else if c = '+' then (modifyCell s 1).andThen fun _ s1 => stepDone s1
      else if c = '-' then (modifyCell s (-1)).andThen fun _ s1 => stepDone s1
      else if c = '.' then stepDone (outputCell s)
      else if c = ',' then (inputCell s).andThen fun _ s1 => stepDone s1
      else if c = '[' then
        if cell s = 0 then
          match scanForward (s.program.drop (s.pc + 1).toNat) 1 (s.pc + 1) with
          | some pc1 => stepDone { s with pc := pc1 }
          | none => .thrown .unmatchedOpen { s with pc := s.program.length }
        else stepDone s
      else if c = ']' then
        if cell s ≠ 0 then
          match scanBackward ((s.program.take s.pc.toNat).reverse) 1 (s.pc - 1) with
          | some pc1 => stepDone { s with pc := pc1 }
          | none => .thrown .unmatchedClose { s with pc := -1 }
        else stepDone s
      else stepDone s := by
  have hlt : s.pc.toNat < s.program.length := by
    by_contra hge
    rw [List.drop_eq_nil_of_le (by omega)] at hdrop
    exact List.noConfusion hdrop
  have hget : charAt s.program s.pc = c := by
    have h1 : (s.program.drop s.pc.toNat)[0]? = some c := by rw [hdrop]; simp
    rw [List.getElem?_drop, Nat.add_zero] at h1
    simp [charAt, not_lt.2 hpc, List.getD, h1]
  have hcond : ¬ (s.running = false ∨ s.pc ≥ (s.program.length : Int)) := by
    rw [hrun]
    simp only [Bool.true_eq_false, false_or, not_le]
    omega
  simp only [step, if_neg hcond, hget]
  try rfl

theorem repeatOp_withPc (op : Interpreter → Outcome Unit)
    (hcomm : ∀ s p, op (withPc s p) = (op s).mapVm (fun t => withPc t p)) (n : Nat)
    (s : Interpreter) (p : Int) :
    repeatOp op n (withPc s p) = (repeatOp op n s).mapVm (fun t => withPc t p) := by
  induction n generalizing s with
  | zero => rfl
  | succ n ih =>
    simp only [repeatOp, hcomm]
    cases op s with
    | ok v s1 => exact ih s1
    | thrown e s1 => rfl

/-- A run of `n` equal unit operators in the text: when the `n` unit operations succeed,
`n` `step()` calls perform them and leave the cursor after the run. -/
theorem stepN_units (op : Interpreter → Outcome Unit) (c : Char)
    (hstep : ∀ s rest, s.running = true → 0 ≤ s.pc → s.program.drop s.pc.toNat = c :: rest →
      step s = (op s).andThen fun _ s1 => stepDone s1)
    (hframe : ∀ s, Frame s (op s).vm)
    (hcomm : ∀ s p, op (withPc s p) = (op s).mapVm (fun t => withPc t p))
    (n : Nat) (s t : Interpreter) (rest : List Char) (hrun : s.running = true) (hpc : 0 ≤ s.pc)
    (hdrop : s.program.drop s.pc.toNat = List.replicate n c ++ rest)
    (hop : repeatOp op n s = .ok () t) :
    stepN n s = some (withPc t (s.pc + n)) := by
  induction n generalizing s t with
  | zero =>
    simp only [repeatOp, Outcome.ok.injEq, true_and] at hop
    subst hop
    simp [stepN, withPc]
  | succ n ih =>
    simp only [List.replicate_succ, List.cons_append] at hdrop
    have hfr := hframe s
    simp only [repeatOp] at hop
    cases hs : op s with
    | thrown e s1 => rw [hs] at hop; exact Outcome.noConfusion hop
    | ok v s1 =>
      rw [hs] at hop hfr
      simp only [Outcome.vm] at hfr hop
      obtain ⟨hprog, -, -, -, -, hpc1, hrun1, -, -⟩ := hfr
      have hstep1 : step s = .ok true (withPc s1 (s.pc + 1)) := by
        rw [hstep s _ hrun hpc hdrop, hs]
        simp only [Outcome.andThen, stepDone, hpc1]
        rfl
      have hdrop1 : (withPc s1 (s.pc + 1)).program.drop (withPc s1 (s.pc + 1)).pc.toNat =
          List.replicate n c ++ rest := by
        have e : (s.pc + 1).toNat = s.pc.toNat + 1 := by omega
        show s1.program.drop (s.pc + 1).toNat = _
        rw [hprog, e, ← List.drop_drop, hdrop]
        rfl
      have hop1 : repeatOp op n (withPc s1 (s.pc + 1)) = .ok () (withPc t (s.pc + 1)) := by
        rw [repeatOp_withPc op hcomm, hop]
        rfl
      have := ih (withPc s1 (s.pc + 1)) (withPc t (s.pc + 1))
        (by show s1.running = true; rw [hrun1, hrun])
        (by show 0 ≤ s.pc + 1; omega) hdrop1 hop1
      simp only [stepN, hstep1, this]
      simp only [withPc]
      congr 2
      push_cast
      ring

theorem mem_expandInstr (i : Instr) (c : Char) (h : c ∈ expandInstr i) : c = i.1 := by
  unfold expandInstr at h
  split_ifs at h
  · exact (List.mem_replicate.1 h).2
  · exact List.mem_singleton.1 h

theorem scanForward_skip (l rest : List Char) (d : Nat) (pc : Int)
    (h : ∀ c ∈ l, c ≠ '[' ∧ c ≠ ']') :
    scanForward (l ++ rest) (d + 1) pc = scanForward rest (d + 1) (pc + l.length) := by
  induction l generalizing pc with
  | nil => simp
  | cons c cs ih =>
    obtain ⟨h1, h2⟩ := h c (List.mem_cons_self _ _)
    simp only [List.cons_append, scanForward, if_neg h1, if_neg h2, Nat.succ_pos, if_true, List.append_eq]
    rw [ih _ (fun x hx => h x (List.mem_cons_of_mem _ hx))]
    congr 1
    simp only [List.length_cons]
    push_cast
    ring

theorem scanBackward_skip (l rest : List Char) (d : Nat) (pc : Int)
    (h : ∀ c ∈ l, c ≠ '[' ∧ c ≠ ']') :
    scanBackward (l ++ rest) (d + 1) pc = scanBackward rest (d + 1) (pc - l.length) := by
  induction l generalizing pc with
  | nil => simp
  | cons c cs ih =>
    obtain ⟨h1, h2⟩ := h c (List.mem_cons_self _ _)
    simp only [List.cons_append, scanBackward, if_neg h1, if_neg h2, Nat.succ_pos, if_true, List.append_eq]
    rw [ih _ (fun x hx => h x (List.mem_cons_of_mem _ hx))]
    congr 1
    simp only [List.length_cons]
    push_cast
    ring

/-- The forward bracket scan of `step` passes over the text of a properly nested
instruction list with its depth unchanged. -/
theorem scanForward_closed {off : Nat} {body : List Instr} (h : Closed off body) :
    ∀ (d : Nat) (pc : Int) (rest : List Char),
      scanForward (expand body ++ rest) (d + 1) pc =
        scanForward rest (d + 1) (pc + (expand body).length) := by
  induction h with
  | nil off => intro d pc rest; simp [expand]
  | op off i tl h1 h2 _ ih =>
    intro d pc rest
    rw [expand_cons, List.append_assoc, scanForward_skip _ _ _ _
      (fun c hc => by rw [mem_expandInstr i c hc]; exact ⟨h1, h2⟩), ih]
    congr 1
    simp only [List.length_append]
    push_cast
    ring
  | loop off body tl _ _ ihb iht =>
    intro d pc rest
    have e : expand (('[', ((off + body.length + 1 : Nat) : Int)) :: (body ++ (']', (off : Int)) :: tl)) ++ rest =
        '[' :: (expand body ++ (']' :: (expand tl ++ rest))) := by
      simp only [expand_cons, expand_append, expandInstr_open, expandInstr_close]
      simp
    have elen : (expand (('[', ((off + body.length + 1 : Nat) : Int)) ::
        (body ++ (']', (off : Int)) :: tl))).length =
        1 + (expand body).length + 1 + (expand tl).length := by
      simp only [expand_cons, expand_append, expandInstr_open, expandInstr_close,
        List.length_append, List.length_cons, List.length_nil]
      omega
    rw [e, elen]
    simp only [scanForward, if_true, Nat.succ_pos]
    rw [ihb (d + 1)]
    simp only [scanForward, if_neg (show ¬ ']' = '[' by decide), if_true, Nat.add_sub_cancel,
      Nat.succ_pos]
    rw [iht d]
    congr 1
    push_cast
    ring

/-- The backward bracket scan of `step` passes over the reversed text of a properly
nested instruction list with its depth unchanged. -/
theorem scanBackward_closed {off : Nat} {body : List Instr} (h : Closed off body) :
    ∀ (d : Nat) (pc : Int) (rest : List Char),
      scanBackward ((expand body).reverse ++ rest) (d + 1) pc =
        scanBackward rest (d + 1) (pc - (expand body).length) := by
  induction h with
  | nil off => intro d pc rest; simp [expand]
  | op off i tl h1 h2 _ ih =>
    intro d pc rest
    rw [expand_cons, List.reverse_append, List.append_assoc, ih,
      scanBackward_skip _ _ _ _
        (fun c hc => by rw [mem_expandInstr i c (List.mem_reverse.1 hc)]; exact ⟨h1, h2⟩)]
    congr 1
    simp only [List.length_append, List.length_reverse]
    push_cast
    ring
  | loop off body tl _ _ ihb iht =>
    intro d pc rest
    have e : (expand (('[', ((off + body.length + 1 : Nat) : Int)) ::
        (body ++ (']', (off : Int)) :: tl))).reverse ++ rest =
        (expand tl).reverse ++ (']' :: ((expand body).reverse ++ ('[' :: rest))) := by
      simp only [expand_cons, expand_append, expandInstr_open, expandInstr_close]
      simp
    have elen : (expand (('[', ((off + body.length + 1 : Nat) : Int)) ::
        (body ++ (']', (off : Int)) :: tl))).length =
        1 + (expand body).length + 1 + (expand tl).length := by
      simp only [expand_cons, expand_append, expandInstr_open, expandInstr_close,
        List.length_append, List.length_cons, List.length_nil]
      omega
    rw [e, elen, iht d]
    simp only [scanBackward, if_true, Nat.succ_pos]
    rw [ihb (d + 1)]
    simp only [scanBackward, if_neg (show ¬ '[' = ']' by decide), if_true, Nat.add_sub_cancel,
      Nat.succ_pos]
    congr 1
    push_cast
    ring

theorem textPos_append_left (a b : List Instr) :
    textPos (a ++ b) (a.length : Int) = ((expand a).length : Int) := by
  simp [textPos]

theorem textPos_append_succ (a : List Instr) (i : Instr) (b : List Instr) :
    textPos (a ++ i :: b) ((a.length : Int) + 1) =
      ((expand a).length : Int) + ((expandInstr i).length : Int) := by
  have e : ((a.length : Int) + 1).toNat = (a ++ [i]).length := by
    simp only [List.length_append, List.length_singleton]; omega
  have e2 : a ++ i :: b = (a ++ [i]) ++ b := by simp
  rw [textPos, e, e2, List.take_left, expand_append, expand_cons, expand_nil]
  simp

theorem textPos_of_ge (code : List Instr) (k : Int) (h : (code.length : Int) ≤ k) :
    textPos code k = ((expand code).length : Int) := by
  rw [textPos, List.take_of_length_le (by omega)]

theorem drop_expand_append (a : List Instr) (l : List Char) :
    (expand a ++ l).drop (((expand a).length : Int)).toNat = l := by
  simp

theorem cell_mem (t : Interpreter) (h : WellFormed t) : cell t ∈ t.memory := by
  obtain ⟨hC, hlen, hp0, hp1⟩ := h
  have hlt : t.pointer.toNat < t.memory.length := by omega
  simp only [cell, List.getD_eq_getElem?_getD, List.getElem?_eq_getElem hlt, Option.getD_some]
  exact List.getElem_mem hlt

/-- One `step()` on a character whose `switch` case only advances the cursor. -/
theorem stepN_one (t u : Interpreter) (h : step t = .ok true u) : stepN 1 t = some u := by
  simp [stepN, h]

/-- A merged move or arithmetic instruction is simulated by as many `step()` calls as its
magnitude. -/
theorem sim_merged (op : Interpreter → Int → Outcome Unit) (c : Char) (u : Int)
    (hstep : ∀ s rest, s.running = true → 0 ≤ s.pc → s.program.drop s.pc.toNat = c :: rest →
      step s = (op s u).andThen fun _ s1 => stepDone s1)
    (hframe : ∀ s d, Frame s (op s d).vm)
    (hcomm : ∀ s d p, op (withPc s p) d = (op s d).mapVm (fun t => withPc t p))
    (hunits : ∀ (s : Interpreter) (m : Nat), WellFormed s → CellsInRange s →
      MergeRefines s (op s (u * ((m + 1 : Nat) : Int))) (repeatOp (fun t => op t u) (m + 1) s))
    (t t1 : Interpreter) (n : Int) (rest : List Char) (hn : 1 ≤ n)
    (hrun : t.running = true) (hpc : 0 ≤ t.pc) (hwf : WellFormed t) (hcells : CellsInRange t)
    (hdrop : t.program.drop t.pc.toNat = List.replicate n.toNat c ++ rest)
    (hx : op t (u * n) = .ok () t1) :
    stepN n.toNat t = some (withPc t1 (t.pc + n)) := by
  obtain ⟨m, hm⟩ : ∃ m : Nat, n.toNat = m + 1 := ⟨n.toNat - 1, by omega⟩
  have hn1 : n = ((m + 1 : Nat) : Int) := by omega
  have href := hunits t m hwf hcells
  rw [← hn1, hx] at href
  have hrep : repeatOp (fun t => op t u) (m + 1) t = .ok () t1 := (href.2.1 rfl).symm
  have := stepN_units (fun s => op s u) c hstep (fun s => hframe s u) (fun s p => hcomm s u p)
    (m + 1) t t1 rest hrun hpc (by rw [← hm]; exact hdrop) hrep
  rw [hm, this, hn1]

theorem andThen_ok_inv {α β : Type} (o : Outcome α) (v : β) (r : β) (t1 : Interpreter)
    (h : (o.andThen fun _ s1 => Outcome.ok v s1) = .ok r t1) :
    r = v ∧ ∃ a, o = .ok a t1 := by
  cases o with
  | ok a s =>
    simp only [Outcome.andThen, Outcome.ok.injEq] at h
    exact ⟨h.1.symm, a, by rw [h.2]⟩
  | thrown e s => exact Outcome.noConfusion h

theorem getElem?_append_cons_self {α : Type} (pre : List α) (x : α) (post : List α) :
    (pre ++ x :: post)[pre.length]? = some x := by
  rw [List.getElem?_append_right (le_refl _), Nat.sub_self, List.getElem?_cons_zero]

theorem textPos_split (code a b : List Instr) (i : Instr) (k : Int) (hcode : code = a ++ i :: b)
    (hk : k = (a.length : Int)) :
    textPos code (k + 1) = ((expand a).length : Int) + ((expandInstr i).length : Int) := by
  rw [hcode, hk, textPos_append_succ]

/-- One compiled instruction against the text it stands for: when the instruction at
index `k` executes without throwing, from the state whose cursor is at the text position
of `k`, some number of `step()` calls returning `true` reaches the same state with the
cursor at the text position of the next compiled instruction. -/
theorem sim_instr (pre post : List Instr) (i : Instr) (t t1 : Interpreter) (k1 : Int)
    (hclosed : Closed 0 (pre ++ i :: post)) (hmag : mergeable i.1 → 1 ≤ i.2)
    (hprog : t.program = expand (pre ++ i :: post)) (hrun : t.running = true)
    (hwf : WellFormed t) (hcells : CellsInRange t)
    (hpc : t.pc = ((expand pre).length : Int))
    (hx : execInstr t (pre.length : Int) i = .ok k1 t1) :
    0 ≤ k1 ∧ ∃ w, stepN w t = some (withPc t1 (textPos (pre ++ i :: post) (k1 + 1))) := by
  have hpc0 : 0 ≤ t.pc := by rw [hpc]; omega
  have hdrop : t.program.drop t.pc.toNat = expandInstr i ++ expand post := by
    rw [hprog, hpc, expand_append, expand_cons, drop_expand_append]
  have hnext : textPos (pre ++ i :: post) ((pre.length : Int) + 1) =
      t.pc + ((expandInstr i).length : Int) := by
    rw [textPos_append_succ, hpc]
  have hcell : t.cellBehavior = .ERROR → 0 ≤ cell t ∧ cell t ≤ 255 :=
    fun he => hcells he _ (cell_mem t hwf)
  obtain ⟨c, n⟩ := i
  simp only at hmag
  unfold execInstr at hx
  simp only at hx
  by_cases h1 : c = '>'
  · subst h1
    have hn := hmag (Or.inl rfl)
    rw [if_pos rfl] at hx
    obtain ⟨rfl, a, hop⟩ := andThen_ok_inv _ _ _ _ hx
    have hexp : expandInstr ('>', n) = List.replicate n.toNat '>' := by
      simp [expandInstr, mergeable]
    rw [hexp] at hdrop hnext
    refine ⟨by omega, n.toNat, ?_⟩
    have := sim_merged movePointer '>' 1
      (fun s rest hr hp hd => by rw [step_fetch s '>' rest hr hp hd, if_pos rfl])
      movePointer_frame (fun s d p => movePointer_withPc s d p)
      (fun s m hw _ => movePointer_units s 1 (Or.inl rfl) (m + 1) hw)
      t t1 n (expand post) hn hrun hpc0 hwf hcells hdrop (by rw [one_mul]; exact hop)
    rw [this, hnext, List.length_replicate]
    congr 2
    omega
  by_cases h2 : c = '<'
  · subst h2
    have hn := hmag (Or.inr (Or.inl rfl))
    rw [if_neg (by decide), if_pos rfl] at hx
    obtain ⟨rfl, a, hop⟩ := andThen_ok_inv _ _ _ _ hx
    have hexp : expandInstr ('<', n) = List.replicate n.toNat '<' := by
      simp [expandInstr, mergeable]
    rw [hexp] at hdrop hnext
    refine ⟨by omega, n.toNat, ?_⟩
    have := sim_merged movePointer '<' (-1)
      (fun s rest hr hp hd => by
        rw [step_fetch s '<' rest hr hp hd, if_neg (by decide), if_pos rfl])
      movePointer_frame (fun s d p => movePointer_withPc s d p)
      (fun s m hw _ => movePointer_units s (-1) (Or.inr rfl) (m + 1) hw)
      t t1 n (expand post) hn hrun hpc0 hwf hcells hdrop (by rw [neg_one_mul]; exact hop)
    rw [this, hnext, List.length_replicate]
    congr 2
    omega
  by_cases h3 : c = '+'
  · subst h3
    have hn := hmag (Or.inr (Or.inr (Or.inl rfl)))
    rw [if_neg (by decide), if_neg (by decide), if_pos rfl] at hx
    obtain ⟨rfl, a, hop⟩ := andThen_ok_inv _ _ _ _ hx
    have hexp : expandInstr ('+', n) = List.replicate n.toNat '+' := by
      simp [expandInstr, mergeable]
    rw [hexp] at hdrop hnext
    refine ⟨by omega, n.toNat, ?_⟩
    have := sim_merged modifyCell '+' 1
      (fun s rest hr hp hd => by
        rw [step_fetch s '+' rest hr hp hd, if_neg (by decide), if_neg (by decide), if_pos rfl])
      modifyCell_frame (fun s d p => modifyCell_withPc s d p)
      (fun s m hw hc => modifyCell_units s 1 (Or.inl rfl) m hw
        (fun he => hc he _ (cell_mem s hw)))
      t t1 n (expand post) hn hrun hpc0 hwf hcells hdrop (by rw [one_mul]; exact hop)
    rw [this, hnext, List.length_replicate]
    congr 2
    omega
  by_cases h4 : c = '-'
  · subst h4
    have hn := hmag (Or.inr (Or.inr (Or.inr rfl)))
    rw [if_neg (by decide), if_neg (by decide), if_neg (by decide), if_pos rfl] at hx
    obtain ⟨rfl, a, hop⟩ := andThen_ok_inv _ _ _ _ hx
    have hexp : expandInstr ('-', n) = List.replicate n.toNat '-' := by
      simp [expandInstr, mergeable]
    rw [hexp] at hdrop hnext
    refine ⟨by omega, n.toNat, ?_⟩
    have := sim_merged modifyCell '-' (-1)
      (fun s rest hr hp hd => by
        rw [step_fetch s '-' rest hr hp hd, if_neg (by decide), if_neg (by decide),
          if_neg (by decide), if_pos rfl])
      modifyCell_frame (fun s d p => modifyCell_withPc s d p)
      (fun s m hw hc => modifyCell_units s (-1) (Or.inr rfl) m hw
        (fun he => hc he _ (cell_mem s hw)))
      t t1 n (expand post) hn hrun hpc0 hwf hcells hdrop (by rw [neg_one_mul]; exact hop)
    rw [this, hnext, List.length_replicate]
    congr 2
    omega
  have hexp : expandInstr (c, n) = [c] := by
    simp [expandInstr, mergeable, h1, h2, h3, h4]
  rw [hexp] at hdrop hnext
  simp only [List.singleton_append] at hdrop
  simp only [List.length_singleton, Nat.cast_one] at hnext
  have hfetch := step_fetch t c (expand post) hrun hpc0 hdrop
  rw [if_neg h1, if_neg h2, if_neg h3, if_neg h4] at hx hfetch
  by_cases h5 : c = '.'
  · rw [if_pos h5] at hx hfetch
    simp only [Outcome.ok.injEq] at hx
    obtain ⟨rfl, rfl⟩ := hx
    refine ⟨by omega, 1, stepN_one _ _ ?_⟩
    rw [hfetch, hnext, stepDone, (outputCell_frame t).2.2.2.2.2.1]
    rfl
  rw [if_neg h5] at hx hfetch
  by_cases h6 : c = ','
  · rw [if_pos h6] at hx hfetch
    obtain ⟨rfl, a, hop⟩ := andThen_ok_inv _ _ _ _ hx
    have hfr := inputCell_frame t
    rw [hop] at hfr hfetch
    have hpc1 : t1.pc = t.pc := hfr.2.2.2.2.2.1
    refine ⟨by omega, 1, stepN_one _ _ ?_⟩
    rw [hfetch, hnext]
    simp only [Outcome.andThen, stepDone, hpc1]
    rfl
  rw [if_neg h6] at hx hfetch
  by_cases h7 : c = '['
  · subst h7
    rw [if_pos rfl] at hx hfetch
    by_cases hz : cell t = 0
    · rw [if_pos hz] at hx hfetch
      simp only [Outcome.ok.injEq] at hx
      obtain ⟨rfl, rfl⟩ := hx
      obtain ⟨pre1, body, post1, k2, hcode, hlen, -, hj, hbody⟩ :=
        hclosed.open_block pre.length n (getElem?_append_cons_self _ _ _)
      obtain ⟨hpre, hpost⟩ := List.append_inj hcode hlen.symm
      simp only [List.cons.injEq, true_and] at hpost
      subst hpre
      have hdrop1 : t.program.drop (t.pc + 1).toNat = expand body ++ (']' :: expand post1) := by
        have e : (t.pc + 1).toNat = t.pc.toNat + 1 := by omega
        rw [e, ← List.drop_drop, hdrop, hpost, expand_append, expand_cons, expandInstr_close]
        rfl
      rw [hdrop1, scanForward_closed hbody 0] at hfetch
      simp only [scanForward, if_neg (show ¬ ']' = '[' by decide), if_true, zero_add,
        Nat.sub_self, lt_irrefl, if_false] at hfetch
      simp only [Nat.cast_zero, zero_add] at hj
      refine ⟨by omega, 1, stepN_one _ _ ?_⟩
      rw [hfetch, stepDone]
      have etp : textPos (pre ++ ('[', n) :: post) (n + 1) =
          t.pc + 1 + ((expand body).length : Int) + 1 := by
        rw [textPos_split _ (pre ++ ('[', n) :: body) post1 (']', k2) n (by rw [hpost]; simp)
          (by rw [hj]; simp only [List.length_append, List.length_cons]; push_cast; ring),
          expand_append, expand_cons, expandInstr_open, expandInstr_close, hpc]
        simp only [List.length_append, List.length_cons, List.length_nil]
        push_cast
        ring
      rw [etp]
      rfl
    · rw [if_neg hz] at hx hfetch
      simp only [Outcome.ok.injEq] at hx
      obtain ⟨rfl, rfl⟩ := hx
      refine ⟨by omega, 1, stepN_one _ _ ?_⟩
      rw [hfetch, hnext, stepDone]
      rfl
  rw [if_neg h7] at hx hfetch
  by_cases h8 : c = ']'
  · subst h8
    rw [if_pos rfl] at hx hfetch
    by_cases hz : cell t ≠ 0
    · rw [if_pos hz] at hx hfetch
      simp only [Outcome.ok.injEq] at hx
      obtain ⟨rfl, rfl⟩ := hx
      obtain ⟨pre1, body, post1, tt, hcode, hlen, hi, -, hbody⟩ :=
        hclosed.close_block pre.length n (getElem?_append_cons_self _ _ _)
      simp only [Nat.cast_zero, zero_add] at hi
      have hcode1 : pre ++ (']', n) :: post =
          (pre1 ++ ('[', tt) :: body) ++ (']', n) :: post1 := by
        rw [hcode]; simp
      obtain ⟨hpre, -⟩ := List.append_inj hcode1
        (by simp only [List.length_append, List.length_cons]; omega)
      have htake : t.program.take t.pc.toNat = expand pre1 ++ ('[' :: expand body) := by
        rw [hprog, hpc, expand_append, Int.toNat_ofNat, List.take_left, hpre, expand_append,
          expand_cons, expandInstr_open]
        rfl
      have hpcv : t.pc = ((expand pre1).length : Int) + 1 + ((expand body).length : Int) := by
        rw [hpc, hpre, expand_append, expand_cons, expandInstr_open]
        simp only [List.length_append, List.length_cons, List.length_nil]
        push_cast
        ring
      have hrev : (expand pre1 ++ ('[' :: expand body)).reverse =
          (expand body).reverse ++ ('[' :: (expand pre1).reverse) := by simp
      rw [htake, hrev, scanBackward_closed hbody 0] at hfetch
      simp only [scanBackward, if_neg (show ¬ '[' = ']' by decide), if_true, zero_add,
        Nat.sub_self, lt_irrefl, if_false] at hfetch
      refine ⟨by omega, 1, stepN_one _ _ ?_⟩
      rw [hfetch, stepDone]
      have etp : textPos (pre ++ (']', n) :: post) (n + 1) =
          t.pc - 1 - ((expand body).length : Int) + 1 := by
        rw [hcode, hi, textPos_append_succ, expandInstr_open, hpcv]
        simp only [List.length_cons, List.length_nil]
        push_cast
        ring
      rw [etp]
      rfl
    · rw [if_neg hz] at hx hfetch
      simp only [Outcome.ok.injEq] at hx
      obtain ⟨rfl, rfl⟩ := hx
      refine ⟨by omega, 1, stepN_one _ _ ?_⟩
      rw [hfetch, hnext, stepDone]
      rfl
  · rw [if_neg h8] at hx hfetch
    simp only [Outcome.ok.injEq] at hx
    obtain ⟨rfl, rfl⟩ := hx
    refine ⟨by omega, 1, stepN_one _ _ ?_⟩
    rw [hfetch, hnext, stepDone]
    rfl

theorem movePointer_withCode (s : Interpreter) (d : Int) (c : List Instr) :
    movePointer (withCode s c) d = (movePointer s d).mapVm (fun t => withCode t c) := by
  unfold movePointer
  simp only [withCode]
  split
  · rfl
  · rfl
  · split_ifs <;> rfl

theorem modifyCell_withCode (s : Interpreter) (d : Int) (c : List Instr) :
    modifyCell (withCode s c) d = (modifyCell s d).mapVm (fun t => withCode t c) := by
  unfold modifyCell
  simp only [withCode, cell]
  split
  · rfl
  · rfl
  · split_ifs <;> rfl

theorem outputCell_withCode (s : Interpreter) (c : List Instr) :
    outputCell (withCode s c) = withCode (outputCell s) c := by
  unfold outputCell
  simp only [withCode, cell]
  split_ifs <;> rfl

theorem inputCell_withCode (s : Interpreter) (c : List Instr) :
    inputCell (withCode s c) = (inputCell s).mapVm (fun t => withCode t c) := by
  obtain ⟨mem, prog, out, inp, code, C, ptr, pc, run, fp, fs, pb, cb, cback⟩ := s
  cases inp with
  | cons v rest =>
    simp only [inputCell, withCode, storeFront]
    split_ifs <;> rfl
  | nil =>
    cases cback with
    | none => rfl
    | some cb =>
      simp only [inputCell, withCode]
      split_ifs
      · split
        · unfold storeFront
          simp only
          split_ifs <;> rfl
        · rfl
      · rfl

theorem andThen_stepDone_withCode (o : Outcome Unit) (c : List Instr) :
    ((o.mapVm fun t => withCode t c).andThen fun _ s1 => stepDone s1) =
      (o.andThen fun _ s1 => stepDone s1).mapVm (fun t => withCode t c) := by
  cases o <;> rfl

theorem step_withCode (s : Interpreter) (c : List Instr) :
    step (withCode s c) = (step s).mapVm (fun t => withCode t c) := by
  have hc : cell (withCode s c) = cell s := rfl
  have h1 : (withCode s c).running = s.running := rfl
  have h2 : (withCode s c).pc = s.pc := rfl
  have h3 : (withCode s c).program = s.program := rfl
  by_cases hcond : s.running = false ∨ s.pc ≥ (s.program.length : Int)
  · simp only [step, h1, h2, h3, if_pos hcond]
    rfl
  simp only [step, h1, h2, h3, hc, if_neg hcond]
  generalize charAt s.program s.pc = ch
  by_cases c1 : ch = '>'
  · simp only [if_pos c1, movePointer_withCode, andThen_stepDone_withCode]
  by_cases c2 : ch = '<'
  · simp only [if_neg c1, if_pos c2, movePointer_withCode, andThen_stepDone_withCode]
  by_cases c3 : ch = '+'
  · simp only [if_neg c1, if_neg c2, if_pos c3, modifyCell_withCode, andThen_stepDone_withCode]
  by_cases c4 : ch = '-'
  · simp only [if_neg c1, if_neg c2, if_neg c3, if_pos c4, modifyCell_withCode,
      andThen_stepDone_withCode]
  by_cases c5 : ch = '.'
  · simp only [if_neg c1, if_neg c2, if_neg c3, if_neg c4, if_pos c5, outputCell_withCode]
    rfl
  by_cases c6 : ch = ','
  · simp only [if_neg c1, if_neg c2, if_neg c3, if_neg c4, if_neg c5, if_pos c6,
      inputCell_withCode, andThen_stepDone_withCode]
  by_cases c7 : ch = '['
  · simp only [if_neg c1, if_neg c2, if_neg c3, if_neg c4, if_neg c5, if_neg c6, if_pos c7]
    by_cases hz : cell s = 0
    · simp only [if_pos hz]
      cases scanForward (List.drop (s.pc + 1).toNat s.program) 1 (s.pc + 1) <;> rfl
    · simp only [if_neg hz]
      rfl
  by_cases c8 : ch = ']'
  · simp only [if_neg c1, if_neg c2, if_neg c3, if_neg c4, if_neg c5, if_neg c6, if_neg c7,
      if_pos c8]
    by_cases hz : cell s ≠ 0
    · simp only [if_pos hz]
      cases scanBackward (List.take s.pc.toNat s.program).reverse 1 (s.pc - 1) <;> rfl
    · simp only [if_neg hz]
      rfl
  · simp only [if_neg c1, if_neg c2, if_neg c3, if_neg c4, if_neg c5, if_neg c6, if_neg c7,
      if_neg c8]
    rfl

theorem runLoop_withCode (b : Nat) (st : Int) (s : Interpreter) (c : List Instr) :
    runLoop b st (withCode s c) = (runLoop b st s).mapVm (fun t => withCode t c) := by
  induction b generalizing st s with
  | zero => rfl
  | succ b ih =>
    have h1 : (withCode s c).running = s.running := rfl
    simp only [runLoop, h1, step_withCode]
    split_ifs with hr
    · cases hs : step s with
      | thrown e s1 => rfl
      | ok v s1 =>
        cases v with
        | true => exact ih _ _
        | false => rfl
    · rfl

theorem setCell_cellsInRange (s : Interpreter) (v : Int) (h : CellsInRange s)
    (hv : s.cellBehavior = .ERROR → 0 ≤ v ∧ v ≤ 255) : CellsInRange (setCell s v) := by
  intro he x hx
  rcases List.mem_or_eq_of_mem_set hx with hm | rfl
  · exact h he x hm
  · exact hv he

theorem movePointer_cellsInRange (s : Interpreter) (d : Int) (h : CellsInRange s) :
    CellsInRange (movePointer s d).vm := by
  unfold movePointer
  simp only
  split
  · exact h
  · exact h
  · split_ifs <;> exact h

theorem modifyCell_cellsInRange (s : Interpreter) (d : Int) (h : CellsInRange s) :
    CellsInRange (modifyCell s d).vm := by
  unfold modifyCell
  simp only
  split
  · rename_i hb
    exact setCell_cellsInRange _ _ h (fun he => by rw [hb] at he; exact absurd he (by decide))
  · rename_i hb
    exact setCell_cellsInRange _ _ h (fun he => by rw [hb] at he; exact absurd he (by decide))
  · split_ifs with h1 h2
    · exact h
    · exact h
    · exact setCell_cellsInRange _ _ h (fun _ => ⟨by omega, by omega⟩)

theorem outputCell_wellFormed (s : Interpreter) (h : WellFormed s) : WellFormed (outputCell s) := by
  unfold outputCell
  simp only
  split_ifs <;> exact h

theorem outputCell_cellsInRange (s : Interpreter) (h : CellsInRange s) :
    CellsInRange (outputCell s) := by
  unfold outputCell
  simp only
  split_ifs <;> exact h

theorem storeFront_invariants (s : Interpreter) (v : Int) (rest : List Int)
    (hwf : WellFormed s) (hc : CellsInRange s) :
    WellFormed (storeFront s v rest).vm ∧ CellsInRange (storeFront s v rest).vm := by
  unfold storeFront
  simp only
  split_ifs with h
  · exact ⟨hwf, hc⟩
  · have hwf1 : WellFormed { s with inputBuffer := rest } := hwf
    have hc1 : CellsInRange { s with inputBuffer := rest } := hc
    refine ⟨setCell_wellFormed _ _ hwf1, setCell_cellsInRange _ _ hc1 ?_⟩
    intro he
    have he1 : s.cellBehavior = .ERROR := he
    simp only [he1, true_and, not_or, not_lt] at h
    omega

theorem inputCell_invariants (s : Interpreter) (hwf : WellFormed s) (hc : CellsInRange s) :
    WellFormed (inputCell s).vm ∧ CellsInRange (inputCell s).vm := by
  unfold inputCell
  split
  · exact storeFront_invariants _ _ _ hwf hc
  · split
    · simp only
      split_ifs
      · split
        · exact storeFront_invariants _ _ _ hwf hc
        · exact ⟨setCell_wellFormed _ _ hwf, setCell_cellsInRange _ _ hc (fun _ => by omega)⟩
      · exact ⟨setCell_wellFormed _ _ hwf, setCell_cellsInRange _ _ hc (fun _ => by omega)⟩
    · exact ⟨setCell_wellFormed _ _ hwf, setCell_cellsInRange _ _ hc (fun _ => by omega)⟩

theorem andThen_ok_vm {α β : Type} (o : Outcome α) (v : β) :
    (o.andThen fun _ s1 => Outcome.ok v s1).vm = o.vm := by
  cases o <;> rfl

/-- Executing a compiled instruction keeps the tape well formed and, under the ERROR cell
policy, every cell within `[0,255]`. -/
theorem execInstr_invariants (s : Interpreter) (pc : Int) (i : Instr) (hwf : WellFormed s)
    (hc : CellsInRange s) :
    WellFormed (execInstr s pc i).vm ∧ CellsInRange (execInstr s pc i).vm := by
  unfold execInstr
  simp only
  split_ifs
  · rw [andThen_ok_vm]; exact ⟨movePointer_wellFormed _ _ hwf, movePointer_cellsInRange _ _ hc⟩
  · rw [andThen_ok_vm]; exact ⟨movePointer_wellFormed _ _ hwf, movePointer_cellsInRange _ _ hc⟩
  · rw [andThen_ok_vm]; exact ⟨modifyCell_wellFormed _ _ hwf, modifyCell_cellsInRange _ _ hc⟩
  · rw [andThen_ok_vm]; exact ⟨modifyCell_wellFormed _ _ hwf, modifyCell_cellsInRange _ _ hc⟩
  · exact ⟨outputCell_wellFormed _ hwf, outputCell_cellsInRange _ hc⟩
  · rw [andThen_ok_vm]; exact inputCell_invariants _ hwf hc
  all_goals exact ⟨hwf, hc⟩

/-- The bulk loop against the single-step interpreter: when the loop runs from compiled
index `k` without throwing, `step()` calls that all return `true` lead from the state
with the cursor at the text position of `k` to the final state of the loop with the
cursor at the text position of the final index. -/
theorem sim_fastLoop (code : List Instr) (hclosed : Closed 0 code)
    (hrle : RunLengthEncoded code) (budget : Nat) (k st : Int) (t : Interpreter)
    (k1 st1 : Int) (t1 : Interpreter) (hk : 0 ≤ k) (hcode : t.compiledProgram = code)
    (hprog : t.program = expand code) (hrun : t.running = true) (hwf : WellFormed t)
    (hcells : CellsInRange t) (hpc : t.pc = textPos code k)
    (h : fastLoop budget k st t = .ok (k1, st1) t1) :
    ∃ w, stepN w t = some (withPc t1 (textPos code k1)) := by
  induction budget generalizing k st t t1 with
  | zero =>
    simp only [fastLoop, Outcome.ok.injEq, Prod.mk.injEq] at h
    obtain ⟨⟨rfl, rfl⟩, rfl⟩ := h
    exact ⟨0, by rw [← hpc]; rfl⟩
  | succ budget ih =>
    simp only [fastLoop] at h
    split_ifs at h with hlt
    · rw [hcode] at hlt h
      have hlt1 : k.toNat < code.length := by omega
      have hget : code[k.toNat]? = some (instrAt code k) := by
        simp [instrAt, not_lt.2 hk, List.getD, List.getElem?_eq_getElem hlt1]
      have hsplit : code = code.take k.toNat ++ instrAt code k :: code.drop (k.toNat + 1) := by
        rw [List.getElem?_eq_getElem hlt1, Option.some.injEq] at hget
        rw [← hget, ← List.drop_eq_getElem_cons hlt1, List.take_append_drop]
      have hplen : ((code.take k.toNat).length : Int) = k := by
        rw [List.length_take]; omega
      cases hx : execInstr t k (instrAt code k) with
      | thrown e t2 => rw [hx] at h; exact Outcome.noConfusion h
      | ok k2 t2 =>
        rw [hx] at h
        simp only at h
        have hinv := execInstr_invariants t k (instrAt code k) hwf hcells
        have hfr := execInstr_frame t k (instrAt code k)
        rw [hx] at hinv hfr
        simp only [Outcome.vm] at hinv hfr
        obtain ⟨hprog2, hcode2, -, -, -, -, hrun2, -, -⟩ := hfr
        have hsim := sim_instr (code.take k.toNat) (code.drop (k.toNat + 1)) (instrAt code k)
          t t2 k2 (hsplit ▸ hclosed)
          (fun hm => hrle.1 _ (List.mem_iff_getElem?.2 ⟨_, hget⟩) hm)
          (by rw [← hsplit]; exact hprog) hrun hwf hcells
          (by rw [hpc]; rfl) (by rw [hplen]; exact hx)
        rw [← hsplit] at hsim
        obtain ⟨hk2, w, hw⟩ := hsim
        have hfl : fastLoop budget (k2 + 1) (st + 1) (withPc t2 (textPos code (k2 + 1))) =
            .ok (k1, st1) (withPc t1 (textPos code (k2 + 1))) := by
          rw [fastLoop_withPc, h]
          rfl
        obtain ⟨w1, hw1⟩ := ih (k2 + 1) (st + 1) (withPc t2 (textPos code (k2 + 1)))
          (withPc t1 (textPos code (k2 + 1))) (by omega) (by show t2.compiledProgram = code; rw [hcode2, hcode])
          (by show t2.program = expand code; rw [hprog2, hprog])
          (by show t2.running = true; rw [hrun2, hrun]) hinv.1 hinv.2 rfl hfl
        refine ⟨w + w1, ?_⟩
        rw [stepN_add, hw]
        show stepN w1 (withPc t2 (textPos code (k2 + 1))) = _
        rw [hw1]
        rfl
    · simp only [Outcome.ok.injEq, Prod.mk.injEq] at h
      obtain ⟨⟨rfl, rfl⟩, rfl⟩ := h
      exact ⟨0, by rw [← hpc]; rfl⟩

theorem andThen_stepDone_program (o : Outcome Unit) :
    (o.andThen fun _ s1 => stepDone s1).vm.program = o.vm.program := by
  cases o <;> rfl

theorem step_program (s : Interpreter) : (step s).vm.program = s.program := by
  by_cases hcond : s.running = false ∨ s.pc ≥ (s.program.length : Int)
  · simp only [step, if_pos hcond]
    rfl
  simp only [step, if_neg hcond]
  generalize charAt s.program s.pc = ch
  by_cases c1 : ch = '>'
  · simp only [if_pos c1, andThen_stepDone_program]
    exact (movePointer_frame s 1).1
  by_cases c2 : ch = '<'
  · simp only [if_neg c1, if_pos c2, andThen_stepDone_program]
    exact (movePointer_frame s (-1)).1
  by_cases c3 : ch = '+'
  · simp only [if_neg c1, if_neg c2, if_pos c3, andThen_stepDone_program]
    exact (modifyCell_frame s 1).1
  by_cases c4 : ch = '-'
  · simp only [if_neg c1, if_neg c2, if_neg c3, if_pos c4, andThen_stepDone_program]
    exact (modifyCell_frame s (-1)).1
  by_cases c5 : ch = '.'
  · simp only [if_neg c1, if_neg c2, if_neg c3, if_neg c4, if_pos c5]
    exact (outputCell_frame s).1
  by_cases c6 : ch = ','
  · simp only [if_neg c1, if_neg c2, if_neg c3, if_neg c4, if_neg c5, if_pos c6,
      andThen_stepDone_program]
    exact (inputCell_frame s).1
  by_cases c7 : ch = '['
  · simp only [if_neg c1, if_neg c2, if_neg c3, if_neg c4, if_neg c5, if_neg c6, if_pos c7]
    by_cases hz : cell s = 0
    · simp only [if_pos hz]
      cases scanForward (List.drop (s.pc + 1).toNat s.program) 1 (s.pc + 1) <;> rfl
    · simp only [if_neg hz]
      rfl
  by_cases c8 : ch = ']'
  · simp only [if_neg c1, if_neg c2, if_neg c3, if_neg c4, if_neg c5, if_neg c6, if_neg c7,
      if_pos c8]
    by_cases hz : cell s ≠ 0
    · simp only [if_pos hz]
      cases scanBackward (List.take s.pc.toNat s.program).reverse 1 (s.pc - 1) <;> rfl
    · simp only [if_neg hz]
      rfl
  · simp only [if_neg c1, if_neg c2, if_neg c3, if_neg c4, if_neg c5, if_neg c6, if_neg c7,
      if_neg c8]
    rfl

theorem stepN_program (n : Nat) (s u : Interpreter) (h : stepN n s = some u) :
    u.program = s.program := by
  induction n generalizing s with
  | zero =>
    simp only [stepN, Option.some.injEq] at h
    rw [h]
  | succ n ih =>
    simp only [stepN] at h
    have hp := step_program s
    cases hs : step s with
    | thrown e s1 => simp [hs] at h
    | ok v s1 =>
      cases v with
      | false => simp [hs] at h
      | true =>
        rw [hs] at h hp
        rw [ih _ h]
        exact hp

/-- Two runs of the single-step interpreter from the same state that both end with the
cursor at the end of the text end in the same state, up to the running flag: one given
as `w` calls of `step()` that return `true`, the other as a `runUntilEnd` loop. -/
theorem runLoop_eq_of_stepN (w a : Nat) (s u s1 : Interpreter) (n1 : Int)
    (hw : stepN w s = some u) (hu : (u.program.length : Int) ≤ u.pc)
    (ha : runLoop a 0 s = .ok n1 s1) (hs1 : (s1.program.length : Int) ≤ s1.pc) :
    ∃ r, s1 = { u with running := r } := by
  rcases Nat.lt_or_ge a w with hlt | hge
  · exfalso
    obtain ⟨d, hd⟩ : ∃ d, w = a + (d + 1) := ⟨w - a - 1, by omega⟩
    rw [hd, stepN_add] at hw
    cases hm : stepN a s with
    | none => rw [hm] at hw; exact Option.noConfusion hw
    | some m =>
      rw [hm] at hw
      have hrun := runLoop_stepN a 0 0 s m hm
      rw [Nat.add_zero, ha] at hrun
      simp only [runLoop, Outcome.ok.injEq] at hrun
      obtain ⟨-, rfl⟩ := hrun
      have hnone : stepN (d + 1) s1 = none := by
        simp only [stepN, step_at_end s1 hs1]
      rw [show (some s1).bind (stepN (d + 1)) = stepN (d + 1) s1 from rfl, hnone] at hw
      exact Option.noConfusion hw
  · obtain ⟨d, hd⟩ : ∃ d, a = w + d := ⟨a - w, by omega⟩
    rw [hd, runLoop_stepN w d 0 s u hw] at ha
    obtain ⟨r, hr⟩ := runLoop_at_end d (0 + (w : Int)) u hu
    rw [hr] at ha
    simp only [Outcome.ok.injEq] at ha
    exact ⟨r, ha.2.symm⟩

/-- When `runProgramFast` returns fewer steps than its budget, its loop ended at the end
of the compiled program. -/
theorem fastFinished_of_lt (s : Interpreter) (maxSteps n : Int) (s1 : Interpreter)
    (h : runProgramFast s maxSteps = .ok n s1) (hlt : n < maxSteps) :
    fastFinished s maxSteps := by
  unfold runProgramFast at h
  cases hens : ensureCompiled s with
  | thrown e sc => rw [hens] at h; exact Outcome.noConfusion h
  | ok u sc =>
    rw [hens] at h
    simp only [Outcome.andThen] at h
    cases hfl : fastLoop maxSteps.toNat 0 0 sc with
    | thrown e tf => rw [hfl] at h; exact Outcome.noConfusion h
    | ok r tf =>
      rw [hfl] at h
      simp only [Outcome.ok.injEq] at h
      obtain ⟨j, hj, hst, hend⟩ := fastLoop_steps _ _ _ _ r.1 r.2 tf hfl
      exact ⟨sc, r.1, r.2, tf, hens, hfl, hend (by omega)⟩

theorem runLoop_program (b : Nat) (st : Int) (s : Interpreter) :
    (runLoop b st s).vm.program = s.program := by
  induction b generalizing st s with
  | zero => rfl
  | succ b ih =>
    simp only [runLoop]
    split_ifs with hr
    · have h3 := step_program s
      cases hs : step s with
      | thrown e s3 => rw [hs] at h3; exact h3
      | ok val s3 =>
        rw [hs] at h3
        cases val with
        | true => rw [ih]; exact h3
        | false => exact h3
    · rfl

/-- C1: from a freshly reset and loaded VM of capacity at least 1, under every pointer
and cell policy, with every input sequence and input callback: if `runUntilEnd` returns
without throwing with its cursor at the end of the text, and `runProgramFast` returns
without throwing with its loop at the end of the compiled program, then both leave the
same output log, the same tape and the same pointer.  A `runProgramFast` that returns
has compiled the text, so the text is non-empty, made of the eight operators only, and
balanced. -/
theorem step_run_eq_bulk_run (v : Interpreter) (program : List Char) (inputData : List Int)
    (maxSteps1 maxSteps2 n1 n2 : Int) (s1 s2 : Interpreter) (hcap : 1 ≤ v.memorySize)
    (h1 : runUntilEnd (loadProgram (reset v) program inputData) maxSteps1 = .ok n1 s1)
    (hfin1 : (program.length : Int) ≤ s1.pc)
    (h2 : runProgramFast (loadProgram (reset v) program inputData) maxSteps2 = .ok n2 s2)
    (hfin2 : fastFinished (loadProgram (reset v) program inputData) maxSteps2) :
    (s1.outputBuffer = s2.outputBuffer ∧ s1.memory = s2.memory ∧ s1.pointer = s2.pointer) ∧
      program ≠ [] ∧ (∀ c ∈ program, c ∈ operators) ∧ Balanced program := by
  obtain ⟨sc, pcf, nf, tf, hens, hfl, hend⟩ := hfin2
  have hs0 : (loadProgram (reset v) program inputData).compiledProgram = [] := rfl
  have hensure : ensureCompiled (loadProgram (reset v) program inputData) =
      (compileProgram (loadProgram (reset v) program inputData)).andThen
        fun _ s1 => .ok () s1 := by
    simp only [ensureCompiled, hs0, if_true]
  rw [hensure] at hens
  cases hcomp : compileProgram (loadProgram (reset v) program inputData) with
  | thrown e sx => rw [hcomp] at hens; exact Outcome.noConfusion hens
  | ok code sx =>
    rw [hcomp] at hens
    simp only [Outcome.andThen, Outcome.ok.injEq, true_and] at hens
    subst hens
    obtain ⟨hne, hsyn, -, hsx⟩ := (compileProgram_ok_iff _ _ _).1 hcomp
    obtain ⟨hclosed, hexp, hrle⟩ := compileProgram_ok_facts _ _ _ hcomp
    have hbal : Balanced program := balanced_of_compiled _ _ _ hcomp
    have hops : ∀ c ∈ program, c ∈ operators := (checkProgramSyntax_nil_iff _).1 hsyn
    refine ⟨?_, hne, hops, hbal⟩
    have hs2 : s2 = { tf with running := false } := by
      simp only [runProgramFast, hensure, hcomp, Outcome.andThen, hfl, Outcome.ok.injEq] at h2
      exact h2.2.symm
    have hprog : sx.program = expand code := by rw [hsx, hexp]
    have hfr := fastLoop_frame maxSteps2.toNat 0 0 sx
    rw [hfl] at hfr
    simp only [Outcome.vm] at hfr
    have hwf : WellFormed sx := by
      rw [hsx]
      refine ⟨hcap, ?_, le_refl _, by show (0 : Int) < v.memorySize; omega⟩
      show (List.replicate v.memorySize.toNat (0 : Int)).length = v.memorySize.toNat
      simp
    have hcells : CellsInRange sx := by
      rw [hsx]
      intro _ x hx
      have hx1 : x ∈ List.replicate v.memorySize.toNat (0 : Int) := hx
      rw [(List.mem_replicate.1 hx1).2]
      omega
    obtain ⟨w, hw⟩ := sim_fastLoop code hclosed hrle maxSteps2.toNat 0 0 sx pcf nf tf
      (le_refl _) (by rw [hsx]) hprog (by rw [hsx]; rfl) hwf hcells
      (by rw [hsx]; simp [textPos, expand]; rfl) hfl
    have hcodef : tf.compiledProgram = code := by rw [hfr.2.1, hsx]
    rw [hcodef] at hend
    rw [textPos_of_ge code pcf hend] at hw
    have hrun1 : runLoop maxSteps1.toNat 0 sx = .ok n1 (withCode s1 code) := by
      have := runLoop_withCode maxSteps1.toNat 0 (loadProgram (reset v) program inputData) code
      rw [show runLoop maxSteps1.toNat 0 (loadProgram (reset v) program inputData) =
        .ok n1 s1 from h1] at this
      rw [hsx]
      exact this
    have hproglen : (expand code).length = program.length := by rw [hexp]; rfl
    have hs1prog : (withCode s1 code).program = expand code := by
      have h4 := runLoop_program maxSteps1.toNat 0 sx
      rw [hrun1] at h4
      rw [← hprog]
      exact h4
    obtain ⟨r, hr⟩ := runLoop_eq_of_stepN w maxSteps1.toNat sx
      (withPc tf ((expand code).length : Int)) (withCode s1 code) n1 hw
      (by
        show ((tf.program.length : Int)) ≤ ((expand code).length : Int)
        rw [hfr.1, hprog])
      hrun1
      (by
        rw [hs1prog, hproglen]
        exact hfin1)
    have e1 : s1.outputBuffer = (withCode s1 code).outputBuffer := rfl
    have e2 : s1.memory = (withCode s1 code).memory := rfl
    have e3 : s1.pointer = (withCode s1 code).pointer := rfl
    rw [e1, e2, e3, hr, hs2]
    exact ⟨rfl, rfl, rfl⟩

/-- C1 at the text `++[->+<]>.` on a VM of capacity 3 with the default policies and
budgets of 100 steps: 15 `step()` calls against 14 compiled instructions. -/
theorem step_run_eq_bulk_run_witness :
    ((runUntilEnd (loadProgram (reset (Interpreter.new 3)) copyProgram []) 100).vm.outputBuffer =
        (runProgramFast (loadProgram (reset (Interpreter.new 3)) copyProgram []) 100).vm.outputBuffer ∧
      (runUntilEnd (loadProgram (reset (Interpreter.new 3)) copyProgram []) 100).vm.memory =
        (runProgramFast (loadProgram (reset (Interpreter.new 3)) copyProgram []) 100).vm.memory ∧
      (runUntilEnd (loadProgram (reset (Interpreter.new 3)) copyProgram []) 100).vm.pointer =
        (runProgramFast (loadProgram (reset (Interpreter.new 3)) copyProgram []) 100).vm.pointer) ∧
      copyProgram ≠ [] ∧ (∀ c ∈ copyProgram, c ∈ operators) ∧ Balanced copyProgram :=
  step_run_eq_bulk_run (Interpreter.new 3) copyProgram [] 100 100 15 14
    (runUntilEnd (loadProgram (reset (Interpreter.new 3)) copyProgram []) 100).vm
    (runProgramFast (loadProgram (reset (Interpreter.new 3)) copyProgram []) 100).vm
    (by decide) (by decide) (by decide) (by decide)
    (fastFinished_of_lt (loadProgram (reset (Interpreter.new 3)) copyProgram []) 100 14
      (runProgramFast (loadProgram (reset (Interpreter.new 3)) copyProgram []) 100).vm
      (by decide) (by decide))

/-! ### Pointer and cell primitives under each policy -/

theorem setCell_cell (s : Interpreter) : setCell s (cell s) = s := by
  obtain ⟨mem, prog, out, inp, code, size, p, pc, run, fpc, fst, pb, cb, cbk⟩ := s
  simp only [setCell, cell, Interpreter.mk.injEq, and_true, true_and]
  apply List.ext_getElem?
  intro i
  by_cases hi : p.toNat = i
  · subst hi
    by_cases hlt : p.toNat < mem.length
    · simp [List.getElem?_set, List.getD, hlt]
    · simp [List.getElem?_set, hlt]; omega
  · simp [List.getElem?_set, hi]

theorem setCell_getElem?_ne (s : Interpreter) (v : Int) (i : Nat) (hi : i ≠ s.pointer.toNat) :
    (setCell s v).memory[i]? = s.memory[i]? := by
  simp [setCell, List.getElem?_set, Ne.symm hi]

theorem modifyCell_wrap_eq (s : Interpreter) (delta : Int) (hb : s.cellBehavior = .WRAP) :
    modifyCell s delta = .ok () (setCell s ((cell s + delta) % 256)) := by
  unfold modifyCell
  simp only [hb, wrap_eq_emod _ 256 (by decide)]

/-- C11: under the CLAMP pointer policy with capacity `C ≥ 1`, `movePointer(delta)` never
fails, whatever the pointer `p` and the integer `delta`, and sets the pointer to
`max(0, min(p + delta, C - 1))`, a position on the tape, changing nothing else; so `<`
at pointer 0 and `>` at pointer `C - 1` leave the state as it was. -/
theorem movePointer_clamp (s : Interpreter) (delta : Int)
    (hb : s.pointerBehavior = .CLAMP) (hC : 1 ≤ s.memorySize) :
    movePointer s delta =
        .ok () { s with pointer := max 0 (min (s.pointer + delta) (s.memorySize - 1)) } ∧
      0 ≤ (movePointer s delta).vm.pointer ∧
      (movePointer s delta).vm.pointer ≤ s.memorySize - 1 ∧
      (s.pointer = 0 → movePointer s (-1) = .ok () s) ∧
      (s.pointer = s.memorySize - 1 → movePointer s 1 = .ok () s) := by
  obtain ⟨mem, prog, out, inp, code, size, p, pc, run, fpc, fst, pb, cb, cbk⟩ := s
  simp only at hb hC
  subst hb
  simp only [movePointer, Outcome.vm, true_and]
  refine ⟨le_max_left _ _, ?_, ?_, ?_⟩
  · exact max_le (by omega) (min_le_right _ _)
  · intro hp
    subst hp
    have : max 0 (min ((0 : Int) + -1) (size - 1)) = 0 := by
      rw [max_eq_left]; exact le_trans (min_le_left _ _) (by omega)
    rw [this]
  · intro hp
    subst hp
    have : max 0 (min (size - 1 + 1) (size - 1)) = size - 1 := by
      rw [min_eq_right (by omega), max_eq_right (by omega)]
    rw [this]

/-- C11 at capacity 3 with the pointer at 0 and `delta = 5`: the pointer stops at 2. -/
theorem movePointer_clamp_witness :
    movePointer (configure (Interpreter.new 3) .CLAMP .WRAP) 5 =
        .ok () { configure (Interpreter.new 3) .CLAMP .WRAP with
          pointer := max 0 (min ((configure (Interpreter.new 3) .CLAMP .WRAP).pointer + 5)
            ((configure (Interpreter.new 3) .CLAMP .WRAP).memorySize - 1)) } ∧
      0 ≤ (movePointer (configure (Interpreter.new 3) .CLAMP .WRAP) 5).vm.pointer ∧
      (movePointer (configure (Interpreter.new 3) .CLAMP .WRAP) 5).vm.pointer ≤
        (configure (Interpreter.new 3) .CLAMP .WRAP).memorySize - 1 ∧
      ((configure (Interpreter.new 3) .CLAMP .WRAP).pointer = 0 →
        movePointer (configure (Interpreter.new 3) .CLAMP .WRAP) (-1) =
          .ok () (configure (Interpreter.new 3) .CLAMP .WRAP)) ∧
      ((configure (Interpreter.new 3) .CLAMP .WRAP).pointer =
          (configure (Interpreter.new 3) .CLAMP .WRAP).memorySize - 1 →
        movePointer (configure (Interpreter.new 3) .CLAMP .WRAP) 1 =
          .ok () (configure (Interpreter.new 3) .CLAMP .WRAP)) :=
  movePointer_clamp (configure (Interpreter.new 3) .CLAMP .WRAP) 5 (by rfl) (by decide)

/-- C12: under the WRAP pointer policy with capacity `C ≥ 1`, `movePointer(delta)` never
fails, whatever the pointer `p` and the integer `delta` (negative included), and sets
the pointer to the non-negative residue `(p + delta) mod C`, which lies in `[0, C - 1]`,
changing nothing else; so `<` at pointer 0 sets the pointer to `C - 1`. -/
theorem movePointer_wrap (s : Interpreter) (delta : Int)
    (hb : s.pointerBehavior = .WRAP) (hC : 1 ≤ s.memorySize) :
    movePointer s delta = .ok () { s with pointer := (s.pointer + delta) % s.memorySize } ∧
      0 ≤ (s.pointer + delta) % s.memorySize ∧
      (s.pointer + delta) % s.memorySize ≤ s.memorySize - 1 ∧
      (s.pointer = 0 → movePointer s (-1) = .ok () { s with pointer := s.memorySize - 1 }) := by
  have hpos : 0 < s.memorySize := by omega
  have hne : s.memorySize ≠ 0 := by omega
  have heq : ∀ d : Int, movePointer s d =
      .ok () { s with pointer := (s.pointer + d) % s.memorySize } := by
    intro d
    unfold movePointer
    simp only [hb, wrap_eq_emod _ _ hpos]
  refine ⟨heq delta, Int.emod_nonneg _ hne, ?_, ?_⟩
  · have := Int.emod_lt_of_pos (s.pointer + delta) hpos
    omega
  · intro hp
    rw [heq (-1), hp]
    have h1 : ((0 : Int) + -1) % s.memorySize = s.memorySize - 1 := by
      have h2 : ((0 : Int) + -1) = (s.memorySize - 1) + s.memorySize * (-1) := by ring
      rw [h2, Int.add_mul_emod_self_left]
      exact Int.emod_eq_of_lt (by omega) (by omega)
    rw [h1]

/-- C12 at capacity 3 with the pointer at 0 and `delta = -4`: the pointer lands on 2. -/
theorem movePointer_wrap_witness :
    movePointer (configure (Interpreter.new 3) .WRAP .WRAP) (-4) =
        .ok () { configure (Interpreter.new 3) .WRAP .WRAP with
          pointer := ((configure (Interpreter.new 3) .WRAP .WRAP).pointer + -4) %
            (configure (Interpreter.new 3) .WRAP .WRAP).memorySize } ∧
      0 ≤ ((configure (Interpreter.new 3) .WRAP .WRAP).pointer + -4) %
        (configure (Interpreter.new 3) .WRAP .WRAP).memorySize ∧
      ((configure (Interpreter.new 3) .WRAP .WRAP).pointer + -4) %
        (configure (Interpreter.new 3) .WRAP .WRAP).memorySize ≤
          (configure (Interpreter.new 3) .WRAP .WRAP).memorySize - 1 ∧
      ((configure (Interpreter.new 3) .WRAP .WRAP).pointer = 0 →
        movePointer (configure (Interpreter.new 3) .WRAP .WRAP) (-1) =
          .ok () { configure (Interpreter.new 3) .WRAP .WRAP with
            pointer := (configure (Interpreter.new 3) .WRAP .WRAP).memorySize - 1 }) :=
  movePointer_wrap (configure (Interpreter.new 3) .WRAP .WRAP) (-4) (by rfl) (by decide)

/-- C13: under the ERROR pointer policy, whatever the pointer `p` and the integer
`delta`, `movePointer(delta)` fails exactly when `p + delta < 0` (a pointer underflow)
or `p + delta ≥ C` (a pointer overflow), both of them `PointerOverflowError`; a failure
leaves the whole state, the pointer included, as it was, and a success sets the pointer
to `p + delta`.  With the pointer on the tape, a single `>` therefore fails exactly at
`p = C - 1` and a single `<` exactly at `p = 0`. -/
theorem movePointer_error (s : Interpreter) (delta : Int) (hb : s.pointerBehavior = .ERROR) :
    ((movePointer s delta).failed = true ↔
        (s.pointer + delta < 0 ∨ s.memorySize ≤ s.pointer + delta)) ∧
      (s.pointer + delta < 0 →
        movePointer s delta = .thrown (.pointerUnderflow (s.pointer + delta)) s) ∧
      (0 ≤ s.pointer + delta → s.memorySize ≤ s.pointer + delta →
        movePointer s delta = .thrown (.pointerOverflow (s.pointer + delta)) s) ∧
      (0 ≤ s.pointer + delta → s.pointer + delta < s.memorySize →
        movePointer s delta = .ok () { s with pointer := s.pointer + delta }) ∧
      (∀ e t, movePointer s delta = .thrown e t →
        e.isPointerOverflowError = true ∧ t = s ∧ t.pointer = s.pointer) ∧
      (0 ≤ s.pointer → s.pointer < s.memorySize →
        ((movePointer s 1).failed = true ↔ s.pointer = s.memorySize - 1) ∧
          ((movePointer s (-1)).failed = true ↔ s.pointer = 0)) := by
  have hfail : ∀ d : Int, (movePointer s d).failed = true ↔
      (s.pointer + d < 0 ∨ s.memorySize ≤ s.pointer + d) := by
    intro d
    unfold movePointer
    simp only [hb]
    split_ifs with h1 h2
    · simp [Outcome.failed, h1]
    · simp [Outcome.failed, h1]; omega
    · simp [Outcome.failed]; omega
  refine ⟨hfail delta, ?_, ?_, ?_, ?_, ?_⟩
  · intro h1
    unfold movePointer
    simp only [hb, if_pos h1]
  · intro h0 h1
    unfold movePointer
    simp only [hb, if_neg (not_lt.mpr h0), ge_iff_le, if_pos h1]
  · intro h0 h1
    unfold movePointer
    simp only [hb, if_neg (not_lt.mpr h0), ge_iff_le, if_neg (not_le.mpr h1)]
  · intro e t h
    unfold movePointer at h
    simp only [hb] at h
    split_ifs at h with h1 h2
    · simp only [Outcome.thrown.injEq] at h
      obtain ⟨rfl, rfl⟩ := h
      exact ⟨rfl, rfl, rfl⟩
    · simp only [Outcome.thrown.injEq] at h
      obtain ⟨rfl, rfl⟩ := h
      exact ⟨rfl, rfl, rfl⟩
  · intro h0 h1
    rw [hfail 1, hfail (-1)]
    constructor
    · constructor
      · intro h; omega
      · intro h; omega
    · constructor
      · intro h; omega
      · intro h; omega

/-- C13 at capacity 3 with the pointer at 0: `delta = 3` is the first one to fail. -/
theorem movePointer_error_witness :
    ((movePointer (configure (Interpreter.new 3) .ERROR .WRAP) 3).failed = true ↔
        ((configure (Interpreter.new 3) .ERROR .WRAP).pointer + 3 < 0 ∨
          (configure (Interpreter.new 3) .ERROR .WRAP).memorySize ≤
            (configure (Interpreter.new 3) .ERROR .WRAP).pointer + 3)) ∧
      movePointer (configure (Interpreter.new 3) .ERROR .WRAP) 3 =
        .thrown (.pointerOverflow 3) (configure (Interpreter.new 3) .ERROR .WRAP) ∧
      ((movePointer (configure (Interpreter.new 3) .ERROR .WRAP) 1).failed = true ↔
        (configure (Interpreter.new 3) .ERROR .WRAP).pointer =
          (configure (Interpreter.new 3) .ERROR .WRAP).memorySize - 1) ∧
      ((movePointer (configure (Interpreter.new 3) .ERROR .WRAP) (-1)).failed = true ↔
        (configure (Interpreter.new 3) .ERROR .WRAP).pointer = 0) :=
  ⟨(movePointer_error (configure (Interpreter.new 3) .ERROR .WRAP) 3 (by rfl)).1,
    (movePointer_error (configure (Interpreter.new 3) .ERROR .WRAP) 3 (by rfl)).2.2.1
      (by decide) (by decide),
    ((movePointer_error (configure (Interpreter.new 3) .ERROR .WRAP) 3 (by rfl)).2.2.2.2.2
      (by decide) (by decide)).1,
    ((movePointer_error (configure (Interpreter.new 3) .ERROR .WRAP) 3 (by rfl)).2.2.2.2.2
      (by decide) (by decide)).2⟩

/-- C14: under the WRAP cell policy `modifyCell(delta)` never fails, whatever the cell
value `v` and the integer `delta`; it stores the non-negative residue `(v + delta) mod
256`, which lies in `[0,255]`, in the cell at the pointer and changes no other cell and
nothing else in the state.  So on a cell holding a value in `[0,255]`, 256 successive
`+`, one merged `+256`, 256 successive `-` and one merged `-256` all leave the state as
it was. -/
theorem modifyCell_wrap (s : Interpreter) (delta : Int) (hb : s.cellBehavior = .WRAP)
    (h : WellFormed s) :
    modifyCell s delta = .ok () (setCell s ((cell s + delta) % 256)) ∧
      0 ≤ (cell s + delta) % 256 ∧ (cell s + delta) % 256 ≤ 255 ∧
      cell (modifyCell s delta).vm = (cell s + delta) % 256 ∧
      (modifyCell s delta).vm.memory.length = s.memory.length ∧
      (∀ i : Nat, i ≠ s.pointer.toNat →
        (modifyCell s delta).vm.memory[i]? = s.memory[i]?) ∧
      (0 ≤ cell s → cell s ≤ 255 →
        repeatOp (fun t => modifyCell t 1) 256 s = .ok () s ∧
          modifyCell s 256 = .ok () s ∧
          repeatOp (fun t => modifyCell t (-1)) 256 s = .ok () s ∧
          modifyCell s (-256) = .ok () s) := by
  have heq := modifyCell_wrap_eq s delta hb
  have hlo : 0 ≤ (cell s + delta) % 256 := Int.emod_nonneg _ (by decide)
  have hhi : (cell s + delta) % 256 < 256 := Int.emod_lt_of_pos _ (by decide)
  refine ⟨heq, hlo, by omega, ?_, ?_, ?_, ?_⟩
  · rw [heq]; exact cell_setCell s _ h
  · rw [heq]; simp [Outcome.vm, setCell]
  · intro i hi
    rw [heq]; exact setCell_getElem?_ne s _ i hi
  · intro h0 h1
    have hplus : modifyCell s 256 = .ok () s := by
      rw [modifyCell_wrap_eq s 256 hb]
      have : (cell s + 256) % 256 = cell s := by omega
      rw [this, setCell_cell]
    have hminus : modifyCell s (-256) = .ok () s := by
      rw [modifyCell_wrap_eq s (-256) hb]
      have : (cell s + -256) % 256 = cell s := by omega
      rw [this, setCell_cell]
    have hcell : s.cellBehavior = .ERROR → 0 ≤ cell s ∧ cell s ≤ 255 := fun _ => ⟨h0, h1⟩
    have hu := modifyCell_units s 1 (Or.inl rfl) 255 h hcell
    have hd := modifyCell_units s (-1) (Or.inr rfl) 255 h hcell
    have e1 : (1 : Int) * ((255 + 1 : Nat) : Int) = 256 := by norm_num
    have e2 : (-1 : Int) * ((255 + 1 : Nat) : Int) = -256 := by norm_num
    rw [e1, hplus] at hu
    rw [e2, hminus] at hd
    exact ⟨(hu.2.1 rfl).symm, hplus, (hd.2.1 rfl).symm, hminus⟩

/-- C14 on a fresh VM of capacity 3 (cell 0 holds 0) with `delta = -1`: the cell
becomes 255. -/
theorem modifyCell_wrap_witness :
    modifyCell (Interpreter.new 3) (-1) =
        .ok () (setCell (Interpreter.new 3) ((cell (Interpreter.new 3) + -1) % 256)) ∧
      cell (modifyCell (Interpreter.new 3) (-1)).vm = 255 ∧
      repeatOp (fun t => modifyCell t 1) 256 (Interpreter.new 3) =
        .ok () (Interpreter.new 3) ∧
      modifyCell (Interpreter.new 3) 256 = .ok () (Interpreter.new 3) ∧
      repeatOp (fun t => modifyCell t (-1)) 256 (Interpreter.new 3) =
        .ok () (Interpreter.new 3) ∧
      modifyCell (Interpreter.new 3) (-256) = .ok () (Interpreter.new 3) :=
  ⟨(modifyCell_wrap (Interpreter.new 3) (-1) (by rfl) (by decide)).1,
    (modifyCell_wrap (Interpreter.new 3) (-1) (by rfl) (by decide)).2.2.2.1,
    (modifyCell_wrap (Interpreter.new 3) (-1) (by rfl) (by decide)).2.2.2.2.2.2
      (by decide) (by decide)⟩

/-- C15: under the ERROR cell policy, whatever the cell value `v` and the integer
`delta`, `modifyCell(delta)` fails exactly when `v + delta < 0` or `v + delta > 255`,
with a `CellOverflowError`; a failure leaves the whole state, the tape included, as it
was, and a success stores `v + delta` in the cell at the pointer and changes no other
cell.  On a cell holding a value in `[0,255]` a single `+` therefore fails exactly at
`v = 255` and a single `-` exactly at `v = 0`. -/
theorem modifyCell_error (s : Interpreter) (delta : Int) (hb : s.cellBehavior = .ERROR)
    (h : WellFormed s) :
    ((modifyCell s delta).failed = true ↔ (cell s + delta < 0 ∨ 255 < cell s + delta)) ∧
      (∀ e t, modifyCell s delta = .thrown e t →
        e.isCellOverflowError = true ∧ t = s ∧ t.memory = s.memory) ∧
      (∀ t, modifyCell s delta = .ok () t →
        t = setCell s (cell s + delta) ∧ cell t = cell s + delta ∧
          t.memory.length = s.memory.length ∧
          ∀ i : Nat, i ≠ s.pointer.toNat → t.memory[i]? = s.memory[i]?) ∧
      (0 ≤ cell s → cell s ≤ 255 →
        ((modifyCell s 1).failed = true ↔ cell s = 255) ∧
          ((modifyCell s (-1)).failed = true ↔ cell s = 0)) := by
  have hfail : ∀ d : Int, (modifyCell s d).failed = true ↔
      (cell s + d < 0 ∨ 255 < cell s + d) := by
    intro d
    unfold modifyCell
    simp only [hb]
    split_ifs with h1 h2
    · simp [Outcome.failed, h1]
    · simp [Outcome.failed, h1]; omega
    · simp [Outcome.failed]; omega
  refine ⟨hfail delta, ?_, ?_, ?_⟩
  · intro e t ht
    unfold modifyCell at ht
    simp only [hb] at ht
    split_ifs at ht with h1 h2
    · simp only [Outcome.thrown.injEq] at ht
      obtain ⟨rfl, rfl⟩ := ht
      exact ⟨rfl, rfl, rfl⟩
    · simp only [Outcome.thrown.injEq] at ht
      obtain ⟨rfl, rfl⟩ := ht
      exact ⟨rfl, rfl, rfl⟩
  · intro t ht
    unfold modifyCell at ht
    simp only [hb] at ht
    split_ifs at ht with h1 h2
    simp only [Outcome.ok.injEq, true_and] at ht
    subst ht
    refine ⟨rfl, cell_setCell s _ h, by simp [setCell], ?_⟩
    intro i hi
    exact setCell_getElem?_ne s _ i hi
  · intro h0 h1
    rw [hfail 1, hfail (-1)]
    constructor
    · constructor
      · intro h; omega
      · intro h; omega
    · constructor
      · intro h; omega
      · intro h; omega

/-- C15 on a VM of capacity 3 under the ERROR cell policy, cell 0 holding 0: `-` fails,
`+` does not. -/
theorem modifyCell_error_witness :
    ((modifyCell (configure (Interpreter.new 3) .CLAMP .ERROR) (-1)).failed = true ↔
        (cell (configure (Interpreter.new 3) .CLAMP .ERROR) + -1 < 0 ∨
          255 < cell (configure (Interpreter.new 3) .CLAMP .ERROR) + -1)) ∧
      ((modifyCell (configure (Interpreter.new 3) .CLAMP .ERROR) 1).failed = true ↔
        cell (configure (Interpreter.new 3) .CLAMP .ERROR) = 255) ∧
      ((modifyCell (configure (Interpreter.new 3) .CLAMP .ERROR) (-1)).failed = true ↔
        cell (configure (Interpreter.new 3) .CLAMP .ERROR) = 0) :=
  ⟨(modifyCell_error (configure (Interpreter.new 3) .CLAMP .ERROR) (-1) (by rfl)
      (by decide)).1,
    (modifyCell_error (configure (Interpreter.new 3) .CLAMP .ERROR) (-1) (by rfl)
      (by decide)).2.2.2 (by decide) (by decide)⟩

/-! ### The instructions `.` and `,` in the three executors -/

theorem getElem?_int_lt {α : Type} (l : List α) (pc : Int) (a : α) (hpc : 0 ≤ pc)
    (h : l[pc.toNat]? = some a) : pc < (l.length : Int) := by
  obtain ⟨hlt, -⟩ := List.getElem?_eq_some_iff.1 h
  omega

theorem instrAt_of_getElem? (code : List Instr) (pc : Int) (i : Instr) (hpc : 0 ≤ pc)
    (h : code[pc.toNat]? = some i) : instrAt code pc = i := by
  simp [instrAt, not_lt.2 hpc, List.getD, h]

theorem execInstr_output (s : Interpreter) (pc arg : Int) :
    execInstr s pc ('.', arg) = .ok pc (outputCell s) := by
  simp [execInstr]

theorem execInstr_input (s : Interpreter) (pc arg : Int) :
    execInstr s pc (',', arg) = (inputCell s).andThen fun _ s1 => .ok pc s1 := by
  simp [execInstr]

theorem step_output (s : Interpreter) (hrun : s.running = true) (hpc : 0 ≤ s.pc)
    (h : s.program[s.pc.toNat]? = some '.') : step s = stepDone (outputCell s) := by
  obtain ⟨hlt, hget⟩ := List.getElem?_eq_some_iff.1 h
  have hdrop : s.program.drop s.pc.toNat = '.' :: s.program.drop (s.pc.toNat + 1) := by
    rw [List.drop_eq_getElem_cons hlt, hget]
  rw [step_fetch s '.' _ hrun hpc hdrop]
  simp

theorem step_input (s : Interpreter) (hrun : s.running = true) (hpc : 0 ≤ s.pc)
    (h : s.program[s.pc.toNat]? = some ',') :
    step s = (inputCell s).andThen fun _ s1 => stepDone s1 := by
  obtain ⟨hlt, hget⟩ := List.getElem?_eq_some_iff.1 h
  have hdrop : s.program.drop s.pc.toNat = ',' :: s.program.drop (s.pc.toNat + 1) := by
    rw [List.drop_eq_getElem_cons hlt, hget]
  rw [step_fetch s ',' _ hrun hpc hdrop]
  simp

theorem executesAs_output (s : Interpreter) : ExecutesAs s '.' (.ok () (outputCell s)) := by
  refine ⟨?_, ?_, ?_⟩
  · intro hrun hpc h
    rw [step_output s hrun hpc h]
    rfl
  · intro b pc st arg hpc h
    have hlt := getElem?_int_lt _ pc _ hpc h
    simp only [fastLoop, if_pos hlt, instrAt_of_getElem? _ _ _ hpc h, execInstr_output,
      Outcome.andThen]
  · intro b maxSteps arg hpc h hst
    have hlt := getElem?_int_lt _ _ _ hpc h
    simp only [chunkLoop, if_pos (And.intro hlt hst), instrAt_of_getElem? _ _ _ hpc h,
      execInstr_output, Outcome.andThen]

theorem executesAs_input (s : Interpreter) : ExecutesAs s ',' (inputCell s) := by
  refine ⟨?_, ?_, ?_⟩
  · intro hrun hpc h
    exact step_input s hrun hpc h
  · intro b pc st arg hpc h
    have hlt := getElem?_int_lt _ pc _ hpc h
    simp only [fastLoop, if_pos hlt, instrAt_of_getElem? _ _ _ hpc h, execInstr_input]
    cases inputCell s <;> rfl
  · intro b maxSteps arg hpc h hst
    have hlt := getElem?_int_lt _ _ _ hpc h
    simp only [chunkLoop, if_pos (And.intro hlt hst), instrAt_of_getElem? _ _ _ hpc h,
      execInstr_input]
    cases inputCell s <;> rfl

theorem outputCell_eq (s : Interpreter) :
    outputCell s =
      { s with outputBuffer := s.outputBuffer ++ [outputByte s.cellBehavior (cell s)] } := by
  have hmod : ∀ v : Int, toByte (Int.tmod v 256) = (v % 256).toNat := by
    intro v
    unfold toByte
    rw [Int.tmod_def]
    generalize v.tdiv 256 = k
    congr 1
    omega
  unfold outputCell outputByte
  simp only
  by_cases hu : s.cellBehavior = .UNLIMITED
  · by_cases hneg : cell s < 0
    · have hmax : max 0 (min 255 (cell s)) = 0 := by
        rw [max_eq_left]; exact le_trans (min_le_right _ _) hneg.le
      simp only [hu, hneg, true_and, true_or, if_true, hmax]
      rfl
    · by_cases hbig : cell s > 255
      · have hmax : max 0 (min 255 (cell s)) = 255 := by
          rw [min_eq_left (by omega), max_eq_right (by omega)]
        simp only [hu, hneg, hbig, true_and, or_true, if_true, if_false, hmax]
        rfl
      · simp only [hu, hneg, hbig, true_and, or_self, if_false, hmod]
  · simp only [hu, false_and, if_false, hmod]

theorem outputByte_le (policy : CellBehavior) (v : Int) : outputByte policy v ≤ 255 := by
  unfold outputByte
  split_ifs
  · omega
  · omega
  · have := Int.emod_lt_of_pos v (by decide : (0 : Int) < 256)
    have := Int.emod_nonneg v (by decide : (256 : Int) ≠ 0)
    omega

theorem inputCell_cases (s : Interpreter) :
    (∃ v rest, s.inputBuffer = v :: rest ∧ nextInput s = some v ∧
        inputCell s = storeFront s v rest) ∨
      (∃ cb v rest, s.inputBuffer = [] ∧ s.inputCallback = some cb ∧
        (invokeCallback cb).1 = v :: rest ∧ nextInput s = some v ∧
        inputCell s =
          storeFront { s with inputCallback := some (invokeCallback cb).2 } v rest) ∨
      (∃ cb, s.inputBuffer = [] ∧ s.inputCallback = some cb ∧
        (invokeCallback cb).1 = [] ∧ nextInput s = none ∧
        inputCell s =
          .ok () (setCell { s with inputCallback := some (invokeCallback cb).2 } 0)) ∨
      (s.inputBuffer = [] ∧ s.inputCallback = none ∧ nextInput s = none ∧
        inputCell s = .ok () (setCell s 0)) := by
  obtain ⟨mem, prog, out, inp, code, size, p, pc, run, fpc, fst, pb, cb, cbk⟩ := s
  cases inp with
  | cons v rest =>
    left
    exact ⟨v, rest, rfl, rfl, rfl⟩
  | nil =>
    right
    cases cbk with
    | none =>
      right; right
      exact ⟨rfl, rfl, rfl, rfl⟩
    | some callback =>
      cases hreply : (invokeCallback callback).1 with
      | nil =>
        right; left
        refine ⟨callback, rfl, rfl, hreply, ?_, ?_⟩
        · simp [nextInput, hreply]
        · simp [inputCell, hreply]
      | cons v rest =>
        left
        refine ⟨callback, v, rest, rfl, rfl, hreply, ?_, ?_⟩
        · simp [nextInput, hreply]
        · simp [inputCell, hreply]

/-- C16: in each of the three executors `.` is executed as one and the same body, which
appends exactly one byte to the output log and changes nothing else, so neither the
tape nor the pointer: the byte is the cell value `v` clamped into `[0,255]` under the
UNLIMITED cell policy when `v` is outside `[0,255]` (0 for a negative `v`, 255 for
`v > 255`), the stored cell keeping its value, and `v mod 256` in every other case. -/
theorem output_appends_one_byte (s : Interpreter) :
    ExecutesAs s '.' (.ok () (outputCell s)) ∧
      outputCell s =
        { s with outputBuffer := s.outputBuffer ++ [outputByte s.cellBehavior (cell s)] } ∧
      (outputCell s).memory = s.memory ∧ (outputCell s).pointer = s.pointer ∧
      cell (outputCell s) = cell s ∧
      (outputCell s).outputBuffer.length = s.outputBuffer.length + 1 ∧
      outputByte s.cellBehavior (cell s) ≤ 255 := by
  have heq := outputCell_eq s
  refine ⟨executesAs_output s, heq, ?_, ?_, ?_, ?_, outputByte_le _ _⟩
  · rw [heq]
  · rw [heq]
  · rw [heq]; rfl
  · rw [heq]; simp

/-- C16 on the text `-.` under the UNLIMITED cell policy, the cell holding -1: each
executor appends the byte 0. -/
theorem output_appends_one_byte_witness :
    step minusDotVM = .ok true (withPc (outputCell minusDotVM) 2) ∧
      fastLoop 1 1 1 minusDotVM = .ok (2, 2) (outputCell minusDotVM) ∧
      chunkLoop 100 1 minusDotVM = .ok () (withCursor (outputCell minusDotVM) 2 2) ∧
      (outputCell minusDotVM).outputBuffer = [0] ∧ cell (outputCell minusDotVM) = -1 :=
  ⟨(output_appends_one_byte minusDotVM).1.1 (by decide) (by decide) (by decide),
    (output_appends_one_byte minusDotVM).1.2.1 0 1 1 0 (by decide) (by decide),
    (output_appends_one_byte minusDotVM).1.2.2 0 100 0 (by decide) (by decide) (by decide),
    by rw [(output_appends_one_byte minusDotVM).2.1]; decide,
    by rw [(output_appends_one_byte minusDotVM).2.2.2.2.1]; decide⟩

theorem storeFront_accepted (s : Interpreter) (v : Int) (rest : List Int)
    (h : ¬(s.cellBehavior = .ERROR ∧ (v < 0 ∨ v > 255))) :
    storeFront s v rest = .ok () (setCell { s with inputBuffer := rest } v) := by
  unfold storeFront
  simp only [if_neg h]

theorem storeFront_refused (s : Interpreter) (v : Int) (rest : List Int)
    (h : s.cellBehavior = .ERROR ∧ (v < 0 ∨ v > 255)) :
    storeFront s v rest = .thrown (.inputOutOfRange v) { s with inputBuffer := rest } := by
  unfold storeFront
  simp only [if_pos h]

theorem outputByte_zero (policy : CellBehavior) : outputByte policy 0 = 0 := by
  cases policy <;> rfl

/-- C17: each of the three executors executes `,` as one and the same body, which
consumes the input first-in first-out.  With a non-empty queue it stores the head in
the current cell and removes exactly the head.  With an empty queue it invokes the
callback: of a non-empty text it stores the first character value and leaves the
remaining ones queued in order; on an empty text, or without a callback, it stores 0.
(A value is stored unless the ERROR cell policy refuses it, which is the one way `,` can
fail.)  On input exhaustion, whatever the policies, the cell becomes 0 and a following
`.` appends the byte 0. -/
theorem input_takes_queue_head (s : Interpreter) :
    ExecutesAs s ',' (inputCell s) ∧
      (∀ v rest, s.inputBuffer = v :: rest →
        ¬(s.cellBehavior = .ERROR ∧ (v < 0 ∨ v > 255)) →
        inputCell s = .ok () (setCell { s with inputBuffer := rest } v)) ∧
      (∀ cb v rest, s.inputBuffer = [] → s.inputCallback = some cb →
        (invokeCallback cb).1 = v :: rest →
        ¬(s.cellBehavior = .ERROR ∧ (v < 0 ∨ v > 255)) →
        inputCell s = .ok () (setCell
          { s with inputBuffer := rest, inputCallback := some (invokeCallback cb).2 } v)) ∧
      (∀ cb, s.inputBuffer = [] → s.inputCallback = some cb → (invokeCallback cb).1 = [] →
        inputCell s =
          .ok () (setCell { s with inputCallback := some (invokeCallback cb).2 } 0)) ∧
      (s.inputBuffer = [] → s.inputCallback = none → inputCell s = .ok () (setCell s 0)) ∧
      (WellFormed s → nextInput s = none →
        ∃ t, inputCell s = .ok () t ∧ cell t = 0 ∧ t.pointer = s.pointer ∧
          t.inputBuffer = [] ∧
          outputCell t = { t with outputBuffer := s.outputBuffer ++ [0] }) ∧
      (∀ pb cb,
        (runUntilEnd (commaDotVM pb cb [] (some [[]])) 100).vm.outputBuffer = [0] ∧
          cell (runUntilEnd (commaDotVM pb cb [] (some [[]])) 100).vm = 0 ∧
          (runProgramFast (commaDotVM pb cb [] (some [[]])) 100).vm.outputBuffer = [0] ∧
          cell (runProgramFast (commaDotVM pb cb [] (some [[]])) 100).vm = 0 ∧
          (runProgramFastInterruptible (commaDotVM pb cb [] (some [[]])) 10 100).vm.outputBuffer
            = [0] ∧
          cell (runProgramFastInterruptible (commaDotVM pb cb [] (some [[]])) 10 100).vm = 0) := by
  refine ⟨executesAs_input s, ?_, ?_, ?_, ?_, ?_, ?_⟩
  · intro v rest hq hok
    rcases inputCell_cases s with ⟨v1, rest1, hq1, -, heq⟩ | ⟨cb, v1, rest1, hq1, -⟩ |
      ⟨cb, hq1, -⟩ | ⟨hq1, -⟩
    · rw [hq] at hq1
      obtain ⟨rfl, rfl⟩ := List.cons.inj hq1
      rw [heq, storeFront_accepted s v rest hok]
    · rw [hq] at hq1; exact absurd hq1 (List.cons_ne_nil _ _)
    · rw [hq] at hq1; exact absurd hq1 (List.cons_ne_nil _ _)
    · rw [hq] at hq1; exact absurd hq1 (List.cons_ne_nil _ _)
  · intro cb v rest hq hcb hreply hok
    rcases inputCell_cases s with ⟨v1, rest1, hq1, -⟩ | ⟨cb1, v1, rest1, -, hcb1, hreply1, -, heq⟩ |
      ⟨cb1, -, hcb1, hreply1, -⟩ | ⟨-, hcb1, -⟩
    · rw [hq] at hq1; exact absurd hq1.symm (List.cons_ne_nil _ _)
    · rw [hcb] at hcb1
      obtain rfl := Option.some.inj hcb1
      rw [hreply] at hreply1
      obtain ⟨rfl, rfl⟩ := List.cons.inj hreply1
      rw [heq]
      exact storeFront_accepted { s with inputCallback := some (invokeCallback cb).2 } v rest hok
    · rw [hcb] at hcb1
      obtain rfl := Option.some.inj hcb1
      rw [hreply] at hreply1; exact absurd hreply1 (List.cons_ne_nil _ _)
    · rw [hcb] at hcb1; exact Option.noConfusion hcb1
  · intro cb hq hcb hreply
    rcases inputCell_cases s with ⟨v1, rest1, hq1, -⟩ | ⟨cb1, v1, rest1, -, hcb1, hreply1, -⟩ |
      ⟨cb1, -, hcb1, -, -, heq⟩ | ⟨-, hcb1, -⟩
    · rw [hq] at hq1; exact absurd hq1.symm (List.cons_ne_nil _ _)
    · rw [hcb] at hcb1
      obtain rfl := Option.some.inj hcb1
      rw [hreply] at hreply1; exact absurd hreply1.symm (List.cons_ne_nil _ _)
    · rw [hcb] at hcb1
      obtain rfl := Option.some.inj hcb1
      exact heq
    · rw [hcb] at hcb1; exact Option.noConfusion hcb1
  · intro hq hcb
    rcases inputCell_cases s with ⟨v1, rest1, hq1, -⟩ | ⟨cb1, v1, rest1, -, hcb1, -⟩ |
      ⟨cb1, -, hcb1, -⟩ | ⟨-, -, -, heq⟩
    · rw [hq] at hq1; exact absurd hq1.symm (List.cons_ne_nil _ _)
    · rw [hcb] at hcb1; exact Option.noConfusion hcb1
    · rw [hcb] at hcb1; exact Option.noConfusion hcb1
    · exact heq
  · intro hwf hnone
    have hbyte : ∀ t : Interpreter, cell t = 0 →
        outputCell t = { t with outputBuffer := t.outputBuffer ++ [0] } := by
      intro t ht
      rw [outputCell_eq, ht, outputByte_zero]
    rcases inputCell_cases s with ⟨v1, rest1, -, hn, -⟩ | ⟨cb1, v1, rest1, -, -, -, hn, -⟩ |
      ⟨cb1, hq, -, -, -, heq⟩ | ⟨hq, -, -, heq⟩
    · rw [hnone] at hn; exact Option.noConfusion hn
    · rw [hnone] at hn; exact Option.noConfusion hn
    · have hwf1 : WellFormed { s with inputCallback := some (invokeCallback cb1).2 } := hwf
      have hc := cell_setCell _ 0 hwf1
      exact ⟨_, heq, hc, rfl, hq, hbyte _ hc⟩
    · have hc := cell_setCell s 0 hwf
      exact ⟨_, heq, hc, rfl, hq, hbyte _ hc⟩
  · intro pb cb
    cases pb <;> cases cb <;> decide

/-- C17 on the text `,.`: with the queue `A`, `B` the `,` stores 65 and leaves `B`
queued; with an empty queue and a callback returning the empty text, under both ERROR
policies, the cell becomes 0 and `.` appends the byte 0. -/
theorem input_takes_queue_head_witness :
    inputCell (commaDotVM .CLAMP .WRAP [65, 66] none) =
        .ok () (setCell { commaDotVM .CLAMP .WRAP [65, 66] none with inputBuffer := [66] } 65) ∧
      (∃ t, inputCell (commaDotVM .ERROR .ERROR [] (some [[]])) = .ok () t ∧ cell t = 0 ∧
        t.pointer = (commaDotVM .ERROR .ERROR [] (some [[]])).pointer ∧ t.inputBuffer = [] ∧
        outputCell t =
          { t with outputBuffer :=
            (commaDotVM .ERROR .ERROR [] (some [[]])).outputBuffer ++ [0] }) ∧
      step (commaDotVM .CLAMP .WRAP [65, 66] none) =
        (inputCell (commaDotVM .CLAMP .WRAP [65, 66] none)).andThen fun _ s1 => stepDone s1 :=
  ⟨(input_takes_queue_head (commaDotVM .CLAMP .WRAP [65, 66] none)).2.1 65 [66] (by decide)
      (by decide),
    (input_takes_queue_head (commaDotVM .ERROR .ERROR [] (some [[]]))).2.2.2.2.2.1 (by decide)
      (by decide),
    (input_takes_queue_head (commaDotVM .CLAMP .WRAP [65, 66] none)).1.1 (by decide)
      (by decide) (by decide)⟩

/-- C18: each of the three executors executes `,` as one and the same body.  Under the
ERROR cell policy, when an input value is available (at the head of the queue, or as
the first character of the text the callback returns on an empty queue), that body fails
exactly when the value lies outside `[0,255]`, and with a `CellOverflowError`; a
failing `,` leaves the tape, the pointer and so the current cell as they were.  Under
the WRAP and UNLIMITED cell policies, and when no input value is available, `,` never
fails. -/
theorem input_fails_iff_out_of_range (s : Interpreter) :
    ExecutesAs s ',' (inputCell s) ∧
      (s.cellBehavior = .ERROR → ∀ v, nextInput s = some v →
        ((inputCell s).failed = true ↔ (v < 0 ∨ 255 < v))) ∧
      (∀ e t, inputCell s = .thrown e t →
        e.isCellOverflowError = true ∧ s.cellBehavior = .ERROR ∧
          (∃ v, nextInput s = some v ∧ e = .inputOutOfRange v) ∧
          t.memory = s.memory ∧ t.pointer = s.pointer ∧ cell t = cell s) ∧
      (s.cellBehavior ≠ .ERROR → (inputCell s).failed = false) ∧
      (nextInput s = none → (inputCell s).failed = false) := by
  have hstore : ∀ (s1 : Interpreter) (v : Int) (rest : List Int),
      ((storeFront s1 v rest).failed = true ↔
          (s1.cellBehavior = .ERROR ∧ (v < 0 ∨ 255 < v))) ∧
        (∀ e t, storeFront s1 v rest = .thrown e t →
          e = .inputOutOfRange v ∧ s1.cellBehavior = .ERROR ∧ t.memory = s1.memory ∧
            t.pointer = s1.pointer) := by
    intro s1 v rest
    by_cases h : s1.cellBehavior = .ERROR ∧ (v < 0 ∨ v > 255)
    · rw [storeFront_refused s1 v rest h]
      refine ⟨by simpa [Outcome.failed] using h, ?_⟩
      intro e t ht
      simp only [Outcome.thrown.injEq] at ht
      obtain ⟨rfl, rfl⟩ := ht
      exact ⟨rfl, h.1, rfl, rfl⟩
    · rw [storeFront_accepted s1 v rest h]
      refine ⟨by simpa [Outcome.failed] using h, ?_⟩
      intro e t ht
      exact Outcome.noConfusion ht
  refine ⟨executesAs_input s, ?_, ?_, ?_, ?_⟩
  · intro hb v hv
    rcases inputCell_cases s with ⟨v1, rest1, -, hn, heq⟩ | ⟨cb1, v1, rest1, -, -, -, hn, heq⟩ |
      ⟨cb1, -, -, -, hn, -⟩ | ⟨-, -, hn, -⟩
    · rw [hv] at hn
      obtain rfl := Option.some.inj hn
      rw [heq, (hstore s v rest1).1]
      simp [hb]
    · rw [hv] at hn
      obtain rfl := Option.some.inj hn
      rw [heq, (hstore _ v rest1).1]
      simp [hb]
    · rw [hv] at hn; exact Option.noConfusion hn
    · rw [hv] at hn; exact Option.noConfusion hn
  · intro e t ht
    rcases inputCell_cases s with ⟨v1, rest1, -, hn, heq⟩ | ⟨cb1, v1, rest1, -, -, -, hn, heq⟩ |
      ⟨cb1, -, -, -, -, heq⟩ | ⟨-, -, -, heq⟩
    · rw [heq] at ht
      obtain ⟨rfl, hb, hm, hp⟩ := (hstore s v1 rest1).2 e t ht
      exact ⟨rfl, hb, ⟨v1, hn, rfl⟩, hm, hp, by simp [cell, hm, hp]⟩
    · rw [heq] at ht
      obtain ⟨rfl, hb, hm, hp⟩ := (hstore _ v1 rest1).2 e t ht
      exact ⟨rfl, hb, ⟨v1, hn, rfl⟩, hm, hp, by simp [cell, hm, hp]⟩
    · rw [heq] at ht; exact Outcome.noConfusion ht
    · rw [heq] at ht; exact Outcome.noConfusion ht
  · intro hb
    rcases inputCell_cases s with ⟨v1, rest1, -, -, heq⟩ | ⟨cb1, v1, rest1, -, -, -, -, heq⟩ |
      ⟨cb1, -, -, -, -, heq⟩ | ⟨-, -, -, heq⟩
    · rw [heq, storeFront_accepted s v1 rest1 (fun h => hb h.1)]; rfl
    · rw [heq]
      have := storeFront_accepted { s with inputCallback := some (invokeCallback cb1).2 }
        v1 rest1 (fun h => hb h.1)
      rw [this]; rfl
    · rw [heq]; rfl
    · rw [heq]; rfl
  · intro hnone
    rcases inputCell_cases s with ⟨v1, rest1, -, hn, -⟩ | ⟨cb1, v1, rest1, -, -, -, hn, -⟩ |
      ⟨cb1, -, -, -, -, heq⟩ | ⟨-, -, -, heq⟩
    · rw [hnone] at hn; exact Option.noConfusion hn
    · rw [hnone] at hn; exact Option.noConfusion hn
    · rw [heq]; rfl
    · rw [heq]; rfl

/-- C18 on the text `,.` under the ERROR cell policy with the queue 300, 65: the `,`
fails in `step` with the input error and the cell stays 0. -/
theorem input_fails_iff_out_of_range_witness :
    ((inputCell (commaDotVM .CLAMP .ERROR [300, 65] none)).failed = true ↔
        ((300 : Int) < 0 ∨ (255 : Int) < 300)) ∧
      step (commaDotVM .CLAMP .ERROR [300, 65] none) =
        (inputCell (commaDotVM .CLAMP .ERROR [300, 65] none)).andThen
          (fun _ s1 => stepDone s1) ∧
      (inputCell (commaDotVM .CLAMP .WRAP [300, 65] none)).failed = false :=
  ⟨(input_fails_iff_out_of_range (commaDotVM .CLAMP .ERROR [300, 65] none)).2.1 (by decide)
      300 (by decide),
    (input_fails_iff_out_of_range (commaDotVM .CLAMP .ERROR [300, 65] none)).1.1 (by decide)
      (by decide) (by decide),
    (input_fails_iff_out_of_range (commaDotVM .CLAMP .WRAP [300, 65] none)).2.2.2.1
      (by decide)⟩

/-! ### What the two compiled runners return -/

/-- The loop of the chunked runner executes some number `j` of instructions, at most the
chunk size, and adds `j` to the cumulative count; it stops short of the chunk size only
at the end of the bytecode or of the budget; and `j` iterations are what it takes. -/
theorem chunkLoop_steps (M : Int) (c : Nat) (s s2 : Interpreter)
    (h : chunkLoop M c s = .ok () s2) :
    ∃ j : Nat, j ≤ c ∧ s2.fastSteps = s.fastSteps + j ∧
      s2.compiledProgram = s.compiledProgram ∧
      (j < c → ((s2.compiledProgram.length : Int) ≤ s2.fastPc ∨ M ≤ s2.fastSteps)) ∧
      chunkLoop M j s = .ok () s2 := by
  induction c generalizing s with
  | zero =>
    simp only [chunkLoop, Outcome.ok.injEq, true_and] at h
    subst h
    exact ⟨0, le_refl _, by simp, rfl, fun hj => absurd hj (by omega), rfl⟩
  | succ c ih =>
    by_cases hcond : s.fastPc < (s.compiledProgram.length : Int) ∧ s.fastSteps < M
    · simp only [chunkLoop, if_pos hcond] at h
      cases hex : execInstr s s.fastPc (instrAt s.compiledProgram s.fastPc) with
      | thrown e s1 => rw [hex] at h; exact Outcome.noConfusion h
      | ok pc1 s1 =>
        rw [hex] at h
        simp only at h
        have hframe := execInstr_frame s s.fastPc (instrAt s.compiledProgram s.fastPc)
        rw [hex] at hframe
        obtain ⟨-, hcode, -, -, -, -, -, -, hst⟩ := hframe
        simp only [Outcome.vm] at hcode hst
        obtain ⟨j, hj, hsteps, hcode2, hshort, hexact⟩ := ih _ h
        refine ⟨j + 1, by omega, ?_, ?_, ?_, ?_⟩
        · rw [hsteps]; simp only [Nat.cast_add, Nat.cast_one]; rw [← hst]; ring
        · rw [hcode2]; exact hcode
        · intro hlt; exact hshort (by omega)
        · simp only [chunkLoop, if_pos hcond, hex]
          exact hexact
    · simp only [chunkLoop, if_neg hcond, Outcome.ok.injEq, true_and] at h
      subst h
      refine ⟨0, by omega, by simp, rfl, ?_, rfl⟩
      intro _
      by_cases h1 : s.fastPc < (s.compiledProgram.length : Int)
      · right
        exact not_lt.1 fun h2 => hcond ⟨h1, h2⟩
      · left
        exact not_lt.1 h1

/-- The loop of the bulk runner executes some number `j` of instructions, at most the
budget, and returns the count it started from plus `j`; it stops short of the budget
only past the last compiled instruction; and `j` iterations are what it takes. -/
theorem fastLoop_exact (b : Nat) (pc st : Int) (s : Interpreter) (pc1 st1 : Int)
    (s1 : Interpreter) (h : fastLoop b pc st s = .ok (pc1, st1) s1) :
    ∃ j : Nat, j ≤ b ∧ st1 = st + j ∧ (j < b → (s1.compiledProgram.length : Int) ≤ pc1) ∧
      fastLoop j pc st s = .ok (pc1, st1) s1 := by
  induction b generalizing pc st s with
  | zero =>
    exact ⟨0, le_refl _, by
      simp only [fastLoop, Outcome.ok.injEq, Prod.mk.injEq] at h
      simp [h.1.2], fun hj => absurd hj (by omega), h⟩
  | succ b ih =>
    by_cases hlt : pc < (s.compiledProgram.length : Int)
    · simp only [fastLoop, if_pos hlt] at h
      cases hex : execInstr s pc (instrAt s.compiledProgram pc) with
      | thrown e s2 => rw [hex] at h; exact Outcome.noConfusion h
      | ok pc2 s2 =>
        rw [hex] at h
        simp only at h
        obtain ⟨j, hj, hsteps, hshort, hexact⟩ := ih _ _ _ h
        refine ⟨j + 1, by omega, ?_, fun hlt2 => hshort (by omega), ?_⟩
        · rw [hsteps]; simp only [Nat.cast_add, Nat.cast_one]; ring
        · simp only [fastLoop, if_pos hlt, hex]
          exact hexact
    · simp only [fastLoop, if_neg hlt, Outcome.ok.injEq, Prod.mk.injEq] at h
      obtain ⟨⟨rfl, rfl⟩, rfl⟩ := h
      exact ⟨0, by omega, by simp, fun _ => not_lt.1 hlt, rfl⟩

theorem ensureCompiled_ok_withCode (s s1 : Interpreter) (h : ensureCompiled s = .ok () s1) :
    s1 = withCode s s1.compiledProgram := by
  unfold ensureCompiled at h
  split_ifs at h with hc
  · cases hcomp : compileProgram s with
    | thrown e s2 => rw [hcomp] at h; exact Outcome.noConfusion h
    | ok code s2 =>
      rw [hcomp] at h
      simp only [Outcome.andThen, Outcome.ok.injEq, true_and] at h
      subst h
      obtain ⟨-, -, -, rfl⟩ := (compileProgram_ok_iff s code s2).1 hcomp
      rfl
  · simp only [Outcome.ok.injEq, true_and] at h
    subst h
    rfl

theorem mapVm_mapVm {α : Type} (o : Outcome α) (f g : Interpreter → Interpreter) :
    (o.mapVm f).mapVm g = o.mapVm fun t => g (f t) := by
  cases o <;> rfl

theorem compileProgram_relocate (s : Interpreter) (p k q : Int) :
    compileProgram (withPc (withCursor s p k) q) =
      (compileProgram s).mapVm fun t => withPc (withCursor t p k) q := by
  have hprog : (withPc (withCursor s p k) q).program = s.program := rfl
  have hsyn : checkProgramSyntax (withPc (withCursor s p k) q) = checkProgramSyntax s := rfl
  unfold compileProgram
  rw [hprog, hsyn]
  by_cases hnil : s.program = []
  · simp only [if_pos hnil, Outcome.mapVm]
  · simp only [if_neg hnil]
    by_cases herr : checkProgramSyntax s ≠ []
    · simp only [if_pos herr, Outcome.mapVm]
    · simp only [if_neg herr]
      cases compileLoop s.program.length s.program [] [] with
      | ok code => rfl
      | error r => rfl

theorem runProgramFast_relocate (s : Interpreter) (maxSteps p k q : Int) :
    runProgramFast (withPc (withCursor s p k) q) maxSteps =
      (runProgramFast s maxSteps).mapVm fun t => withPc (withCursor t p k) q := by
  have hloop : ∀ s1 : Interpreter,
      fastLoop maxSteps.toNat 0 0 (withPc (withCursor s1 p k) q) =
        (fastLoop maxSteps.toNat 0 0 s1).mapVm fun t => withPc (withCursor t p k) q := by
    intro s1
    rw [fastLoop_withPc, fastLoop_withCursor, mapVm_mapVm]
  have hens : ensureCompiled (withPc (withCursor s p k) q) =
      (ensureCompiled s).mapVm fun t => withPc (withCursor t p k) q := by
    have hcode : (withPc (withCursor s p k) q).compiledProgram = s.compiledProgram := rfl
    unfold ensureCompiled
    rw [hcode, compileProgram_relocate]
    by_cases hc : s.compiledProgram = []
    · simp only [if_pos hc]
      cases compileProgram s <;> rfl
    · simp only [if_neg hc, Outcome.mapVm]
  unfold runProgramFast
  rw [hens]
  cases ensureCompiled s with
  | thrown e s1 => rfl
  | ok u s1 =>
    simp only [Outcome.mapVm, Outcome.andThen]
    rw [hloop]
    cases fastLoop maxSteps.toNat 0 0 s1 <;> rfl

/-- C19: a call `runProgramFastInterruptible(stepsPerChunk, maxSteps)` with
`stepsPerChunk ≥ 0` that does not raise runs its slice from the stored cursor, which
executes some number of instructions, at most `stepsPerChunk`, and adds that number to
the cumulative step count.  It returns `false` exactly when after the slice the cursor
is at or past the end of the compiled program or the cumulative count has reached
`maxSteps`, and then the cursor is reset (`fastPc = 0`, `fastSteps = 0`) and the running
flag is false.  Otherwise it returns `true`, the state after the slice is kept as it
is, and the number of instructions executed in the call is exactly `stepsPerChunk`. -/
theorem runProgramFastInterruptible_returns (s : Interpreter) (stepsPerChunk maxSteps : Int)
    (hchunk : 0 ≤ stepsPerChunk)
    (hok : (runProgramFastInterruptible s stepsPerChunk maxSteps).failed = false) :
    ∃ (s1 s2 : Interpreter) (executed : Nat) (r : Bool) (t : Interpreter),
      ensureCompiled s = .ok () s1 ∧
        chunkLoop maxSteps stepsPerChunk.toNat s1 = .ok () s2 ∧
        chunkLoop maxSteps executed s1 = .ok () s2 ∧
        s2.fastSteps = s.fastSteps + executed ∧ (executed : Int) ≤ stepsPerChunk ∧
        runProgramFastInterruptible s stepsPerChunk maxSteps = .ok r t ∧
        (r = false ↔
          ((s2.compiledProgram.length : Int) ≤ s2.fastPc ∨ maxSteps ≤ s2.fastSteps)) ∧
        (r = false →
          t = { s2 with running := false, fastPc := 0, fastSteps := 0 } ∧
            t.fastPc = 0 ∧ t.fastSteps = 0 ∧ t.running = false) ∧
        (r = true →
          t = s2 ∧ (executed : Int) = stepsPerChunk ∧
            t.fastSteps = s.fastSteps + stepsPerChunk) := by
  cases hens : ensureCompiled s with
  | thrown e s1 =>
    simp [runProgramFastInterruptible, hens, Outcome.andThen, Outcome.failed] at hok
  | ok u s1 =>
    cases hloop : chunkLoop maxSteps stepsPerChunk.toNat s1 with
    | thrown e s2 =>
      simp [runProgramFastInterruptible, hens, hloop, Outcome.andThen, Outcome.failed] at hok
    | ok u2 s2 =>
      obtain ⟨j, hj, hsteps, -, hshort, hexact⟩ := chunkLoop_steps _ _ _ _ hloop
      obtain ⟨-, -, hst0⟩ := ensureCompiled_ok s s1 hens
      have hjle : (j : Int) ≤ stepsPerChunk := by omega
      have hsteps2 : s2.fastSteps = s.fastSteps + j := by rw [hsteps, hst0]
      by_cases hcond : (s2.compiledProgram.length : Int) ≤ s2.fastPc ∨ maxSteps ≤ s2.fastSteps
      · refine ⟨s1, s2, j, false, { s2 with running := false, fastPc := 0, fastSteps := 0 },
          rfl, hloop, hexact, hsteps2, hjle, ?_, ?_, ?_, ?_⟩
        · simp only [runProgramFastInterruptible, hens, hloop, Outcome.andThen, ge_iff_le,
            if_pos hcond]
        · exact ⟨fun _ => hcond, fun _ => rfl⟩
        · intro _; exact ⟨rfl, rfl, rfl, rfl⟩
        · intro h; exact Bool.noConfusion h
      · have hjeq : (j : Int) = stepsPerChunk := by
          by_contra hne
          exact hcond (hshort (by omega))
        refine ⟨s1, s2, j, true, s2, rfl, hloop, hexact, hsteps2, hjle, ?_, ?_, ?_, ?_⟩
        · simp only [runProgramFastInterruptible, hens, hloop, Outcome.andThen, ge_iff_le,
            if_neg hcond]
        · exact ⟨fun h => Bool.noConfusion h, fun h => absurd h hcond⟩
        · intro h; exact Bool.noConfusion h
        · intro _; exact ⟨rfl, hjeq, by rw [hsteps2, hjeq]⟩

/-- C19 on the text `+[-]` with chunks of 2 instructions and budget 100: the first call
does not raise. -/
theorem runProgramFastInterruptible_returns_witness :
    ∃ (s1 s2 : Interpreter) (executed : Nat) (r : Bool) (t : Interpreter),
      ensureCompiled countdownVM = .ok () s1 ∧
        chunkLoop 100 (2 : Int).toNat s1 = .ok () s2 ∧
        chunkLoop 100 executed s1 = .ok () s2 ∧
        s2.fastSteps = countdownVM.fastSteps + executed ∧ (executed : Int) ≤ 2 ∧
        runProgramFastInterruptible countdownVM 2 100 = .ok r t ∧
        (r = false ↔
          ((s2.compiledProgram.length : Int) ≤ s2.fastPc ∨ (100 : Int) ≤ s2.fastSteps)) ∧
        (r = false →
          t = { s2 with running := false, fastPc := 0, fastSteps := 0 } ∧
            t.fastPc = 0 ∧ t.fastSteps = 0 ∧ t.running = false) ∧
        (r = true →
          t = s2 ∧ (executed : Int) = 2 ∧ t.fastSteps = countdownVM.fastSteps + 2) :=
  runProgramFastInterruptible_returns countdownVM 2 100 (by decide) (by decide)

/-- C20: a call `runProgramFast(maxSteps)` with `maxSteps ≥ 0` that does not raise runs
the compiled program from position 0 with the step count 0, whatever cursors earlier
runs left behind; the value returned is the number of compiled instructions executed;
it is at most `maxSteps`; it is smaller than `maxSteps` only if the position ran past
the last compiled instruction; the running flag is false afterwards; and with
`maxSteps = 0` the value is 0 and tape, pointer and output are as before the call. -/
theorem runProgramFast_returns (s : Interpreter) (maxSteps : Int) (hmax : 0 ≤ maxSteps)
    (hok : (runProgramFast s maxSteps).failed = false) :
    ∃ (s1 s2 : Interpreter) (pc : Int) (executed : Nat),
      ensureCompiled s = .ok () s1 ∧
        fastLoop maxSteps.toNat 0 0 s1 = .ok (pc, (executed : Int)) s2 ∧
        fastLoop executed 0 0 s1 = .ok (pc, (executed : Int)) s2 ∧
        runProgramFast s maxSteps = .ok (executed : Int) { s2 with running := false } ∧
        (runProgramFast s maxSteps).vm.running = false ∧
        (executed : Int) ≤ maxSteps ∧
        ((executed : Int) < maxSteps → (s2.compiledProgram.length : Int) ≤ pc) ∧
        (maxSteps = 0 →
          executed = 0 ∧ s2.memory = s.memory ∧ s2.pointer = s.pointer ∧
            s2.outputBuffer = s.outputBuffer) ∧
        (∀ p k q : Int, runProgramFast (withPc (withCursor s p k) q) maxSteps =
          (runProgramFast s maxSteps).mapVm fun t => withPc (withCursor t p k) q) := by
  cases hens : ensureCompiled s with
  | thrown e s1 =>
    simp [runProgramFast, hens, Outcome.andThen, Outcome.failed] at hok
  | ok u s1 =>
    cases hloop : fastLoop maxSteps.toNat 0 0 s1 with
    | thrown e s2 =>
      simp [runProgramFast, hens, hloop, Outcome.andThen, Outcome.failed] at hok
    | ok r s2 =>
      obtain ⟨pc, st⟩ := r
      obtain ⟨j, hj, hsteps, hshort, hexact⟩ := fastLoop_exact _ _ _ _ _ _ _ hloop
      have hst : st = (j : Int) := by rw [hsteps]; simp
      subst hst
      have hrun : runProgramFast s maxSteps = .ok (j : Int) { s2 with running := false } := by
        simp only [runProgramFast, hens, hloop, Outcome.andThen]
      refine ⟨s1, s2, pc, j, rfl, hloop, hexact, hrun, by rw [hrun]; rfl, by omega,
        fun hlt => hshort (by omega), ?_, fun p k q => runProgramFast_relocate s maxSteps p k q⟩
      intro h0
      subst h0
      simp only [Int.toNat_zero, fastLoop, Outcome.ok.injEq, Prod.mk.injEq] at hloop
      obtain ⟨⟨-, hj0⟩, rfl⟩ := hloop
      have hcode := ensureCompiled_ok_withCode s s1 hens
      refine ⟨by exact_mod_cast hj0.symm, ?_, ?_, ?_⟩
      · rw [hcode]; rfl
      · rw [hcode]; rfl
      · rw [hcode]; rfl

/-- C20 on the text `+[-]` with budget 100: the call does not raise. -/
theorem runProgramFast_returns_witness :
    ∃ (s1 s2 : Interpreter) (pc : Int) (executed : Nat),
      ensureCompiled countdownVM = .ok () s1 ∧
        fastLoop (100 : Int).toNat 0 0 s1 = .ok (pc, (executed : Int)) s2 ∧
        fastLoop executed 0 0 s1 = .ok (pc, (executed : Int)) s2 ∧
        runProgramFast countdownVM 100 = .ok (executed : Int) { s2 with running := false } ∧
        (runProgramFast countdownVM 100).vm.running = false ∧
        (executed : Int) ≤ 100 ∧
        ((executed : Int) < 100 → (s2.compiledProgram.length : Int) ≤ pc) ∧
        ((100 : Int) = 0 →
          executed = 0 ∧ s2.memory = countdownVM.memory ∧ s2.pointer = countdownVM.pointer ∧
            s2.outputBuffer = countdownVM.outputBuffer) ∧
        (∀ p k q : Int, runProgramFast (withPc (withCursor countdownVM p k) q) 100 =
          (runProgramFast countdownVM 100).mapVm fun t => withPc (withCursor t p k) q) :=
  runProgramFast_returns countdownVM 100 (by decide) (by decide)

/-! ### Reset, load, and the running flag of the single-step interpreter -/

/-- C25: `reset` returns every VM state to the initial configuration: pointer 0, a tape
of exactly `memorySize` cells all 0, empty program text, output log, input queue and
compiled program, `pc = 0`, chunk cursor `fastPc = 0` and `fastSteps = 0`, running flag
false; the capacity and both policies (and the input callback) are those before the
call. -/
theorem reset_initial_configuration (s : Interpreter) :
    (reset s).pointer = 0 ∧ (reset s).memory = List.replicate s.memorySize.toNat 0 ∧
      ((reset s).memory.length : Int) = max s.memorySize 0 ∧
      (∀ v ∈ (reset s).memory, v = 0) ∧
      (reset s).program = [] ∧ (reset s).outputBuffer = [] ∧ (reset s).inputBuffer = [] ∧
      (reset s).compiledProgram = [] ∧ (reset s).pc = 0 ∧ (reset s).fastPc = 0 ∧
      (reset s).fastSteps = 0 ∧ (reset s).running = false ∧
      (reset s).memorySize = s.memorySize ∧ (reset s).pointerBehavior = s.pointerBehavior ∧
      (reset s).cellBehavior = s.cellBehavior ∧ (reset s).inputCallback = s.inputCallback := by
  refine ⟨rfl, rfl, ?_, ?_, rfl, rfl, rfl, rfl, rfl, rfl, rfl, rfl, rfl, rfl, rfl, rfl⟩
  · simp only [reset, List.length_replicate]
    exact Int.toNat_eq_max s.memorySize
  · intro v hv
    simp only [reset] at hv
    exact List.eq_of_mem_replicate hv

/-- C26: `loadProgram(program, input)` installs the program text, sets `pc` to 0,
empties the output log, replaces the input queue by the character values of the input
in order, sets the running flag and empties the compiled program; the tape, the
pointer, the chunk cursor, the capacity and both policies (and the input callback) are
those before the call. -/
theorem loadProgram_installs (s : Interpreter) (program : List Char) (inputData : List Int) :
    (loadProgram s program inputData).program = program ∧
      (loadProgram s program inputData).pc = 0 ∧
      (loadProgram s program inputData).outputBuffer = [] ∧
      (loadProgram s program inputData).inputBuffer = inputData ∧
      (loadProgram s program inputData).running = true ∧
      (loadProgram s program inputData).compiledProgram = [] ∧
      (loadProgram s program inputData).memory = s.memory ∧
      (loadProgram s program inputData).pointer = s.pointer ∧
      (loadProgram s program inputData).fastPc = s.fastPc ∧
      (loadProgram s program inputData).fastSteps = s.fastSteps ∧
      (loadProgram s program inputData).memorySize = s.memorySize ∧
      (loadProgram s program inputData).pointerBehavior = s.pointerBehavior ∧
      (loadProgram s program inputData).cellBehavior = s.cellBehavior ∧
      (loadProgram s program inputData).inputCallback = s.inputCallback ∧
      (∀ code, ensureCompiled (loadProgram s program inputData) = .ok () code →
        ∃ c, compileProgram (loadProgram s program inputData) = .ok c code) :=
  ⟨rfl, rfl, rfl, rfl, rfl, rfl, rfl, rfl, rfl, rfl, rfl, rfl, rfl, rfl, by
    intro t h
    have hnil : (loadProgram s program inputData).compiledProgram = [] := rfl
    simp only [ensureCompiled, if_pos hnil] at h
    cases hc : compileProgram (loadProgram s program inputData) with
    | thrown e s2 => rw [hc] at h; exact Outcome.noConfusion h
    | ok c s2 =>
      rw [hc] at h
      simp only [Outcome.andThen, Outcome.ok.injEq, true_and] at h
      exact ⟨c, by rw [h]⟩⟩

/-! ### The shape of one instruction in each executor -/

theorem scanForward_bounds (cs : List Char) (d : Nat) (pc pc1 : Int)
    (h : scanForward cs d pc = some pc1) : pc ≤ pc1 ∧ pc1 < pc + cs.length := by
  induction cs generalizing d pc with
  | nil => exact Option.noConfusion h
  | cons c cs ih =>
    simp only [scanForward] at h
    simp only [List.length_cons, Nat.cast_add, Nat.cast_one]
    generalize (if c = '[' then d + 1 else if c = ']' then d - 1 else d) = d1 at h
    by_cases hd : d1 > 0
    · rw [if_pos hd] at h
      obtain ⟨h1, h2⟩ := ih _ _ h
      omega
    · rw [if_neg hd] at h
      simp only [Option.some.injEq] at h
      omega

theorem scanBackward_bounds (cs : List Char) (d : Nat) (pc pc1 : Int)
    (h : scanBackward cs d pc = some pc1) : pc1 ≤ pc ∧ pc - cs.length < pc1 := by
  induction cs generalizing d pc with
  | nil => exact Option.noConfusion h
  | cons c cs ih =>
    simp only [scanBackward] at h
    simp only [List.length_cons, Nat.cast_add, Nat.cast_one]
    generalize (if c = ']' then d + 1 else if c = '[' then d - 1 else d) = d1 at h
    by_cases hd : d1 > 0
    · rw [if_pos hd] at h
      obtain ⟨h1, h2⟩ := ih _ _ h
      omega
    · rw [if_neg hd] at h
      simp only [Option.some.injEq] at h
      omega

/-- A `step()` call that passes the entry guard executes one instruction body and then
`pc++`, or jumps to a bracket found by the scan and then `pc++`, or fails in the scan,
leaving `pc` where the scan ran off the text. -/
theorem step_shape (s : Interpreter)
    (hcond : ¬(s.running = false ∨ s.pc ≥ (s.program.length : Int))) :
    (∃ o, Primitive s o ∧ step s = o.andThen fun _ s1 => stepDone s1) ∨
      (∃ pc1, (0 ≤ s.pc → 0 ≤ pc1 ∧ pc1 < (s.program.length : Int)) ∧
        step s = stepDone { s with pc := pc1 }) ∨
      step s = .thrown .unmatchedOpen { s with pc := s.program.length } ∨
      step s = .thrown .unmatchedClose { s with pc := -1 } := by
  have hlt : s.pc < (s.program.length : Int) := by
    by_contra h
    exact hcond (Or.inr (not_lt.1 h))
  simp only [step, if_neg hcond]
  generalize charAt s.program s.pc = ch
  by_cases c1 : ch = '>'
  · simp only [if_pos c1]
    exact Or.inl ⟨_, Or.inl ⟨1, rfl⟩, rfl⟩
  by_cases c2 : ch = '<'
  · simp only [if_neg c1, if_pos c2]
    exact Or.inl ⟨_, Or.inl ⟨-1, rfl⟩, rfl⟩
  by_cases c3 : ch = '+'
  · simp only [if_neg c1, if_neg c2, if_pos c3]
    exact Or.inl ⟨_, Or.inr (Or.inl ⟨1, rfl⟩), rfl⟩
  by_cases c4 : ch = '-'
  · simp only [if_neg c1, if_neg c2, if_neg c3, if_pos c4]
    exact Or.inl ⟨_, Or.inr (Or.inl ⟨-1, rfl⟩), rfl⟩
  by_cases c5 : ch = '.'
  · simp only [if_neg c1, if_neg c2, if_neg c3, if_neg c4, if_pos c5]
    exact Or.inl ⟨_, Or.inr (Or.inr (Or.inl rfl)), rfl⟩
  by_cases c6 : ch = ','
  · simp only [if_neg c1, if_neg c2, if_neg c3, if_neg c4, if_neg c5, if_pos c6]
    exact Or.inl ⟨_, Or.inr (Or.inr (Or.inr (Or.inl rfl))), rfl⟩
  have hnone : (∃ o, Primitive s o ∧ stepDone s = o.andThen fun _ s1 => stepDone s1) :=
    ⟨_, Or.inr (Or.inr (Or.inr (Or.inr rfl))), rfl⟩
  by_cases c7 : ch = '['
  · simp only [if_neg c1, if_neg c2, if_neg c3, if_neg c4, if_neg c5, if_neg c6, if_pos c7]
    by_cases hz : cell s = 0
    · simp only [if_pos hz]
      cases hscan : scanForward (List.drop (s.pc + 1).toNat s.program) 1 (s.pc + 1) with
      | none => exact Or.inr (Or.inr (Or.inl rfl))
      | some pc1 =>
        refine Or.inr (Or.inl ⟨pc1, ?_, rfl⟩)
        intro hpc
        obtain ⟨h1, h2⟩ := scanForward_bounds _ _ _ _ hscan
        simp only [List.length_drop] at h2
        omega
    · simp only [if_neg hz]
      exact Or.inl hnone
  by_cases c8 : ch = ']'
  · simp only [if_neg c1, if_neg c2, if_neg c3, if_neg c4, if_neg c5, if_neg c6, if_neg c7,
      if_pos c8]
    by_cases hz : cell s ≠ 0
    · simp only [if_pos hz]
      cases hscan : scanBackward (List.take s.pc.toNat s.program).reverse 1 (s.pc - 1) with
      | none => exact Or.inr (Or.inr (Or.inr rfl))
      | some pc1 =>
        refine Or.inr (Or.inl ⟨pc1, ?_, rfl⟩)
        intro hpc
        obtain ⟨h1, h2⟩ := scanBackward_bounds _ _ _ _ hscan
        simp only [List.length_reverse, List.length_take] at h2
        omega
    · simp only [if_neg hz]
      exact Or.inl hnone
  · simp only [if_neg c1, if_neg c2, if_neg c3, if_neg c4, if_neg c5, if_neg c6, if_neg c7,
      if_neg c8]
    exact Or.inl hnone

/-- A compiled instruction executes one instruction body and yields a position. -/
theorem execInstr_shape (s : Interpreter) (pc : Int) (i : Instr) :
    ∃ o pc1, Primitive s o ∧ execInstr s pc i = o.andThen fun _ s1 => .ok pc1 s1 := by
  have hnone : ∀ p : Int, ∃ o pc1, Primitive s o ∧
      Outcome.ok p s = o.andThen fun _ s1 => .ok pc1 s1 :=
    fun p => ⟨_, p, Or.inr (Or.inr (Or.inr (Or.inr rfl))), rfl⟩
  unfold execInstr
  simp only
  by_cases c1 : i.1 = '>'
  · rw [if_pos c1]; exact ⟨_, pc, Or.inl ⟨_, rfl⟩, rfl⟩
  by_cases c2 : i.1 = '<'
  · rw [if_neg c1, if_pos c2]; exact ⟨_, pc, Or.inl ⟨_, rfl⟩, rfl⟩
  by_cases c3 : i.1 = '+'
  · rw [if_neg c1, if_neg c2, if_pos c3]; exact ⟨_, pc, Or.inr (Or.inl ⟨_, rfl⟩), rfl⟩
  by_cases c4 : i.1 = '-'
  · rw [if_neg c1, if_neg c2, if_neg c3, if_pos c4]
    exact ⟨_, pc, Or.inr (Or.inl ⟨_, rfl⟩), rfl⟩
  by_cases c5 : i.1 = '.'
  · rw [if_neg c1, if_neg c2, if_neg c3, if_neg c4, if_pos c5]
    exact ⟨_, pc, Or.inr (Or.inr (Or.inl rfl)), rfl⟩
  by_cases c6 : i.1 = ','
  · rw [if_neg c1, if_neg c2, if_neg c3, if_neg c4, if_neg c5, if_pos c6]
    exact ⟨_, pc, Or.inr (Or.inr (Or.inr (Or.inl rfl))), rfl⟩
  rw [if_neg c1, if_neg c2, if_neg c3, if_neg c4, if_neg c5, if_neg c6]
  split_ifs
  · exact hnone i.2
  · exact hnone pc
  · exact hnone i.2
  · exact hnone pc
  · exact hnone pc

theorem primitive_frame (s : Interpreter) (o : Outcome Unit) (h : Primitive s o) :
    Frame s o.vm := by
  rcases h with ⟨d, rfl⟩ | ⟨d, rfl⟩ | rfl | rfl | rfl
  · exact movePointer_frame s d
  · exact modifyCell_frame s d
  · exact outputCell_frame s
  · exact inputCell_frame s
  · exact Frame.refl s

theorem primitive_wellFormed (s : Interpreter) (o : Outcome Unit) (h : Primitive s o)
    (hwf : WellFormed s) : WellFormed o.vm := by
  rcases h with ⟨d, rfl⟩ | ⟨d, rfl⟩ | rfl | rfl | rfl
  · exact movePointer_wellFormed s d hwf
  · exact modifyCell_wellFormed s d hwf
  · exact outputCell_wellFormed s hwf
  · obtain ⟨hm, hp, hsz⟩ : (inputCell s).vm.memory.length = s.memory.length ∧
        (inputCell s).vm.pointer = s.pointer ∧ (inputCell s).vm.memorySize = s.memorySize := by
      rcases inputCell_cases s with ⟨v, rest, -, -, heq⟩ | ⟨cb, v, rest, -, -, -, -, heq⟩ |
        ⟨cb, -, -, -, -, heq⟩ | ⟨-, -, -, heq⟩
      · rw [heq]; unfold storeFront; simp only; split_ifs <;> simp [Outcome.vm, setCell]
      · rw [heq]; unfold storeFront; simp only; split_ifs <;> simp [Outcome.vm, setCell]
      · rw [heq]; simp [Outcome.vm, setCell]
      · rw [heq]; simp [Outcome.vm, setCell]
    obtain ⟨hC, hlen, hp0, hp1⟩ := hwf
    exact ⟨by rw [hsz]; exact hC, by rw [hm, hsz]; exact hlen, by rw [hp]; exact hp0,
      by rw [hp, hsz]; exact hp1⟩
  · exact hwf

theorem movePointer_thrown (s : Interpreter) (d : Int) (e : Error) (t : Interpreter)
    (h : movePointer s d = .thrown e t) :
    e.isPointerOverflowError = true ∧ t = s ∧ ∀ v, e ≠ .inputOutOfRange v := by
  unfold movePointer at h
  simp only at h
  split at h
  · exact Outcome.noConfusion h
  · exact Outcome.noConfusion h
  · split_ifs at h
    · simp only [Outcome.thrown.injEq] at h
      obtain ⟨rfl, rfl⟩ := h
      exact ⟨rfl, rfl, fun v hv => Error.noConfusion hv⟩
    · simp only [Outcome.thrown.injEq] at h
      obtain ⟨rfl, rfl⟩ := h
      exact ⟨rfl, rfl, fun v hv => Error.noConfusion hv⟩

theorem modifyCell_thrown (s : Interpreter) (d : Int) (e : Error) (t : Interpreter)
    (h : modifyCell s d = .thrown e t) :
    e.isCellOverflowError = true ∧ t = s ∧ ∀ v, e ≠ .inputOutOfRange v := by
  unfold modifyCell at h
  simp only at h
  split at h
  · exact Outcome.noConfusion h
  · exact Outcome.noConfusion h
  · split_ifs at h
    · simp only [Outcome.thrown.injEq] at h
      obtain ⟨rfl, rfl⟩ := h
      exact ⟨rfl, rfl, fun v hv => Error.noConfusion hv⟩
    · simp only [Outcome.thrown.injEq] at h
      obtain ⟨rfl, rfl⟩ := h
      exact ⟨rfl, rfl, fun v hv => Error.noConfusion hv⟩

theorem storeFront_thrown (s : Interpreter) (v : Int) (rest : List Int) (e : Error)
    (t : Interpreter) (h : storeFront s v rest = .thrown e t) :
    e = .inputOutOfRange v ∧ t = { s with inputBuffer := rest } ∧
      s.cellBehavior = .ERROR ∧ (v < 0 ∨ v > 255) := by
  unfold storeFront at h
  simp only at h
  split_ifs at h with hc
  simp only [Outcome.thrown.injEq] at h
  obtain ⟨rfl, rfl⟩ := h
  exact ⟨rfl, rfl, hc.1, hc.2⟩

/-- A failing `,` is the refusal of the value it took out of the input. -/
theorem inputCell_thrown (s : Interpreter) (e : Error) (t : Interpreter)
    (h : inputCell s = .thrown e t) :
    ∃ v, e = .inputOutOfRange v ∧ nextInput s = some v ∧ InputConsumed s t v ∧
      s.cellBehavior = .ERROR ∧ (v < 0 ∨ v > 255) := by
  rcases inputCell_cases s with ⟨v, rest, hq, hn, heq⟩ | ⟨cb, v, rest, hq, hcb, hreply, hn, heq⟩ |
    ⟨cb, -, -, -, -, heq⟩ | ⟨-, -, -, heq⟩
  · rw [heq] at h
    obtain ⟨rfl, rfl, hb, hv⟩ := storeFront_thrown s v rest e t h
    exact ⟨v, rfl, hn, Or.inl ⟨hq, rfl⟩, hb, hv⟩
  · rw [heq] at h
    obtain ⟨rfl, rfl, hb, hv⟩ := storeFront_thrown _ v rest e t h
    exact ⟨v, rfl, hn, Or.inr ⟨cb, hq, hcb, hreply, rfl⟩, hb, hv⟩
  · rw [heq] at h; exact Outcome.noConfusion h
  · rw [heq] at h; exact Outcome.noConfusion h

/-- An instruction body fails only with a pointer or cell overflow, and then leaves the
state it started from, but for the input value a failing `,` has taken. -/
theorem primitive_thrown (s : Interpreter) (o : Outcome Unit) (h : Primitive s o) (e : Error)
    (t : Interpreter) (ht : o = .thrown e t) :
    (e.isPointerOverflowError = true ∨ e.isCellOverflowError = true) ∧ AbortedAt s e t := by
  rcases h with ⟨d, rfl⟩ | ⟨d, rfl⟩ | rfl | rfl | rfl
  · obtain ⟨he, rfl, hne⟩ := movePointer_thrown s d e t ht
    exact ⟨Or.inl he, fun v hv => absurd hv (hne v), fun _ => rfl⟩
  · obtain ⟨he, rfl, hne⟩ := modifyCell_thrown s d e t ht
    exact ⟨Or.inr he, fun v hv => absurd hv (hne v), fun _ => rfl⟩
  · exact Outcome.noConfusion ht
  · obtain ⟨v, rfl, -, hcons, -, -⟩ := inputCell_thrown s e t ht
    refine ⟨Or.inr rfl, ?_, fun hne => absurd rfl (hne v)⟩
    intro v1 hv1
    simp only [Error.inputOutOfRange.injEq] at hv1
    rw [← hv1]
    exact hcons
  · exact Outcome.noConfusion ht

/-- What `AbortedAt` keeps: everything but the input queue and the callback. -/
theorem AbortedAt.keeps {s t : Interpreter} {e : Error} (h : AbortedAt s e t) :
    t = { s with inputBuffer := t.inputBuffer, inputCallback := t.inputCallback } := by
  have hcons : ∀ v, InputConsumed s t v →
      t = { s with inputBuffer := t.inputBuffer, inputCallback := t.inputCallback } := by
    intro v hv
    rcases hv with ⟨-, ht⟩ | ⟨cb, -, -, -, ht⟩
    · rw [ht]
    · rw [ht]
  have hsame : (∀ v, e ≠ .inputOutOfRange v) →
      t = { s with inputBuffer := t.inputBuffer, inputCallback := t.inputCallback } := by
    intro hne
    rw [h.2 hne]
  cases e with
  | inputOutOfRange v => exact hcons v (h.1 v rfl)
  | pointerUnderflow n => exact hsame fun v hv => Error.noConfusion hv
  | pointerOverflow n => exact hsame fun v hv => Error.noConfusion hv
  | cellUnderflow p n => exact hsame fun v hv => Error.noConfusion hv
  | cellOverflow p n => exact hsame fun v hv => Error.noConfusion hv
  | noProgram => exact hsame fun v hv => Error.noConfusion hv
  | syntaxErrors l => exact hsame fun v hv => Error.noConfusion hv
  | unmatchedClose => exact hsame fun v hv => Error.noConfusion hv
  | unmatchedOpen => exact hsame fun v hv => Error.noConfusion hv

theorem execInstr_thrown (s : Interpreter) (pc : Int) (i : Instr) (e : Error) (t : Interpreter)
    (h : execInstr s pc i = .thrown e t) :
    (e.isPointerOverflowError = true ∨ e.isCellOverflowError = true) ∧ AbortedAt s e t := by
  obtain ⟨o, pc1, hprim, heq⟩ := execInstr_shape s pc i
  rw [heq] at h
  cases o with
  | ok u s1 => exact Outcome.noConfusion h
  | thrown e1 t1 =>
    simp only [Outcome.andThen, Outcome.thrown.injEq] at h
    obtain ⟨rfl, rfl⟩ := h
    exact primitive_thrown s _ hprim _ _ rfl

/-- A failing `step()` call: a pointer or cell overflow of the instruction at `pc`, or
an unmatched bracket found by the scan, which has moved `pc` off the text. -/
theorem step_thrown (s : Interpreter) (e : Error) (t : Interpreter)
    (h : step s = .thrown e t) :
    s.running = true ∧ s.pc < (s.program.length : Int) ∧
      (((e.isPointerOverflowError = true ∨ e.isCellOverflowError = true) ∧ AbortedAt s e t) ∨
        (e = .unmatchedOpen ∧ t = { s with pc := s.program.length }) ∨
        (e = .unmatchedClose ∧ t = { s with pc := -1 })) := by
  by_cases hcond : s.running = false ∨ s.pc ≥ (s.program.length : Int)
  · simp only [step, if_pos hcond] at h
    exact Outcome.noConfusion h
  have hrun : s.running = true := by
    cases hr : s.running with
    | true => rfl
    | false => exact absurd (Or.inl hr) hcond
  have hlt : s.pc < (s.program.length : Int) := by
    by_contra hge
    exact hcond (Or.inr (not_lt.1 hge))
  refine ⟨hrun, hlt, ?_⟩
  rcases step_shape s hcond with ⟨o, hprim, heq⟩ | ⟨pc1, -, heq⟩ | heq | heq
  · rw [heq] at h
    cases o with
    | ok u s1 => exact Outcome.noConfusion h
    | thrown e1 t1 =>
      simp only [Outcome.andThen, Outcome.thrown.injEq] at h
      obtain ⟨rfl, rfl⟩ := h
      exact Or.inl (primitive_thrown s _ hprim _ _ rfl)
  · rw [heq] at h; exact Outcome.noConfusion h
  · rw [heq] at h
    simp only [Outcome.thrown.injEq] at h
    obtain ⟨rfl, rfl⟩ := h
    exact Or.inr (Or.inl ⟨rfl, rfl⟩)
  · rw [heq] at h
    simp only [Outcome.thrown.injEq] at h
    obtain ⟨rfl, rfl⟩ := h
    exact Or.inr (Or.inr ⟨rfl, rfl⟩)

/-! ### Where a failing run stops -/

/-- A failing bulk loop has executed some number `j` of instructions successfully and
fails in the next one. -/
theorem fastLoop_thrown (b : Nat) (pc st : Int) (s : Interpreter) (e : Error) (t : Interpreter)
    (h : fastLoop b pc st s = .thrown e t) :
    ∃ (j : Nat) (pcj : Int) (sj : Interpreter), j < b ∧
      fastLoop j pc st s = .ok (pcj, st + j) sj ∧
      pcj < (sj.compiledProgram.length : Int) ∧
      execInstr sj pcj (instrAt sj.compiledProgram pcj) = .thrown e t := by
  induction b generalizing pc st s with
  | zero => exact Outcome.noConfusion h
  | succ b ih =>
    by_cases hlt : pc < (s.compiledProgram.length : Int)
    · simp only [fastLoop, if_pos hlt] at h
      cases hex : execInstr s pc (instrAt s.compiledProgram pc) with
      | thrown e1 t1 =>
        rw [hex] at h
        simp only [Outcome.thrown.injEq] at h
        obtain ⟨rfl, rfl⟩ := h
        exact ⟨0, pc, s, by omega, by simp [fastLoop], hlt, hex⟩
      | ok pc2 s2 =>
        rw [hex] at h
        simp only at h
        obtain ⟨j, pcj, sj, hj, hrun, hin, hfail⟩ := ih _ _ _ h
        refine ⟨j + 1, pcj, sj, by omega, ?_, hin, hfail⟩
        simp only [fastLoop, if_pos hlt, hex]
        rw [hrun]
        simp only [Nat.cast_add, Nat.cast_one, Outcome.ok.injEq, Prod.mk.injEq, true_and,
          and_true]
        ring
    · simp only [fastLoop, if_neg hlt] at h
      exact Outcome.noConfusion h

/-- A failing slice of the chunked runner has executed some number `j` of instructions
successfully and fails in the next one, the cursor standing on it. -/
theorem chunkLoop_thrown (M : Int) (c : Nat) (s : Interpreter) (e : Error) (t : Interpreter)
    (h : chunkLoop M c s = .thrown e t) :
    ∃ (j : Nat) (sj : Interpreter), j < c ∧ chunkLoop M j s = .ok () sj ∧
      sj.fastPc < (sj.compiledProgram.length : Int) ∧ sj.fastSteps < M ∧
      execInstr sj sj.fastPc (instrAt sj.compiledProgram sj.fastPc) = .thrown e t := by
  induction c generalizing s with
  | zero => exact Outcome.noConfusion h
  | succ c ih =>
    by_cases hcond : s.fastPc < (s.compiledProgram.length : Int) ∧ s.fastSteps < M
    · simp only [chunkLoop, if_pos hcond] at h
      cases hex : execInstr s s.fastPc (instrAt s.compiledProgram s.fastPc) with
      | thrown e1 t1 =>
        rw [hex] at h
        simp only [Outcome.thrown.injEq] at h
        obtain ⟨rfl, rfl⟩ := h
        exact ⟨0, s, by omega, rfl, hcond.1, hcond.2, hex⟩
      | ok pc2 s2 =>
        rw [hex] at h
        simp only at h
        obtain ⟨j, sj, hj, hrun, hin, hst, hfail⟩ := ih _ h
        refine ⟨j + 1, sj, by omega, ?_, hin, hst, hfail⟩
        simp only [chunkLoop, if_pos hcond, hex]
        exact hrun
    · simp only [chunkLoop, if_neg hcond] at h
      exact Outcome.noConfusion h

/-- A failing `runUntilEnd` loop has made some number `j` of `step()` calls that
returned `true` and fails in the next one. -/
theorem runLoop_thrown (b : Nat) (st : Int) (s : Interpreter) (e : Error) (t : Interpreter)
    (h : runLoop b st s = .thrown e t) :
    ∃ (j : Nat) (sj : Interpreter), j < b ∧ stepN j s = some sj ∧ step sj = .thrown e t := by
  induction b generalizing st s with
  | zero => exact Outcome.noConfusion h
  | succ b ih =>
    simp only [runLoop] at h
    split_ifs at h with hr
    cases hs : step s with
    | thrown e1 t1 =>
      rw [hs] at h
      simp only [Outcome.thrown.injEq] at h
      obtain ⟨rfl, rfl⟩ := h
      exact ⟨0, s, by omega, rfl, hs⟩
    | ok v s1 =>
      rw [hs] at h
      cases v with
      | false => exact Outcome.noConfusion h
      | true =>
        simp only at h
        obtain ⟨j, sj, hj, hrun, hfail⟩ := ih _ _ h
        refine ⟨j + 1, sj, by omega, ?_, hfail⟩
        simp only [stepN, hs]
        exact hrun

/-- A failing compilation fails with none of the two overflow errors and touches
nothing but the stored compiled program. -/
theorem compileProgram_thrown (s : Interpreter) (e : Error) (t : Interpreter)
    (h : compileProgram s = .thrown e t) :
    e.isPointerOverflowError = false ∧ e.isCellOverflowError = false ∧
      t = withCode s t.compiledProgram := by
  unfold compileProgram at h
  by_cases hnil : s.program = []
  · simp only [if_pos hnil, Outcome.thrown.injEq] at h
    obtain ⟨rfl, rfl⟩ := h
    exact ⟨rfl, rfl, rfl⟩
  · simp only [if_neg hnil] at h
    by_cases herr : checkProgramSyntax s ≠ []
    · simp only [if_pos herr, Outcome.thrown.injEq] at h
      obtain ⟨rfl, rfl⟩ := h
      exact ⟨rfl, rfl, rfl⟩
    · have hsyn : checkProgramSyntax s = [] := not_not.1 herr
      have hwalk := compileProgram_error_walk s hnil hsyn
      simp only [if_neg herr] at h
      have hcp : compileProgram s = .thrown e t := by
        unfold compileProgram
        simp only [if_neg hnil, if_neg herr]
        exact h
      rw [hcp] at hwalk
      simp only [Outcome.error?] at hwalk
      have hkind : e = .unmatchedClose ∨ e = .unmatchedOpen := by
        cases hw : walk s.program 0 with
        | none => rw [hw] at hwalk; simp at hwalk; exact Or.inl hwalk
        | some n =>
          rw [hw] at hwalk
          cases n with
          | zero => simp at hwalk
          | succ n => simp at hwalk; exact Or.inr hwalk
      have ht : t = withCode s t.compiledProgram := by
        cases hl : compileLoop s.program.length s.program [] [] with
        | ok code => rw [hl] at h; exact Outcome.noConfusion h
        | error r =>
          rw [hl] at h
          simp only [Outcome.thrown.injEq] at h
          rw [← h.2]
          rfl
      rcases hkind with rfl | rfl
      · exact ⟨rfl, rfl, ht⟩
      · exact ⟨rfl, rfl, ht⟩

theorem ensureCompiled_thrown (s : Interpreter) (e : Error) (t : Interpreter)
    (h : ensureCompiled s = .thrown e t) :
    e.isPointerOverflowError = false ∧ e.isCellOverflowError = false ∧
      t = withCode s t.compiledProgram := by
  unfold ensureCompiled at h
  split_ifs at h with hc
  cases hcomp : compileProgram s with
  | ok code s1 => rw [hcomp] at h; exact Outcome.noConfusion h
  | thrown e1 t1 =>
    rw [hcomp] at h
    simp only [Outcome.andThen, Outcome.thrown.injEq] at h
    obtain ⟨rfl, rfl⟩ := h
    exact compileProgram_thrown s _ _ hcomp

theorem runUntilEnd_thrown (s : Interpreter) (maxSteps : Int) (e : Error) (t : Interpreter)
    (h : runUntilEnd s maxSteps = .thrown e t) :
    ∃ (j : Nat) (sj : Interpreter), (j : Int) < maxSteps ∧ stepN j s = some sj ∧
      step sj = .thrown e t := by
  obtain ⟨j, sj, hj, hrun, hfail⟩ := runLoop_thrown _ _ _ _ _ h
  exact ⟨j, sj, by omega, hrun, hfail⟩

theorem runProgramFast_thrown (s : Interpreter) (maxSteps : Int) (e : Error) (t : Interpreter)
    (h : runProgramFast s maxSteps = .thrown e t) :
    ensureCompiled s = .thrown e t ∨
      ∃ (s1 : Interpreter) (j : Nat) (pcj : Int) (sj : Interpreter),
        ensureCompiled s = .ok () s1 ∧ (j : Int) < maxSteps ∧
        fastLoop j 0 0 s1 = .ok (pcj, (j : Int)) sj ∧
        pcj < (sj.compiledProgram.length : Int) ∧
        execInstr sj pcj (instrAt sj.compiledProgram pcj) = .thrown e t := by
  unfold runProgramFast at h
  cases hens : ensureCompiled s with
  | thrown e1 t1 =>
    rw [hens] at h
    simp only [Outcome.andThen, Outcome.thrown.injEq] at h
    obtain ⟨rfl, rfl⟩ := h
    exact Or.inl rfl
  | ok u s1 =>
    rw [hens] at h
    simp only [Outcome.andThen] at h
    cases hloop : fastLoop maxSteps.toNat 0 0 s1 with
    | ok r s2 => rw [hloop] at h; exact Outcome.noConfusion h
    | thrown e1 t1 =>
      rw [hloop] at h
      simp only [Outcome.thrown.injEq] at h
      obtain ⟨rfl, rfl⟩ := h
      obtain ⟨j, pcj, sj, hj, hrun, hin, hfail⟩ := fastLoop_thrown _ _ _ _ _ _ hloop
      rw [zero_add] at hrun
      exact Or.inr ⟨s1, j, pcj, sj, rfl, by omega, hrun, hin, hfail⟩

theorem runProgramFastInterruptible_thrown (s : Interpreter) (stepsPerChunk maxSteps : Int)
    (e : Error) (t : Interpreter)
    (h : runProgramFastInterruptible s stepsPerChunk maxSteps = .thrown e t) :
    ensureCompiled s = .thrown e t ∨
      ∃ (s1 : Interpreter) (j : Nat) (sj : Interpreter),
        ensureCompiled s = .ok () s1 ∧ (j : Int) < stepsPerChunk ∧
        chunkLoop maxSteps j s1 = .ok () sj ∧
        sj.fastPc < (sj.compiledProgram.length : Int) ∧ sj.fastSteps < maxSteps ∧
        execInstr sj sj.fastPc (instrAt sj.compiledProgram sj.fastPc) = .thrown e t := by
  unfold runProgramFastInterruptible at h
  cases hens : ensureCompiled s with
  | thrown e1 t1 =>
    rw [hens] at h
    simp only [Outcome.andThen, Outcome.thrown.injEq] at h
    obtain ⟨rfl, rfl⟩ := h
    exact Or.inl rfl
  | ok u s1 =>
    rw [hens] at h
    simp only [Outcome.andThen] at h
    cases hloop : chunkLoop maxSteps stepsPerChunk.toNat s1 with
    | ok r s2 =>
      rw [hloop] at h
      simp only at h
      split_ifs at h
    | thrown e1 t1 =>
      rw [hloop] at h
      simp only [Outcome.thrown.injEq] at h
      obtain ⟨rfl, rfl⟩ := h
      obtain ⟨j, sj, hj, hrun, hin, hst, hfail⟩ := chunkLoop_thrown _ _ _ _ _ hloop
      exact Or.inr ⟨s1, j, sj, rfl, by omega, hrun, hin, hst, hfail⟩

/-! ### The state a failing instruction leaves behind -/

theorem AbortedAt.tape {s t : Interpreter} {e : Error} (h : AbortedAt s e t) :
    t.memory = s.memory ∧ t.pointer = s.pointer ∧ t.outputBuffer = s.outputBuffer ∧
      t.pc = s.pc ∧ t.fastPc = s.fastPc ∧ t.fastSteps = s.fastSteps ∧
      t.running = s.running := by
  have hk := h.keeps
  refine ⟨?_, ?_, ?_, ?_, ?_, ?_, ?_⟩ <;> (rw [hk])

theorem step_overflow (s : Interpreter) (e : Error) (t : Interpreter)
    (he : e.isPointerOverflowError = true ∨ e.isCellOverflowError = true)
    (h : step s = .thrown e t) : AbortedAt s e t := by
  obtain ⟨-, -, hcase | ⟨rfl, -⟩ | ⟨rfl, -⟩⟩ := step_thrown s e t h
  · exact hcase.2
  · rcases he with he | he <;> exact Bool.noConfusion he
  · rcases he with he | he <;> exact Bool.noConfusion he

theorem ensureCompiled_not_overflow (s : Interpreter) (e : Error) (t : Interpreter)
    (he : e.isPointerOverflowError = true ∨ e.isCellOverflowError = true)
    (h : ensureCompiled s = .thrown e t) : False := by
  obtain ⟨h1, h2, -⟩ := ensureCompiled_thrown s e t h
  rcases he with he | he
  · rw [h1] at he; exact Bool.noConfusion he
  · rw [h2] at he; exact Bool.noConfusion he

/-- C21: in each executor, when an instruction fails with a pointer or cell overflow,
the tape and the pointer are those left by the last successfully executed instruction.
For `step` that is the state the call started from; for `runUntilEnd`, `runProgramFast`
and `runProgramFastInterruptible` it is the state `sj` reached by the `j` instructions
that ran before the failing one. -/
theorem failed_instruction_keeps_tape (s : Interpreter) (e : Error) (t : Interpreter)
    (he : e.isPointerOverflowError = true ∨ e.isCellOverflowError = true) :
    (step s = .thrown e t → t.memory = s.memory ∧ t.pointer = s.pointer) ∧
      (∀ maxSteps, runUntilEnd s maxSteps = .thrown e t →
        ∃ (j : Nat) (sj : Interpreter), stepN j s = some sj ∧ step sj = .thrown e t ∧
          t.memory = sj.memory ∧ t.pointer = sj.pointer) ∧
      (∀ maxSteps, runProgramFast s maxSteps = .thrown e t →
        ∃ (s1 : Interpreter) (j : Nat) (pcj : Int) (sj : Interpreter),
          ensureCompiled s = .ok () s1 ∧ fastLoop j 0 0 s1 = .ok (pcj, (j : Int)) sj ∧
          execInstr sj pcj (instrAt sj.compiledProgram pcj) = .thrown e t ∧
          t.memory = sj.memory ∧ t.pointer = sj.pointer) ∧
      (∀ stepsPerChunk maxSteps,
        runProgramFastInterruptible s stepsPerChunk maxSteps = .thrown e t →
        ∃ (s1 : Interpreter) (j : Nat) (sj : Interpreter),
          ensureCompiled s = .ok () s1 ∧ chunkLoop maxSteps j s1 = .ok () sj ∧
          execInstr sj sj.fastPc (instrAt sj.compiledProgram sj.fastPc) = .thrown e t ∧
          t.memory = sj.memory ∧ t.pointer = sj.pointer) := by
  refine ⟨?_, ?_, ?_, ?_⟩
  · intro h
    have ha := (step_overflow s e t he h).tape
    exact ⟨ha.1, ha.2.1⟩
  · intro maxSteps h
    obtain ⟨j, sj, -, hrun, hfail⟩ := runUntilEnd_thrown s maxSteps e t h
    have ha := (step_overflow sj e t he hfail).tape
    exact ⟨j, sj, hrun, hfail, ha.1, ha.2.1⟩
  · intro maxSteps h
    rcases runProgramFast_thrown s maxSteps e t h with hc | ⟨s1, j, pcj, sj, hens, -, hrun, -, hfail⟩
    · exact absurd hc fun hc => ensureCompiled_not_overflow s e t he hc
    · have ha := (execInstr_thrown sj pcj _ e t hfail).2.tape
      exact ⟨s1, j, pcj, sj, hens, hrun, hfail, ha.1, ha.2.1⟩
  · intro stepsPerChunk maxSteps h
    rcases runProgramFastInterruptible_thrown s stepsPerChunk maxSteps e t h with
      hc | ⟨s1, j, sj, hens, -, hrun, -, -, hfail⟩
    · exact absurd hc fun hc => ensureCompiled_not_overflow s e t he hc
    · have ha := (execInstr_thrown sj _ _ e t hfail).2.tape
      exact ⟨s1, j, sj, hens, hrun, hfail, ha.1, ha.2.1⟩

/-- C21 on the text `+<` under the ERROR pointer policy: `runUntilEnd` fails in the `<`
with cell 0 holding the 1 the `+` stored. -/
theorem failed_instruction_keeps_tape_witness :
    ∃ (j : Nat) (sj : Interpreter), stepN j underflowVM = some sj ∧
      step sj = .thrown (.pointerUnderflow (-1)) (runUntilEnd underflowVM 100).vm ∧
      (runUntilEnd underflowVM 100).vm.memory = sj.memory ∧
      (runUntilEnd underflowVM 100).vm.pointer = sj.pointer :=
  (failed_instruction_keeps_tape underflowVM (.pointerUnderflow (-1))
    (runUntilEnd underflowVM 100).vm (Or.inl rfl)).2.1 100 (by decide)

/-- C22, against the claim: under the ERROR cell policy with the input characters of
values -23 and 65 queued, the failing `,` of each executor leaves the queue 65; the
refused value is gone. -/
theorem failed_input_consumes_queue_head :
    refusedByteVM.inputBuffer = [-23, 65] ∧
      (∃ t, step refusedByteVM = .thrown (.inputOutOfRange (-23)) t ∧ t.inputBuffer = [65]) ∧
      (∃ t, runUntilEnd refusedByteVM 100 = .thrown (.inputOutOfRange (-23)) t ∧
        t.inputBuffer = [65]) ∧
      (∃ t, runProgramFast refusedByteVM 100 = .thrown (.inputOutOfRange (-23)) t ∧
        t.inputBuffer = [65]) ∧
      (∃ t, runProgramFastInterruptible refusedByteVM 10 100 =
          .thrown (.inputOutOfRange (-23)) t ∧ t.inputBuffer = [65]) := by
  refine ⟨by decide, ⟨_, rfl, by decide⟩, ⟨_, rfl, by decide⟩, ⟨_, rfl, by decide⟩,
    ⟨_, rfl, by decide⟩⟩

/-- C22, amended: in each executor, when an instruction fails with a pointer or cell
overflow, `sj` being the state after the last successful instruction and `t` the state
left (`AbortedAt sj e t`): if the failure is a `,` refusing the input value `v`, then
`v` has been taken out of the input (it was the head of the queue of `sj` and the queue
of `t` is what followed it; or the queue of `sj` was empty, the callback has been
invoked, `v` was the first character of its text and the rest of the text is the queue
of `t`), and nothing else differs; with every other failure `t = sj`.  In every case
the tape, the pointer, the output log and the cursors `pc`, `fastPc`, `fastSteps` are
those of `sj`. -/
theorem failed_instruction_aborts_in_place (s : Interpreter) (e : Error) (t : Interpreter)
    (he : e.isPointerOverflowError = true ∨ e.isCellOverflowError = true) :
    (step s = .thrown e t →
        AbortedAt s e t ∧ t.outputBuffer = s.outputBuffer ∧ t.pc = s.pc ∧
          t.fastPc = s.fastPc ∧ t.fastSteps = s.fastSteps) ∧
      (∀ maxSteps, runUntilEnd s maxSteps = .thrown e t →
        ∃ (j : Nat) (sj : Interpreter), stepN j s = some sj ∧ step sj = .thrown e t ∧
          AbortedAt sj e t ∧ t.outputBuffer = sj.outputBuffer ∧ t.pc = sj.pc ∧
          t.fastPc = sj.fastPc ∧ t.fastSteps = sj.fastSteps) ∧
      (∀ maxSteps, runProgramFast s maxSteps = .thrown e t →
        ∃ (s1 : Interpreter) (j : Nat) (pcj : Int) (sj : Interpreter),
          ensureCompiled s = .ok () s1 ∧ fastLoop j 0 0 s1 = .ok (pcj, (j : Int)) sj ∧
          execInstr sj pcj (instrAt sj.compiledProgram pcj) = .thrown e t ∧
          AbortedAt sj e t ∧ t.outputBuffer = sj.outputBuffer ∧ t.pc = sj.pc ∧
          t.fastPc = sj.fastPc ∧ t.fastSteps = sj.fastSteps) ∧
      (∀ stepsPerChunk maxSteps,
        runProgramFastInterruptible s stepsPerChunk maxSteps = .thrown e t →
        ∃ (s1 : Interpreter) (j : Nat) (sj : Interpreter),
          ensureCompiled s = .ok () s1 ∧ chunkLoop maxSteps j s1 = .ok () sj ∧
          execInstr sj sj.fastPc (instrAt sj.compiledProgram sj.fastPc) = .thrown e t ∧
          AbortedAt sj e t ∧ t.outputBuffer = sj.outputBuffer ∧ t.pc = sj.pc ∧
          t.fastPc = sj.fastPc ∧ t.fastSteps = sj.fastSteps) := by
  refine ⟨?_, ?_, ?_, ?_⟩
  · intro h
    have ha := step_overflow s e t he h
    exact ⟨ha, ha.tape.2.2.1, ha.tape.2.2.2.1, ha.tape.2.2.2.2.1, ha.tape.2.2.2.2.2.1⟩
  · intro maxSteps h
    obtain ⟨j, sj, -, hrun, hfail⟩ := runUntilEnd_thrown s maxSteps e t h
    have ha := step_overflow sj e t he hfail
    exact ⟨j, sj, hrun, hfail, ha, ha.tape.2.2.1, ha.tape.2.2.2.1, ha.tape.2.2.2.2.1,
      ha.tape.2.2.2.2.2.1⟩
  · intro maxSteps h
    rcases runProgramFast_thrown s maxSteps e t h with hc | ⟨s1, j, pcj, sj, hens, -, hrun, -, hfail⟩
    · exact absurd hc fun hc => ensureCompiled_not_overflow s e t he hc
    · have ha := (execInstr_thrown sj pcj _ e t hfail).2
      exact ⟨s1, j, pcj, sj, hens, hrun, hfail, ha, ha.tape.2.2.1, ha.tape.2.2.2.1,
        ha.tape.2.2.2.2.1, ha.tape.2.2.2.2.2.1⟩
  · intro stepsPerChunk maxSteps h
    rcases runProgramFastInterruptible_thrown s stepsPerChunk maxSteps e t h with
      hc | ⟨s1, j, sj, hens, -, hrun, -, -, hfail⟩
    · exact absurd hc fun hc => ensureCompiled_not_overflow s e t he hc
    · have ha := (execInstr_thrown sj _ _ e t hfail).2
      exact ⟨s1, j, sj, hens, hrun, hfail, ha, ha.tape.2.2.1, ha.tape.2.2.2.1,
        ha.tape.2.2.2.2.1, ha.tape.2.2.2.2.2.1⟩

/-- C22, amended, on the text `,.` under the ERROR cell policy with the input
characters of values -23 and 65 queued: the failing `step` leaves the state it started
from with -23 taken off the queue. -/
theorem failed_instruction_aborts_in_place_witness :
    (AbortedAt refusedByteVM (.inputOutOfRange (-23)) (step refusedByteVM).vm ∧
        (step refusedByteVM).vm.outputBuffer = refusedByteVM.outputBuffer ∧
        (step refusedByteVM).vm.pc = refusedByteVM.pc ∧
        (step refusedByteVM).vm.fastPc = refusedByteVM.fastPc ∧
        (step refusedByteVM).vm.fastSteps = refusedByteVM.fastSteps) ∧
      refusedByteVM.inputBuffer = [-23, 65] ∧ (step refusedByteVM).vm.inputBuffer = [65] :=
  ⟨(failed_instruction_aborts_in_place refusedByteVM (.inputOutOfRange (-23))
    (step refusedByteVM).vm (Or.inr rfl)).1 (by decide), by decide, by decide⟩

/-! ### The running flag and the text cursor after a call -/

theorem chunkLoop_running (M : Int) (c : Nat) (s : Interpreter) :
    (chunkLoop M c s).vm.running = s.running := by
  induction c generalizing s with
  | zero => rfl
  | succ c ih =>
    by_cases hcond : s.fastPc < (s.compiledProgram.length : Int) ∧ s.fastSteps < M
    · simp only [chunkLoop, if_pos hcond]
      have hframe := execInstr_frame s s.fastPc (instrAt s.compiledProgram s.fastPc)
      cases hex : execInstr s s.fastPc (instrAt s.compiledProgram s.fastPc) with
      | thrown e1 t1 =>
        rw [hex] at hframe
        exact hframe.2.2.2.2.2.2.1
      | ok pc2 s2 =>
        rw [hex] at hframe
        simp only
        rw [ih]
        exact hframe.2.2.2.2.2.2.1
    · simp only [chunkLoop, if_neg hcond]
      rfl

theorem step_true_keeps_running (s t : Interpreter) (h : step s = .ok true t) :
    t.running = true := by
  have hrun := step_true_running s t h
  by_cases hcond : s.running = false ∨ s.pc ≥ (s.program.length : Int)
  · simp only [step, if_pos hcond, Outcome.ok.injEq] at h
    exact absurd h.1 (by decide)
  rcases step_shape s hcond with ⟨o, hprim, heq⟩ | ⟨pc1, -, heq⟩ | heq | heq
  · rw [heq] at h
    have hframe := primitive_frame s o hprim
    cases o with
    | thrown e1 t1 => exact Outcome.noConfusion h
    | ok u s1 =>
      simp only [Outcome.andThen, stepDone, Outcome.ok.injEq, true_and] at h
      rw [← h]
      exact hframe.2.2.2.2.2.2.1.trans hrun
  · rw [heq] at h
    simp only [stepDone, Outcome.ok.injEq, true_and] at h
    rw [← h]
    exact hrun
  · rw [heq] at h; exact Outcome.noConfusion h
  · rw [heq] at h; exact Outcome.noConfusion h

theorem step_thrown_running (s : Interpreter) (e : Error) (t : Interpreter)
    (h : step s = .thrown e t) : t.running = true := by
  obtain ⟨hrun, -, ⟨-, ha⟩ | ⟨-, rfl⟩ | ⟨-, rfl⟩⟩ := step_thrown s e t h
  · exact ha.tape.2.2.2.2.2.2.trans hrun
  · exact hrun
  · exact hrun

/-- C23, as the code behaves: an exception leaves the running flag as it was.  A
failing `step()` (which only executes when the flag is true) and a failing
`runUntilEnd` leave it true; a failing `runProgramFast` or
`runProgramFastInterruptible` leaves it as it was before the call, so true on a VM that
was loaded and not run to its end. -/
theorem failed_call_keeps_running (s : Interpreter) (e : Error) (t : Interpreter) :
    (step s = .thrown e t → t.running = true) ∧
      (∀ maxSteps, runUntilEnd s maxSteps = .thrown e t → t.running = true) ∧
      (∀ maxSteps, runProgramFast s maxSteps = .thrown e t → t.running = s.running) ∧
      (∀ stepsPerChunk maxSteps,
        runProgramFastInterruptible s stepsPerChunk maxSteps = .thrown e t →
        t.running = s.running) := by
  have hens : ∀ s1, ensureCompiled s = .ok () s1 → s1.running = s.running := by
    intro s1 h
    rw [ensureCompiled_ok_withCode s s1 h]
    rfl
  refine ⟨step_thrown_running s e t, ?_, ?_, ?_⟩
  · intro maxSteps h
    obtain ⟨j, sj, -, -, hfail⟩ := runUntilEnd_thrown s maxSteps e t h
    exact step_thrown_running sj e t hfail
  · intro maxSteps h
    rcases runProgramFast_thrown s maxSteps e t h with hc | ⟨s1, j, pcj, sj, hs1, -, hrun, -, hfail⟩
    · rw [(ensureCompiled_thrown s e t hc).2.2]
      rfl
    · have hframe := fastLoop_frame j 0 0 s1
      rw [hrun] at hframe
      have ha := (execInstr_thrown sj pcj _ e t hfail).2.tape
      exact ha.2.2.2.2.2.2.trans (hframe.2.2.2.2.2.2.1.trans (hens s1 hs1))
  · intro stepsPerChunk maxSteps h
    rcases runProgramFastInterruptible_thrown s stepsPerChunk maxSteps e t h with
      hc | ⟨s1, j, sj, hs1, -, hrun, -, -, hfail⟩
    · rw [(ensureCompiled_thrown s e t hc).2.2]
      rfl
    · have hr := chunkLoop_running maxSteps j s1
      rw [hrun] at hr
      have ha := (execInstr_thrown sj _ _ e t hfail).2.tape
      exact ha.2.2.2.2.2.2.trans (hr.trans (hens s1 hs1))

/-- C23 on the text `<` under the ERROR pointer policy: each executor fails with the
pointer underflow and the running flag is still true. -/
theorem failed_call_keeps_running_witness :
    leftVM.running = true ∧
      (step leftVM).error? = some (.pointerUnderflow (-1)) ∧
      (step leftVM).vm.running = true ∧
      (runUntilEnd leftVM 100).vm.running = true ∧
      (runProgramFast leftVM 100).vm.running = leftVM.running ∧
      (runProgramFastInterruptible leftVM 10 100).vm.running = leftVM.running :=
  ⟨by decide, by decide,
    (failed_call_keeps_running leftVM (.pointerUnderflow (-1)) (step leftVM).vm).1 (by decide),
    (failed_call_keeps_running leftVM (.pointerUnderflow (-1))
      (runUntilEnd leftVM 100).vm).2.1 100 (by decide),
    (failed_call_keeps_running leftVM (.pointerUnderflow (-1))
      (runProgramFast leftVM 100).vm).2.2.1 100 (by decide),
    (failed_call_keeps_running leftVM (.pointerUnderflow (-1))
      (runProgramFastInterruptible leftVM 10 100).vm).2.2.2 10 100 (by decide)⟩

/-- C27, against the claim: the `step()` call that executes the only character of the
text `+` returns `true` and leaves `pc` at the length of the text with the running flag
still true. -/
theorem step_last_character_keeps_running :
    ∃ t, step plusVM = .ok true t ∧ (t.program.length : Int) ≤ t.pc ∧ t.running = true :=
  ⟨_, rfl, by decide, by decide⟩

/-- C27, amended: a `step()` call returns `false` exactly when it finds the running
flag false or `pc` at or past the end of the text; it then executes nothing and leaves
the flag false.  A call that returns `true` leaves the flag true, also when it has
executed the last character and left `pc` at the end of the text; the next call then
returns `false` and clears the flag. -/
theorem step_clears_running_at_guard (s : Interpreter) :
    ((s.running = false ∨ (s.program.length : Int) ≤ s.pc) →
        step s = .ok false { s with running := false }) ∧
      (∀ t, step s = .ok false t →
        (s.running = false ∨ (s.program.length : Int) ≤ s.pc) ∧
          t = { s with running := false } ∧ t.running = false) ∧
      (∀ t, step s = .ok true t →
        t.running = true ∧
          ((t.program.length : Int) ≤ t.pc →
            step t = .ok false { t with running := false })) := by
  have hguard : (s.running = false ∨ (s.program.length : Int) ≤ s.pc) →
      step s = .ok false { s with running := false } := by
    intro hcond
    simp only [step]
    rw [if_pos hcond]
  refine ⟨hguard, ?_, ?_⟩
  · intro t h
    by_cases hcond : s.running = false ∨ s.pc ≥ (s.program.length : Int)
    · rw [hguard hcond] at h
      simp only [Outcome.ok.injEq, true_and] at h
      exact ⟨hcond, h.symm, by rw [← h]⟩
    · exfalso
      rcases step_shape s hcond with ⟨o, hprim, heq⟩ | ⟨pc1, -, heq⟩ | heq | heq
      · rw [heq] at h
        cases o with
        | thrown e1 t1 => exact Outcome.noConfusion h
        | ok u s1 =>
          simp only [Outcome.andThen, stepDone, Outcome.ok.injEq] at h
          exact absurd h.1 (by decide)
      · rw [heq] at h
        simp only [stepDone, Outcome.ok.injEq] at h
        exact absurd h.1 (by decide)
      · rw [heq] at h; exact Outcome.noConfusion h
      · rw [heq] at h; exact Outcome.noConfusion h
  · intro t h
    exact ⟨step_true_keeps_running s t h, fun hend => step_at_end t hend⟩

/-- C27, amended, on the text `+`: the first call returns `true` with the flag true,
the second returns `false` and clears it. -/
theorem step_clears_running_at_guard_witness :
    (step plusVM).vm.running = true ∧
      step (step plusVM).vm = .ok false { (step plusVM).vm with running := false } :=
  ⟨((step_clears_running_at_guard plusVM).2.2 (step plusVM).vm (by decide)).1,
    ((step_clears_running_at_guard plusVM).2.2 (step plusVM).vm (by decide)).2 (by decide)⟩

/-- C29, as the code behaves: from a state with `0 ≤ pc ≤ program length`, a `step()`
call that returns, or that fails with an overflow or in the forward bracket scan,
leaves `pc` within that range; a call that fails in the backward bracket scan (a `]`
that no `[` precedes, on a non-zero cell) leaves `pc = -1` with the running flag true,
so the entry guard of the next call does not stop it before `program[pc]` is read. -/
theorem step_pc_after_call (s : Interpreter) (h0 : 0 ≤ s.pc)
    (h1 : s.pc ≤ (s.program.length : Int)) :
    (∀ r t, step s = .ok r t → 0 ≤ t.pc ∧ t.pc ≤ (t.program.length : Int)) ∧
      (∀ e t, step s = .thrown e t → e ≠ .unmatchedClose →
        0 ≤ t.pc ∧ t.pc ≤ (t.program.length : Int)) ∧
      (∀ t, step s = .thrown .unmatchedClose t →
        t.pc = -1 ∧ t.running = true ∧ t.program = s.program ∧
          ¬(t.running = false ∨ t.pc ≥ (t.program.length : Int))) := by
  refine ⟨?_, ?_, ?_⟩
  · intro r t h
    by_cases hcond : s.running = false ∨ s.pc ≥ (s.program.length : Int)
    · simp only [step, if_pos hcond, Outcome.ok.injEq] at h
      rw [← h.2]
      exact ⟨h0, h1⟩
    have hlt : s.pc < (s.program.length : Int) := by
      by_contra hge
      exact hcond (Or.inr (not_lt.1 hge))
    rcases step_shape s hcond with ⟨o, hprim, heq⟩ | ⟨pc1, hpc1, heq⟩ | heq | heq
    · rw [heq] at h
      have hframe := primitive_frame s o hprim
      cases o with
      | thrown e1 t1 => exact Outcome.noConfusion h
      | ok u s1 =>
        simp only [Outcome.andThen, stepDone, Outcome.ok.injEq] at h
        obtain ⟨hprog, -, -, -, -, hpc, -⟩ := hframe
        simp only [Outcome.vm] at hprog hpc
        rw [← h.2]
        simp only
        rw [hpc, hprog]
        omega
    · rw [heq] at h
      simp only [stepDone, Outcome.ok.injEq] at h
      obtain ⟨hlo, hhi⟩ := hpc1 h0
      rw [← h.2]
      simp only
      omega
    · rw [heq] at h; exact Outcome.noConfusion h
    · rw [heq] at h; exact Outcome.noConfusion h
  · intro e t h hne
    obtain ⟨-, hlt, ⟨-, ha⟩ | ⟨-, rfl⟩ | ⟨rfl, -⟩⟩ := step_thrown s e t h
    · have hk := ha.keeps
      have hpc : t.pc = s.pc := ha.tape.2.2.2.1
      have hprog : t.program = s.program := by rw [hk]
      rw [hpc, hprog]
      exact ⟨h0, h1⟩
    · simp only
      omega
    · exact absurd rfl hne
  · intro t h
    obtain ⟨hrun, hlt, ⟨he, -⟩ | ⟨he, -⟩ | ⟨-, rfl⟩⟩ := step_thrown s _ t h
    · rcases he with he | he <;> exact Bool.noConfusion he
    · exact Error.noConfusion he
    · refine ⟨rfl, hrun, rfl, ?_⟩
      simp only [hrun, Bool.true_eq_false, false_or, ge_iff_le, not_le]
      omega

/-- C29 on the text `+]`: after the `+`, the `step()` call for `]` fails in the backward
scan and leaves `pc = -1` with the running flag true. -/
theorem step_pc_after_call_witness :
    step strayCloseVM = .thrown .unmatchedClose (step strayCloseVM).vm ∧
      (step strayCloseVM).vm.pc = -1 ∧ (step strayCloseVM).vm.running = true ∧
      (step strayCloseVM).vm.program = strayCloseVM.program ∧
      ¬((step strayCloseVM).vm.running = false ∨
        (step strayCloseVM).vm.pc ≥ ((step strayCloseVM).vm.program.length : Int)) :=
  ⟨by decide, (step_pc_after_call strayCloseVM (by decide) (by decide)).2.2
    (step strayCloseVM).vm (by decide)⟩

/-! ### Properties kept by every call -/

theorem generatePseudocode_vm (s : Interpreter) : (generatePseudocode s).vm = s := rfl

theorem compileProgram_vm (s : Interpreter) :
    (compileProgram s).vm = withCode s (compileProgram s).vm.compiledProgram := by
  cases h : compileProgram s with
  | ok code s1 =>
    obtain ⟨-, -, -, rfl⟩ := (compileProgram_ok_iff s code s1).1 h
    rfl
  | thrown e t => exact (compileProgram_thrown s e t h).2.2

theorem ensureCompiled_vm (s : Interpreter) :
    (ensureCompiled s).vm = withCode s (ensureCompiled s).vm.compiledProgram := by
  cases h : ensureCompiled s with
  | ok u s1 => exact ensureCompiled_ok_withCode s s1 h
  | thrown e t => exact (ensureCompiled_thrown s e t h).2.2

theorem step_preserves (P : Interpreter → Prop) (hP : Stable P) (s : Interpreter) (h : P s) : P (step s).vm := by
  by_cases hcond : s.running = false ∨ s.pc ≥ (s.program.length : Int)
  · simp only [step, if_pos hcond, Outcome.vm]
    exact hP.1 s s.pc s.fastPc s.fastSteps false s.compiledProgram h
  rcases step_shape s hcond with ⟨o, hp, heq⟩ | ⟨pc1, -, heq⟩ | heq | heq
  · rw [heq]
    have ho := hP.2 s o h hp
    cases o with
    | thrown e t => exact ho
    | ok u s1 =>
      exact hP.1 s1 (s1.pc + 1) s1.fastPc s1.fastSteps s1.running s1.compiledProgram ho
  · rw [heq]
    exact hP.1 s (pc1 + 1) s.fastPc s.fastSteps s.running s.compiledProgram h
  · rw [heq]
    exact hP.1 s s.program.length s.fastPc s.fastSteps s.running s.compiledProgram h
  · rw [heq]
    exact hP.1 s (-1) s.fastPc s.fastSteps s.running s.compiledProgram h

theorem runLoop_preserves (P : Interpreter → Prop) (hP : Stable P) (b : Nat) (st : Int) (s : Interpreter) (h : P s) :
    P (runLoop b st s).vm := by
  induction b generalizing st s with
  | zero => exact h
  | succ b ih =>
    simp only [runLoop]
    split_ifs with hr
    · have hs := step_preserves P hP s h
      cases hstep : step s with
      | thrown e t => rw [hstep] at hs; exact hs
      | ok v s1 =>
        rw [hstep] at hs
        cases v with
        | false => exact hs
        | true => exact ih _ _ hs
    · exact h

theorem execInstr_preserves (P : Interpreter → Prop) (hP : Stable P) (s : Interpreter) (pc : Int) (i : Instr) (h : P s) :
    P (execInstr s pc i).vm := by
  obtain ⟨o, pc1, hp, heq⟩ := execInstr_shape s pc i
  rw [heq]
  have ho := hP.2 s o h hp
  cases o with
  | thrown e t => exact ho
  | ok u s1 => exact ho

theorem fastLoop_preserves (P : Interpreter → Prop) (hP : Stable P) (b : Nat) (pc st : Int) (s : Interpreter) (h : P s) :
    P (fastLoop b pc st s).vm := by
  induction b generalizing pc st s with
  | zero => exact h
  | succ b ih =>
    simp only [fastLoop]
    split_ifs with hlt
    · have hs := execInstr_preserves P hP s pc (instrAt s.compiledProgram pc) h
      cases hex : execInstr s pc (instrAt s.compiledProgram pc) with
      | thrown e t => rw [hex] at hs; exact hs
      | ok pc1 s1 => rw [hex] at hs; exact ih _ _ _ hs
    · exact h

theorem chunkLoop_preserves (P : Interpreter → Prop) (hP : Stable P) (M : Int) (c : Nat) (s : Interpreter) (h : P s) :
    P (chunkLoop M c s).vm := by
  induction c generalizing s with
  | zero => exact h
  | succ c ih =>
    simp only [chunkLoop]
    split_ifs with hcond
    · have hs := execInstr_preserves P hP s s.fastPc (instrAt s.compiledProgram s.fastPc) h
      cases hex : execInstr s s.fastPc (instrAt s.compiledProgram s.fastPc) with
      | thrown e t => rw [hex] at hs; exact hs
      | ok pc1 s1 =>
        rw [hex] at hs
        exact ih _ (hP.1 s1 s1.pc (pc1 + 1) (s1.fastSteps + 1) s1.running s1.compiledProgram hs)
    · exact h

theorem ensureCompiled_preserves (P : Interpreter → Prop) (hP : Stable P) (s : Interpreter) (h : P s) : P (ensureCompiled s).vm := by
  rw [ensureCompiled_vm]
  exact hP.1 s s.pc s.fastPc s.fastSteps s.running _ h

/-- A property of states that is kept by every instruction body and does not depend on
the cursors, the running flag or the compiled program is kept by every call that runs
the program or compiles it, whether the call returns or throws. -/
theorem executors_preserve (P : Interpreter → Prop) (hP : Stable P) (s : Interpreter) (h : P s) :
    P (step s).vm ∧ (∀ maxSteps, P (runUntilEnd s maxSteps).vm) ∧
      (∀ maxSteps, P (runProgramFast s maxSteps).vm) ∧
      (∀ stepsPerChunk maxSteps, P (runProgramFastInterruptible s stepsPerChunk maxSteps).vm) ∧
      P (compileProgram s).vm ∧ P (generatePseudocode s).vm := by
  refine ⟨step_preserves P hP s h, fun M => runLoop_preserves P hP _ _ s h,
    ?_, ?_, ?_, h⟩
  · intro M
    have h1 := ensureCompiled_preserves P hP s h
    unfold runProgramFast
    cases hens : ensureCompiled s with
    | thrown e t => rw [hens] at h1; exact h1
    | ok u s1 =>
      rw [hens] at h1
      simp only [Outcome.andThen]
      have h2 := fastLoop_preserves P hP M.toNat 0 0 s1 h1
      cases hloop : fastLoop M.toNat 0 0 s1 with
      | thrown e t => rw [hloop] at h2; exact h2
      | ok r s2 =>
        rw [hloop] at h2
        exact hP.1 s2 s2.pc s2.fastPc s2.fastSteps false s2.compiledProgram h2
  · intro c M
    have h1 := ensureCompiled_preserves P hP s h
    unfold runProgramFastInterruptible
    cases hens : ensureCompiled s with
    | thrown e t => rw [hens] at h1; exact h1
    | ok u s1 =>
      rw [hens] at h1
      simp only [Outcome.andThen]
      have h2 := chunkLoop_preserves P hP M c.toNat s1 h1
      cases hloop : chunkLoop M c.toNat s1 with
      | thrown e t => rw [hloop] at h2; exact h2
      | ok r s2 =>
        rw [hloop] at h2
        simp only
        split_ifs
        · exact hP.1 s2 s2.pc 0 0 false s2.compiledProgram h2
        · exact h2
  · rw [compileProgram_vm]
    exact hP.1 s s.pc s.fastPc s.fastSteps s.running _ h

theorem runCalls_induction (P : Interpreter → Prop)
    (hcall : ∀ (s : Interpreter) (c : Call), P s → P (runCall s c)) (s : Interpreter)
    (calls : List Call) (h : P s) : P (runCalls s calls) := by
  induction calls generalizing s with
  | nil => exact h
  | cons c cs ih => exact ih _ (hcall s c h)

theorem stable_wellFormed (C : Int) : Stable fun s => WellFormed s ∧ s.memorySize = C := by
  refine ⟨fun s pc fastPc fastSteps running code h => h, ?_⟩
  intro s o h hp
  refine ⟨primitive_wellFormed s o hp h.1, ?_⟩
  rw [(primitive_frame s o hp).2.2.1]
  exact h.2

theorem runCall_wellFormed (C : Int) (s : Interpreter) (c : Call)
    (h : WellFormed s ∧ s.memorySize = C) :
    WellFormed (runCall s c) ∧ (runCall s c).memorySize = C := by
  have hex := executors_preserve _ (stable_wellFormed C) s h
  cases c with
  | configure pb cb => exact h
  | reset =>
    obtain ⟨⟨hC, -, -, -⟩, hsz⟩ := h
    refine ⟨⟨hC, ?_, le_refl _, ?_⟩, hsz⟩
    · simp [runCall, reset]
    · show (0 : Int) < s.memorySize
      omega
  | loadProgram program inputData => exact h
  | setInputCallback callback => exact h
  | generatePseudocode => exact h
  | compileProgram => exact hex.2.2.2.2.1
  | step => exact hex.1
  | runUntilEnd maxSteps => exact hex.2.1 maxSteps
  | runProgramFast maxSteps => exact hex.2.2.1 maxSteps
  | runProgramFastInterruptible stepsPerChunk maxSteps =>
    exact hex.2.2.2.1 stepsPerChunk maxSteps

theorem new_wellFormed (C : Int) (hC : 1 ≤ C) :
    WellFormed (Interpreter.new C) ∧ (Interpreter.new C).memorySize = C := by
  refine ⟨⟨hC, ?_, le_refl _, ?_⟩, rfl⟩
  · simp [Interpreter.new, reset]
  · show (0 : Int) < C
    omega

/-- C28: for every capacity `C ≥ 1`, after any sequence of calls of `configure`,
`reset`, `loadProgram`, `setInputCallback`, `generatePseudocode`, `compileProgram`,
`step`, `runUntilEnd`, `runProgramFast` and `runProgramFastInterruptible` on a newly
constructed VM, whether the calls return or throw, the capacity is `C`, the tape has
exactly `C` cells and the pointer satisfies `0 ≤ pointer < C`, so the cell at the
pointer exists. -/
theorem reachable_pointer_in_bounds (C : Int) (hC : 1 ≤ C) (calls : List Call) :
    (runCalls (Interpreter.new C) calls).memorySize = C ∧
      ((runCalls (Interpreter.new C) calls).memory.length : Int) = C ∧
      0 ≤ (runCalls (Interpreter.new C) calls).pointer ∧
      (runCalls (Interpreter.new C) calls).pointer < C ∧
      (runCalls (Interpreter.new C) calls).pointer.toNat <
        (runCalls (Interpreter.new C) calls).memory.length := by
  obtain ⟨⟨h1, hlen, hp0, hp1⟩, hsz⟩ := runCalls_induction _ (runCall_wellFormed C)
    (Interpreter.new C) calls (new_wellFormed C hC)
  rw [hsz] at hlen hp1
  refine ⟨hsz, ?_, hp0, hp1, ?_⟩
  · rw [hlen]; omega
  · rw [hlen]; omega

/-- C28 at capacity 3: the text `<<>>>>` described by `generatePseudocode`, then a
failing `step()` under the ERROR pointer policy, then a bulk run under the WRAP pointer
policy. -/
theorem reachable_pointer_in_bounds_witness :
    (runCalls (Interpreter.new 3) sampleCalls).memorySize = 3 ∧
      ((runCalls (Interpreter.new 3) sampleCalls).memory.length : Int) = 3 ∧
      0 ≤ (runCalls (Interpreter.new 3) sampleCalls).pointer ∧
      (runCalls (Interpreter.new 3) sampleCalls).pointer < 3 ∧
      (runCalls (Interpreter.new 3) sampleCalls).pointer.toNat <
        (runCalls (Interpreter.new 3) sampleCalls).memory.length :=
  reachable_pointer_in_bounds 3 (by decide) sampleCalls

/-- The description of the text `<<>>>>` counts the pointer down to -2 and up to 2
without any check, and leaves the state as it was. -/
theorem generatePseudocode_sample :
    generatePseudocode (loadProgram (Interpreter.new 3) ['<', '<', '>', '>', '>', '>'] []) =
      .ok [-1, -2, -1, 0, 1, 2]
        (loadProgram (Interpreter.new 3) ['<', '<', '>', '>', '>', '>'] []) := by
  decide

theorem stable_program (p : List Char) : Stable fun s => s.program = p := by
  refine ⟨fun s pc fastPc fastSteps running code h => h, ?_⟩
  intro s o h hp
  rw [(primitive_frame s o hp).1]
  exact h

theorem runUntilEnd_empty (s : Interpreter) (maxSteps : Int) (hprog : s.program = [])
    (hpc : 0 ≤ s.pc) :
    runUntilEnd s maxSteps = .ok 0 s ∨
      runUntilEnd s maxSteps = .ok 0 { s with running := false } := by
  have hend : (s.program.length : Int) ≤ s.pc := by rw [hprog]; exact hpc
  unfold runUntilEnd
  cases maxSteps.toNat with
  | zero => exact Or.inl rfl
  | succ b =>
    simp only [runLoop]
    split_ifs with hr
    · rw [step_at_end s hend]
      exact Or.inr rfl
    · exact Or.inl rfl

theorem runCall_uncompiled (s : Interpreter) (c : Call) (h : Uncompiled s) :
    Uncompiled (runCall s c) := by
  have hprog := executors_preserve _ (stable_program s.program) s rfl
  have hvac : ∀ t : Interpreter, t.program = s.program → s.program ≠ [] → Uncompiled t :=
    fun t ht hne h0 => absurd (ht ▸ h0) hne
  cases c with
  | configure pb cb => exact h
  | reset => exact fun _ => ⟨rfl, rfl⟩
  | loadProgram program inputData => exact fun _ => ⟨rfl, rfl⟩
  | setInputCallback callback => exact h
  | generatePseudocode => exact h
  | compileProgram =>
    by_cases hnil : s.program = []
    · have : compileProgram s = .thrown .noProgram s := by
        simp only [compileProgram, if_pos hnil]
      simp only [runCall, this, Outcome.vm]
      exact h
    · exact hvac _ hprog.2.2.2.2.1 hnil
  | step =>
    by_cases hnil : s.program = []
    · obtain ⟨-, hpc⟩ := h hnil
      have hend : (s.program.length : Int) ≤ s.pc := by rw [hnil, hpc]; rfl
      simp only [runCall, step_at_end s hend, Outcome.vm]
      exact h
    · exact hvac _ hprog.1 hnil
  | runUntilEnd maxSteps =>
    by_cases hnil : s.program = []
    · obtain ⟨-, hpc⟩ := h hnil
      rcases runUntilEnd_empty s maxSteps hnil (by rw [hpc]) with hr | hr
      · simp only [runCall, hr, Outcome.vm]; exact h
      · simp only [runCall, hr, Outcome.vm]; exact h
    · exact hvac _ (hprog.2.1 maxSteps) hnil
  | runProgramFast maxSteps =>
    by_cases hnil : s.program = []
    · obtain ⟨hcode, -⟩ := h hnil
      have : runProgramFast s maxSteps = .thrown .noProgram s := by
        simp only [runProgramFast, ensureCompiled, if_pos hcode, compileProgram, if_pos hnil,
          Outcome.andThen]
      simp only [runCall, this, Outcome.vm]
      exact h
    · exact hvac _ (hprog.2.2.1 maxSteps) hnil
  | runProgramFastInterruptible stepsPerChunk maxSteps =>
    by_cases hnil : s.program = []
    · obtain ⟨hcode, -⟩ := h hnil
      have : runProgramFastInterruptible s stepsPerChunk maxSteps = .thrown .noProgram s := by
        simp only [runProgramFastInterruptible, ensureCompiled, if_pos hcode, compileProgram,
          if_pos hnil, Outcome.andThen]
      simp only [runCall, this, Outcome.vm]
      exact h
    · exact hvac _ (hprog.2.2.2.1 stepsPerChunk maxSteps) hnil

/-- C30: on a VM whose program text is empty (in any state reached from construction by
calls of the public member functions), `compileProgram` throws its `No program loaded`
error instead of returning an empty instruction list, and so do `runProgramFast` and
`runProgramFastInterruptible`, all three leaving the state as it was; `runUntilEnd` on
the same state returns 0 without an error. -/
theorem empty_program_does_not_compile (C : Int) (calls : List Call)
    (stepsPerChunk maxSteps : Int) (h : (runCalls (Interpreter.new C) calls).program = []) :
    compileProgram (runCalls (Interpreter.new C) calls) =
        .thrown .noProgram (runCalls (Interpreter.new C) calls) ∧
      runProgramFast (runCalls (Interpreter.new C) calls) maxSteps =
        .thrown .noProgram (runCalls (Interpreter.new C) calls) ∧
      runProgramFastInterruptible (runCalls (Interpreter.new C) calls) stepsPerChunk maxSteps =
        .thrown .noProgram (runCalls (Interpreter.new C) calls) ∧
      (runUntilEnd (runCalls (Interpreter.new C) calls) maxSteps).failed = false ∧
      (runUntilEnd (runCalls (Interpreter.new C) calls) maxSteps).value? = some 0 := by
  have hQ : Uncompiled (runCalls (Interpreter.new C) calls) :=
    runCalls_induction _ runCall_uncompiled (Interpreter.new C) calls (fun _ => ⟨rfl, rfl⟩)
  generalize runCalls (Interpreter.new C) calls = s at h hQ
  obtain ⟨hcode, hpc⟩ := hQ h
  refine ⟨?_, ?_, ?_, ?_⟩
  · simp only [compileProgram, if_pos h]
  · simp only [runProgramFast, ensureCompiled, if_pos hcode, compileProgram, if_pos h,
      Outcome.andThen]
  · simp only [runProgramFastInterruptible, ensureCompiled, if_pos hcode, compileProgram,
      if_pos h, Outcome.andThen]
  · rcases runUntilEnd_empty s maxSteps h (by rw [hpc]) with hr | hr
    · rw [hr]; exact ⟨rfl, rfl⟩
    · rw [hr]; exact ⟨rfl, rfl⟩

/-- C30 on a VM of capacity 3 after a run of `+` and a `loadProgram` of the empty
text. -/
theorem empty_program_does_not_compile_witness :
    compileProgram (runCalls (Interpreter.new 3)
        [.loadProgram ['+'] [], .runProgramFast 100, .loadProgram [] []]) =
        .thrown .noProgram (runCalls (Interpreter.new 3)
          [.loadProgram ['+'] [], .runProgramFast 100, .loadProgram [] []]) ∧
      runProgramFast (runCalls (Interpreter.new 3)
        [.loadProgram ['+'] [], .runProgramFast 100, .loadProgram [] []]) 100 =
        .thrown .noProgram (runCalls (Interpreter.new 3)
          [.loadProgram ['+'] [], .runProgramFast 100, .loadProgram [] []]) ∧
      runProgramFastInterruptible (runCalls (Interpreter.new 3)
        [.loadProgram ['+'] [], .runProgramFast 100, .loadProgram [] []]) 10 100 =
        .thrown .noProgram (runCalls (Interpreter.new 3)
          [.loadProgram ['+'] [], .runProgramFast 100, .loadProgram [] []]) ∧
      (runUntilEnd (runCalls (Interpreter.new 3)
        [.loadProgram ['+'] [], .runProgramFast 100, .loadProgram [] []]) 100).failed = false ∧
      (runUntilEnd (runCalls (Interpreter.new 3)
        [.loadProgram ['+'] [], .runProgramFast 100, .loadProgram [] []]) 100).value? = some 0 :=
  empty_program_does_not_compile 3
    [.loadProgram ['+'] [], .runProgramFast 100, .loadProgram [] []] 10 100 (by decide)

/-! ### The range of the cells under the WRAP and ERROR cell policies -/

theorem setCell_byteCells (s : Interpreter) (v : Int) (h : ByteCells s) (hv : 0 ≤ v ∧ v ≤ 255) :
    ByteCells (setCell s v) := by
  intro x hx
  simp only [setCell] at hx
  rcases List.mem_or_eq_of_mem_set hx with hmem | rfl
  · exact h x hmem
  · exact hv

theorem movePointer_vm_eq (s : Interpreter) (d : Int) :
    (movePointer s d).vm = { s with pointer := (movePointer s d).vm.pointer } := by
  unfold movePointer
  simp only
  split
  · rfl
  · rfl
  · split_ifs <;> rfl

theorem invokeCallback_mem (callback : List (List Int)) :
    (∀ v ∈ (invokeCallback callback).1, ∃ reply ∈ callback, v ∈ reply) ∧
      ∀ reply ∈ (invokeCallback callback).2, reply ∈ callback := by
  cases callback with
  | nil => exact ⟨fun v hv => absurd hv (List.not_mem_nil v), fun r hr => hr⟩
  | cons reply later =>
    exact ⟨fun v hv => ⟨reply, List.mem_cons_self _ _, hv⟩,
      fun r hr => List.mem_cons_of_mem _ hr⟩

/-- Under the WRAP cell policy with every input value within `[0,255]`, and under the
ERROR cell policy with any input values, the cells stay within `[0,255]`. -/
theorem stable_byteCells (cb : CellBehavior) (hcb : cb = .WRAP ∨ cb = .ERROR) :
    Stable fun s => s.cellBehavior = cb ∧ ByteCells s ∧ (cb = .WRAP → ByteInputs s) := by
  refine ⟨fun s pc fastPc fastSteps running code h => h, ?_⟩
  intro s o h hp
  obtain ⟨hb, hcells, hin⟩ := h
  rcases hp with ⟨d, rfl⟩ | ⟨d, rfl⟩ | rfl | rfl | rfl
  · rw [movePointer_vm_eq]
    exact ⟨hb, hcells, hin⟩
  · unfold modifyCell
    simp only
    split
    · have hlo : 0 ≤ (cell s + d) % 256 := Int.emod_nonneg _ (by decide)
      have hhi : (cell s + d) % 256 < 256 := Int.emod_lt_of_pos _ (by decide)
      rw [wrap_eq_emod _ 256 (by decide)]
      exact ⟨hb, setCell_byteCells s _ hcells ⟨hlo, by omega⟩, hin⟩
    · rename_i hu
      rw [hb] at hu
      rcases hcb with rfl | rfl <;> exact CellBehavior.noConfusion hu
    · split_ifs with h1 h2
      · exact ⟨hb, hcells, hin⟩
      · exact ⟨hb, hcells, hin⟩
      · exact ⟨hb, setCell_byteCells s _ hcells ⟨by omega, by omega⟩, hin⟩
  · rw [outputCell_eq]
    exact ⟨hb, hcells, hin⟩
  · have hstore : ∀ (s1 : Interpreter) (v : Int) (rest : List Int),
        s1.cellBehavior = cb → ByteCells s1 → (cb = .WRAP → 0 ≤ v ∧ v ≤ 255) →
        (cb = .WRAP → ByteInputs { s1 with inputBuffer := rest }) →
        (storeFront s1 v rest).vm.cellBehavior = cb ∧ ByteCells (storeFront s1 v rest).vm ∧
          (cb = .WRAP → ByteInputs (storeFront s1 v rest).vm) := by
      intro s1 v rest hb1 hc1 hv hin1
      by_cases href : s1.cellBehavior = .ERROR ∧ (v < 0 ∨ v > 255)
      · rw [storeFront_refused s1 v rest href]
        exact ⟨hb1, hc1, hin1⟩
      · rw [storeFront_accepted s1 v rest href]
        have hvr : 0 ≤ v ∧ v ≤ 255 := by
          rcases hcb with rfl | rfl
          · exact hv rfl
          · have hn : ¬(v < 0 ∨ v > 255) := fun hh => href ⟨hb1, hh⟩
            constructor <;> omega
        exact ⟨hb1, setCell_byteCells _ v hc1 hvr, hin1⟩
    rcases inputCell_cases s with ⟨v, rest, hq, -, heq⟩ | ⟨cbk, v, rest, hq, hcbk, hreply, -, heq⟩ |
      ⟨cbk, hq, hcbk, -, -, heq⟩ | ⟨-, -, -, heq⟩
    · rw [heq]
      refine hstore s v rest hb hcells ?_ ?_
      · intro hw
        exact (hin hw).1 v (by rw [hq]; exact List.mem_cons_self _ _)
      · intro hw
        exact ⟨fun x hx => (hin hw).1 x (by rw [hq]; exact List.mem_cons_of_mem _ hx),
          (hin hw).2⟩
    · rw [heq]
      have hmem := invokeCallback_mem cbk
      have hval : cb = .WRAP → ∀ x ∈ (invokeCallback cbk).1, 0 ≤ x ∧ x ≤ 255 := by
        intro hw x hx
        obtain ⟨reply, hr, hxr⟩ := hmem.1 x hx
        exact (hin hw).2 cbk hcbk reply hr x hxr
      refine hstore _ v rest hb hcells ?_ ?_
      · intro hw
        exact hval hw v (by rw [hreply]; exact List.mem_cons_self _ _)
      · intro hw
        refine ⟨fun x hx => hval hw x (by rw [hreply]; exact List.mem_cons_of_mem _ hx), ?_⟩
        intro callback hc reply hr
        simp only [Option.some.injEq] at hc
        rw [← hc] at hr
        exact (hin hw).2 cbk hcbk reply (hmem.2 reply hr)
    · rw [heq]
      have hmem := invokeCallback_mem cbk
      refine ⟨hb, setCell_byteCells _ 0 hcells ⟨le_refl _, by decide⟩, ?_⟩
      intro hw
      refine ⟨(hin hw).1, ?_⟩
      intro callback hc reply hr
      simp only [setCell, Outcome.vm, Option.some.injEq] at hc
      rw [← hc] at hr
      exact (hin hw).2 cbk hcbk reply (hmem.2 reply hr)
    · rw [heq]
      exact ⟨hb, setCell_byteCells _ 0 hcells ⟨le_refl _, by decide⟩, hin⟩
  · exact ⟨hb, hcells, hin⟩

theorem runCall_byteCells (cb : CellBehavior) (hcb : cb = .WRAP ∨ cb = .ERROR)
    (s : Interpreter) (c : Call) (hc : c.isExecutor = true)
    (h : s.cellBehavior = cb ∧ ByteCells s ∧ (cb = .WRAP → ByteInputs s)) :
    (runCall s c).cellBehavior = cb ∧ ByteCells (runCall s c) ∧
      (cb = .WRAP → ByteInputs (runCall s c)) := by
  have hex := executors_preserve _ (stable_byteCells cb hcb) s h
  cases c with
  | configure pb cb1 => exact Bool.noConfusion hc
  | reset => exact Bool.noConfusion hc
  | loadProgram program inputData => exact Bool.noConfusion hc
  | setInputCallback callback => exact Bool.noConfusion hc
  | generatePseudocode => exact Bool.noConfusion hc
  | compileProgram => exact Bool.noConfusion hc
  | step => exact hex.1
  | runUntilEnd maxSteps => exact hex.2.1 maxSteps
  | runProgramFast maxSteps => exact hex.2.2.1 maxSteps
  | runProgramFastInterruptible stepsPerChunk maxSteps =>
    exact hex.2.2.2.1 stepsPerChunk maxSteps

/-- With the cell policy held at WRAP or ERROR, from a reset VM, after `loadProgram` and
any sequence of calls of the four executors, every cell is within `[0,255]`, provided
that under WRAP every input value (queued or returned by the callback) is within
`[0,255]`; under ERROR the input values may be any. -/
theorem cells_stay_bytes (s0 : Interpreter) (program : List Char) (inputData : List Int)
    (calls : List Call)
    (hcb : s0.cellBehavior = .WRAP ∨ s0.cellBehavior = .ERROR)
    (hin : s0.cellBehavior = .WRAP →
      ByteInputs (loadProgram (reset s0) program inputData))
    (hcalls : ∀ c ∈ calls, c.isExecutor = true) :
    ByteCells (runCalls (loadProgram (reset s0) program inputData) calls) := by
  have hstart : (loadProgram (reset s0) program inputData).cellBehavior = s0.cellBehavior ∧
      ByteCells (loadProgram (reset s0) program inputData) ∧
      (s0.cellBehavior = .WRAP → ByteInputs (loadProgram (reset s0) program inputData)) := by
    refine ⟨rfl, ?_, hin⟩
    intro v hv
    have hz : v = 0 := List.eq_of_mem_replicate hv
    rw [hz]
    exact ⟨le_refl _, by decide⟩
  generalize loadProgram (reset s0) program inputData = s at hstart
  clear hin
  induction calls generalizing s with
  | nil => exact hstart.2.1
  | cons c cs ih =>
    exact ih (fun c1 h1 => hcalls c1 (List.mem_cons_of_mem _ h1)) _
      (runCall_byteCells _ hcb s c (hcalls c (List.mem_cons_self _ _)) hstart)

/-- C24, as the code behaves: under the WRAP cell policy the `,` of each executor
stores the input value it takes as it is, without bringing it into `[0,255]`; an input
value outside `[0,255]` (a character of negative `int` value) leaves a cell outside
that range. -/
theorem wrap_input_stored_unreduced (s : Interpreter) (v : Int) (hwf : WellFormed s)
    (hb : s.cellBehavior = .WRAP) (hv : nextInput s = some v) :
    ExecutesAs s ',' (inputCell s) ∧
      ∃ t, inputCell s = .ok () t ∧ cell t = v ∧ t.cellBehavior = .WRAP ∧
        t.pointer = s.pointer ∧ ((v < 0 ∨ 255 < v) → ¬ByteCells t) := by
  refine ⟨executesAs_input s, ?_⟩
  have hne : ∀ x : Int, ¬(s.cellBehavior = .ERROR ∧ (x < 0 ∨ x > 255)) := by
    intro x hx
    rw [hb] at hx
    exact CellBehavior.noConfusion hx.1
  have hfin : ∀ s1 : Interpreter, WellFormed s1 → s1.cellBehavior = .WRAP →
      s1.pointer = s.pointer →
      cell (setCell s1 v) = v ∧ (setCell s1 v).cellBehavior = .WRAP ∧
        (setCell s1 v).pointer = s.pointer ∧ ((v < 0 ∨ 255 < v) → ¬ByteCells (setCell s1 v)) := by
    intro s1 hwf1 hb1 hp1
    have hc := cell_setCell s1 v hwf1
    refine ⟨hc, hb1, hp1, ?_⟩
    intro hout hbytes
    have hmem : cell (setCell s1 v) ∈ (setCell s1 v).memory :=
      cell_mem _ (setCell_wellFormed s1 v hwf1)
    rw [hc] at hmem
    have := hbytes v hmem
    omega
  rcases inputCell_cases s with ⟨v1, rest, -, hn, heq⟩ | ⟨cbk, v1, rest, -, -, -, hn, heq⟩ |
    ⟨cbk, -, -, -, hn, -⟩ | ⟨-, -, hn, -⟩
  · rw [hv] at hn
    obtain rfl := Option.some.inj hn
    rw [heq, storeFront_accepted s v rest (hne v)]
    exact ⟨_, rfl, hfin { s with inputBuffer := rest } hwf hb rfl⟩
  · rw [hv] at hn
    obtain rfl := Option.some.inj hn
    rw [heq]
    have hacc := storeFront_accepted { s with inputCallback := some (invokeCallback cbk).2 }
      v rest (hne v)
    rw [hacc]
    exact ⟨_, rfl, hfin _ hwf hb rfl⟩
  · rw [hv] at hn; exact Option.noConfusion hn
  · rw [hv] at hn; exact Option.noConfusion hn

/-- C24 on the text `,.` under the WRAP cell policy with one input character of value
-23: each executor leaves -23 in cell 0 (and `.` then emits the byte 233). -/
theorem wrap_input_stored_unreduced_witness :
    (∃ t, inputCell highByteVM = .ok () t ∧ cell t = -23 ∧ t.cellBehavior = .WRAP ∧
        t.pointer = highByteVM.pointer ∧ (((-23 : Int) < 0 ∨ (255 : Int) < -23) → ¬ByteCells t)) ∧
      highByteVM.cellBehavior = .WRAP ∧
      cell (step highByteVM).vm = -23 ∧
      cell (runUntilEnd highByteVM 100).vm = -23 ∧
      cell (runProgramFast highByteVM 100).vm = -23 ∧
      cell (runProgramFastInterruptible highByteVM 10 100).vm = -23 ∧
      (runProgramFast highByteVM 100).vm.outputBuffer = [233] :=
  ⟨(wrap_input_stored_unreduced highByteVM (-23) (by decide) (by decide) (by decide)).2,
    by decide, by decide, by decide, by decide, by decide, by decide⟩

end MindBoggler
